import Mathlib

set_option maxHeartbeats 1600000
set_option linter.unusedVariables false
set_option linter.unnecessarySeqFocus false

/-!
Verification of `SplitMigrator`
(`common/lib/xmodule/xmodule/modulestore/split_migrator.py`).

The migrator copies a course from the legacy (dual-tree draft/published)
modulestore into the split (branch-versioned) modulestore.  This file embeds
the migrator shallowly: legacy locations are `(category, block_id)` pairs;
split usage keys carry a course key, a block key and an optional version
(always absent in values built by this code, mirroring `make_usage_key`).
The split store persists reference values as block keys and materializes
them against the course key used for the read; this is why version-agnostic
usage-key comparison of materialized children reduces to block-key equality,
which the bridging lemmas below make explicit.

The collaborating stores (`create_item`, `update_item`,
`internal_clean_children`, ...) are not part of the sources; they are
modelled from the spec's collaborator contract (section 6).  Fallible calls
return `Option`; aborting exceptions propagate as `none`.  Every public
operation the migrator performs is also recorded in an operation trace so
that frame claims about which store is read and which is written are
statable.
-/

/-- A legacy (old-mongo) location, reduced to the parts the migrator reads:
the block's category and block id.  (Course/org/run parts are fixed per
migration and play no role in the migrator's per-block logic.) -/
structure Location where
  category : String
  block_id : String
deriving DecidableEq, Repr

/-- A split-store course key: org/course/run plus a branch name. -/
structure CourseKey where
  org : String
  course : String
  run : String
  branch : String
deriving DecidableEq, Repr

/-- The part of a usage key the split store persists for a block:
category and (optional) block id.  `block_id` is optional because the
translator can be handed `None` as the course block id. -/
structure BlockKey where
  category : String
  block_id : Option String
deriving DecidableEq, Repr

/-- A split-store usage key: a course key, a block key, and an optional
version (stripped by `version_agnostic`). -/
structure UsageKey where
  course_key : CourseKey
  key : BlockKey
  version : Option Nat
deriving DecidableEq, Repr

def CourseKey.make_usage_key (ck : CourseKey) (category : String)
    (block_id : Option String) : UsageKey :=
  ⟨ck, ⟨category, block_id⟩, none⟩

def CourseKey.for_branch (ck : CourseKey) (b : String) : CourseKey :=
  { ck with branch := b }

def UsageKey.version_agnostic (u : UsageKey) : UsageKey :=
  { u with version := none }

/-- Modelled from the spec: the branch names of `ModuleStoreEnum.BranchName`
(the enum itself lives outside the sources); the spec names the branches
"published" and "draft". -/
def BranchName.published : String := "published"

/-- Modelled from the spec: the draft branch name. -/
def BranchName.draft : String := "draft"

/-- The block key of a legacy location (the data `make_usage_key` keeps). -/
def Location.toKey (l : Location) : BlockKey := ⟨l.category, some l.block_id⟩

theorem Location.toKey_inj {a b : Location} (h : a.toKey = b.toKey) : a = b := by
  cases a; cases b
  simp [Location.toKey] at h
  simp [h.1, h.2]

/-- The four field shapes the copiers distinguish (`xblock.fields`
introspection: `Reference`, `ReferenceList`, `ReferenceValueDict`,
everything else). -/
inductive FieldKind
  | scalar
  | reference
  | referenceList
  | referenceValueDict
deriving DecidableEq, Repr

/-- A field descriptor: name plus kind (the data of the XBlock field object
the migrator consults). -/
structure FieldDesc where
  name : String
  kind : FieldKind
deriving DecidableEq, Repr

/-- A legacy field value: Python `None`, a single location, a list of
locations, a map of locations, or any other (opaque json) value. -/
inductive Value
  | null
  | loc (l : Location)
  | locList (ls : List Location)
  | locDict (kvs : List (String × Location))
  | other (json : String)
deriving DecidableEq, Repr

/-- A translated field value as the copiers produce it: translated
references, a json-serialized non-reference value (json variant), or a raw
non-reference value (field-descriptor variant). -/
inductive TValue
  | usage (u : UsageKey)
  | usageList (us : List UsageKey)
  | usageDict (kvs : List (String × UsageKey))
  | json (s : String)
  | raw (v : Value)
deriving DecidableEq, Repr

/-- Json serialization of a legacy value (`field.read_json`): `None`
serializes to json null, opaque values to themselves. -/
def read_json : Value → String
  | .null => "null"
  | .loc l => l.category ++ "+" ++ l.block_id
  | .locList ls => String.intercalate "," (ls.map fun l => l.category ++ "+" ++ l.block_id)
  | .locDict kvs => String.intercalate "," (kvs.map fun p => p.1 ++ ":" ++ p.2.category)
  | .other j => j

/-- A field schema: the field descriptors of a block category (the
`xblock.fields` dictionary, shared by a category's legacy and split
incarnations). -/
def Schema := String → List FieldDesc

/-- A legacy XBlock: its location and its explicitly-set field values
(association list field name to value; a missing name means the field is
not explicitly set). -/
structure XBlock where
  location : Location
  vals : List (String × Value)
deriving DecidableEq, Repr

/-- `module.category` of a legacy block is its location's category. -/
def XBlock.category (x : XBlock) : String := x.location.category

/-- Association-list lookup by name. -/
def alookup {β : Type} (n : String) (l : List (String × β)) : Option β :=
  (l.find? fun p => p.1 == n).map (·.2)

/-- `field.is_set_on(xblock)`: the field has an explicitly set value. -/
def XBlock.is_set (x : XBlock) (n : String) : Bool :=
  (alookup n x.vals).isSome

/-- `xblock.children`: the value of the `children` reference-list field
(empty when unset). -/
def XBlock.children (x : XBlock) : List Location :=
  match alookup "children" x.vals with
  | some (.locList ls) => ls
  | _ => []

/-- The reference translation shared by both field copiers
(`get_translation`, lines 174-181 and 208-215): category "course" is
re-pointed at the destination root's block id, everything else keeps its
category and block id, re-rooted onto the destination course key. -/
def get_translation (new_course_key : CourseKey) (course_block_id : Option String)
    (location : Location) : UsageKey :=
  new_course_key.make_usage_key location.category
    (if location.category ≠ "course" then some location.block_id else course_block_id)

/-- One field of `_get_json_fields_translate_references` (lines 185-199):
branch on the field's kind; a non-null single reference, a reference list
and a reference map are translated, everything else is json-serialized.
`none` models the exception a reference-typed field with an unexpectedly
shaped value would raise. -/
def translateJsonValue (ck : CourseKey) (cbid : Option String)
    (kind : FieldKind) (v : Value) : Option TValue :=
  if kind = .reference ∧ v ≠ .null then
    match v with
    | .loc l => some (.usage (get_translation ck cbid l))
    | _ => none
  else if kind = .referenceList then
    match v with
    | .locList ls => some (.usageList (ls.map (get_translation ck cbid)))
    | _ => none
  else if kind = .referenceValueDict then
    match v with
    | .locDict kvs => some (.usageDict (kvs.map fun p => (p.1, get_translation ck cbid p.2)))
    | _ => none
  else some (.json (read_json v))

/-- One field of `_get_fields_translate_references` (lines 219-233): same
reference branches, but a non-reference value is passed through raw. -/
def translateRawValue (ck : CourseKey) (cbid : Option String)
    (kind : FieldKind) (v : Value) : Option TValue :=
  if kind = .reference ∧ v ≠ .null then
    match v with
    | .loc l => some (.usage (get_translation ck cbid l))
    | _ => none
  else if kind = .referenceList then
    match v with
    | .locList ls => some (.usageList (ls.map (get_translation ck cbid)))
    | _ => none
  else if kind = .referenceValueDict then
    match v with
    | .locDict kvs => some (.usageDict (kvs.map fun p => (p.1, get_translation ck cbid p.2)))
    | _ => none
  else some (.raw v)

/-- The field loop of `_get_json_fields_translate_references`: walk the
block's field descriptors, keep the explicitly-set ones, translate each
value, key the result by field name. -/
def jsonCopyFields (ck : CourseKey) (cbid : Option String) (x : XBlock) :
    List FieldDesc → Option (List (String × TValue))
  | [] => some []
  | f :: fs =>
    match alookup f.name x.vals with
    | some v => do
        let tv ← translateJsonValue ck cbid f.kind v
        let rest ← jsonCopyFields ck cbid x fs
        pure ((f.name, tv) :: rest)
    | none => jsonCopyFields ck cbid x fs

/-- The field loop of `_get_fields_translate_references`: same walk, but
keyed by field descriptor with raw non-reference values. -/
def rawCopyFields (ck : CourseKey) (cbid : Option String) (x : XBlock) :
    List FieldDesc → Option (List (FieldDesc × TValue))
  | [] => some []
  | f :: fs =>
    match alookup f.name x.vals with
    | some v => do
        let tv ← translateRawValue ck cbid f.kind v
        let rest ← rawCopyFields ck cbid x fs
        pure ((f, tv) :: rest)
    | none => rawCopyFields ck cbid x fs

/-- `_get_json_fields_translate_references` (lines 170-201). -/
def get_json_fields_translate_references (schema : Schema) (x : XBlock)
    (ck : CourseKey) (cbid : Option String) : Option (List (String × TValue)) :=
  jsonCopyFields ck cbid x (schema x.category)

/-- `_get_fields_translate_references` (lines 203-235). -/
def get_fields_translate_references (schema : Schema) (x : XBlock)
    (ck : CourseKey) (cbid : Option String) : Option (List (FieldDesc × TValue)) :=
  rawCopyFields ck cbid x (schema x.category)

/-- Converts a raw copied value to its json form: what serializing the raw
variant's output would give.  Reference-shaped values are untouched. -/
def TValue.jsonize : TValue → TValue
  | .raw v => .json (read_json v)
  | t => t

/-- A persisted split-store field value: the split store stores references
as course-agnostic block keys and re-attaches the reading course key on
access (spec section 6: identifiers are version-agnostic in storage). -/
inductive SValue
  | key (k : BlockKey)
  | keyList (ks : List BlockKey)
  | keyDict (kvs : List (String × BlockKey))
  | sjson (s : String)
  | sraw (v : Value)
deriving DecidableEq, Repr

/-- Persist a translated value: strip course keys down to block keys. -/
def TValue.persist : TValue → SValue
  | .usage u => .key u.key
  | .usageList us => .keyList (us.map UsageKey.key)
  | .usageDict kvs => .keyDict (kvs.map fun p => (p.1, p.2.key))
  | .json s => .sjson s
  | .raw v => .sraw v

/-- Materialize a persisted value against the course key used for the read
(inverse of `persist`; produced usage keys carry no version). -/
def SValue.materialize (ck : CourseKey) : SValue → TValue
  | .key k => .usage ⟨ck, k, none⟩
  | .keyList ks => .usageList (ks.map fun k => ⟨ck, k, none⟩)
  | .keyDict kvs => .usageDict (kvs.map fun p => (p.1, ⟨ck, p.2, none⟩))
  | .sjson s => .json s
  | .sraw v => .raw v

/-- Persist a whole copied field dictionary (name-keyed). -/
def persistFields (fs : List (String × TValue)) : List (String × SValue) :=
  fs.map fun p => (p.1, p.2.persist)

/-- A stored split block: its block key and its explicitly-set persisted
field values. -/
structure SplitBlock where
  key : BlockKey
  vals : List (String × SValue)
deriving DecidableEq, Repr

/-- The stored `children` field of a split block as block keys (empty when
unset). -/
def SplitBlock.childKeys (b : SplitBlock) : List BlockKey :=
  match alookup "children" b.vals with
  | some (.keyList ks) => ks
  | _ => []

/-- The `children` attribute as the migrator sees it after a read on course
key `ck`: the stored block keys materialized into usage keys. -/
def childUsages (ck : CourseKey) (b : SplitBlock) : List UsageKey :=
  b.childKeys.map fun k => ⟨ck, k, none⟩

/-- `field.write_to`: set a field's value (replace the first binding of the
name, or append a new one). -/
def setVal (n : String) (v : SValue) : List (String × SValue) → List (String × SValue)
  | [] => [(n, v)]
  | p :: ps => if p.1 == n then (n, v) :: ps else p :: setVal n v ps

/-- `field.delete_from`: remove a field's explicit value. -/
def delVal (n : String) (l : List (String × SValue)) : List (String × SValue) :=
  l.filter fun p => ¬ p.1 == n

/-- Modelled from the spec: the split store's lookup of a block by its
block key within one branch's block list (`get_item` / `has_item`). -/
def findBlock (k : BlockKey) (bs : List SplitBlock) : Option SplitBlock :=
  bs.find? fun b => b.key == k

/-- Modelled from the spec: the split store's state for the one course
being migrated, one block list per branch. -/
structure SplitStore where
  published : List SplitBlock
  draft : List SplitBlock
deriving DecidableEq, Repr

/-- Modelled from the spec: `update_item` on the draft branch replaces the
stored block that has the updated block's key. -/
def updateDraft (st : SplitStore) (b : SplitBlock) : SplitStore :=
  { st with draft := st.draft.map fun x => if x.key == b.key then b else x }

/-- Modelled from the spec: `internal_clean_children` strips child
references that do not correspond to a stored block. -/
def cleanSV (keys : List BlockKey) : SValue → SValue
  | .keyList ks => .keyList (ks.filter fun k => keys.contains k)
  | v => v

/-- Modelled from the spec: `internal_clean_children` applied to every
block of a branch (only existing `children` fields are touched). -/
def cleanChildrenBlocks (bs : List SplitBlock) : List SplitBlock :=
  bs.map fun b =>
    { b with vals := b.vals.map fun p =>
        if p.1 == "children" then (p.1, cleanSV (bs.map SplitBlock.key) p.2) else p }

/-- The legacy source store, read-only: its course key parts, the course
root block, the published-only and draft-only `get_items` views, and the
`get_parent_location` / `get_item` lookups used by draft reconciliation. -/
structure SourceStore where
  org : String
  course : String
  run : String
  course_block : XBlock
  published_items : List XBlock
  draft_items : List XBlock
  parentOf : Location → Option Location
  itemOf : Location → Option XBlock

/-- Which store an operation touched. -/
inductive Target
  | src
  | dst
deriving DecidableEq, Repr

/-- One traced store operation: a read or a write against one of the two
stores, or a log-warning emission. -/
inductive StoreOp
  | read (t : Target) (name : String)
  | write (t : Target) (name : String)
  | logWarn (loc : Location)
deriving DecidableEq, Repr

/-- The block id the split store gives a newly created course root
(`create_course` default root id). -/
def splitRootId : String := "course"

/-- One iteration of the published-copy loop (lines 77-94): skip the course
root, otherwise `create_item` a block with the source block's category and
block id and the json-copied fields (course_block_id bound to the
destination root's block id). -/
def copyPublishedItem (schema : Schema) (cvl : CourseKey) (old_course_loc : Location)
    (rootBid : Option String) :
    List StoreOp × Option SplitStore → XBlock → List StoreOp × Option SplitStore
  | (tr, none), _ => (tr, none)
  | (tr, some st), module =>
    if module.location = old_course_loc then (tr, some st)
    else
      match get_json_fields_translate_references schema module cvl rootBid with
      | none => (tr, none)
      | some fields =>
        (tr ++ [.write .dst "create_item"],
         some { st with published :=
            st.published ++ [⟨⟨module.category, some module.location.block_id⟩, persistFields fields⟩] })

/-- `_copy_published_modules_to_course` (lines 69-103): create every
non-root published block, point the draft branch at the published version,
then clean dangling children out of the published branch. -/
def copy_published_modules_to_course (schema : Schema) (src : SourceStore)
    (cvl : CourseKey) (pubRoot : UsageKey) (st : SplitStore) (tr : List StoreOp) :
    List StoreOp × Option SplitStore :=
  let tr0 := tr ++ [.read .src "get_items"]
  match src.published_items.foldl
      (copyPublishedItem schema cvl src.course_block.location pubRoot.key.block_id)
      (tr0, some st) with
  | (tr1, none) => (tr1, none)
  | (tr1, some st1) =>
    let tr2 := tr1 ++ [.read .dst "get_course_index_info", .write .dst "update_course_index"]
    let st2 := { st1 with draft := st1.published }
    (tr2 ++ [.write .dst "internal_clean_children"],
     some { st2 with published := cleanChildrenBlocks st2.published })

/-- The delete loop of lines 121-123: for every field descriptor, if the
split block has an explicit value but the source draft block does not,
delete it from the split block. -/
def deleteUnset (schema : Schema) (module : XBlock) (split_module : SplitBlock) : SplitBlock :=
  let step := fun vs (f : FieldDesc) =>
    if (alookup f.name vs).isSome = true ∧ module.is_set f.name = false then
      delVal f.name vs
    else vs
  { split_module with vals := (schema module.category).foldl step split_module.vals }

/-- The write loop of lines 124-127: write every translated explicitly-set
source field onto the split block. -/
def writeFields (b : SplitBlock) (fvs : List (FieldDesc × TValue)) : SplitBlock :=
  { b with vals := fvs.foldl (fun vs fv => setVal fv.1.name fv.2.persist vs) b.vals }

/-- One iteration of the draft loop (lines 115-139): a draft whose
translated id already exists in the destination draft tree is updated in
place (delete-then-write reconciliation); a private draft is created and
recorded as awaiting adoption. -/
def reconcileDraftItem (schema : Schema) (dloc : CourseKey) (pubRoot : UsageKey) :
    List StoreOp × Option (SplitStore × List (Location × UsageKey)) → XBlock →
    List StoreOp × Option (SplitStore × List (Location × UsageKey))
  | (tr, none), _ => (tr, none)
  | (tr, some (st, pending)), module =>
    let new_locator := dloc.make_usage_key module.category (some module.location.block_id)
    let tr1 := tr ++ [.read .dst "has_item"]
    match findBlock new_locator.key st.draft with
    | some split_module =>
      let tr2 := tr1 ++ [.read .dst "get_item"]
      match get_fields_translate_references schema module dloc pubRoot.key.block_id with
      | none => (tr2, none)
      | some fvs =>
        let updated := writeFields (deleteUnset schema module split_module) fvs
        (tr2 ++ [.write .dst "update_item"], some (updateDraft st updated, pending))
    | none =>
      match get_json_fields_translate_references schema module dloc pubRoot.key.block_id with
      | none => (tr1, none)
      | some fields =>
        (tr1 ++ [.write .dst "create_item"],
         some ({ st with draft := st.draft ++ [⟨new_locator.key, persistFields fields⟩] },
               pending ++ [(module.location, new_locator)]))

/-- The inner scan of lines 163-166: the first index at or after the cursor
whose element satisfies the match. -/
def findFromBy {α : Type} (q : α → Bool) : List α → Nat → Option Nat
  | [], _ => none
  | y :: ys, 0 => if q y then some 0 else (findFromBy q ys 0).map (· + 1)
  | _ :: ys, c + 1 => (findFromBy q ys c).map (· + 1)

/-- Python `list.insert`: insert at the index, clamping to append when the
index exceeds the length. -/
def pyInsert {α : Type} (n : Nat) (x : α) : List α → List α
  | [] => [x]
  | y :: ys =>
    match n with
    | 0 => x :: y :: ys
    | m + 1 => y :: pyInsert m x ys

/-- The sibling-cursor walk of lines 157-166, over the materialized
children: walk the source parent's children up to (not including) the
adopted child; for each preceding sibling found at or after the cursor in
the destination children, move the cursor one past it. -/
def cursorWalkU (dloc : CourseKey) (draft_location : Location) :
    List Location → Nat → List UsageKey → Nat
  | [], c, _ => c
  | old_child :: olds, c, kids =>
    if old_child = draft_location then c
    else
      match findFromBy
          (fun child => child.version_agnostic ==
            dloc.make_usage_key old_child.category (some old_child.block_id))
          kids c with
      | some i => cursorWalkU dloc draft_location olds (i + 1) kids
      | none => cursorWalkU dloc draft_location olds c kids

/-- One pending adoption (lines 140-168): resolve the source parent (warn
and continue when absent), translate it into the destination draft tree,
skip when the child is already present version-agnostically, otherwise
insert the child at the sibling-cursor position and update the parent. -/
def adoptEntry (src : SourceStore) (dloc : CourseKey) (pubRoot : UsageKey) :
    List StoreOp × Option SplitStore → Location × UsageKey →
    List StoreOp × Option SplitStore
  | (tr, none), _ => (tr, none)
  | (tr, some st), (draft_location, new_locator) =>
    let tr1 := tr ++ [.read .src "get_parent_location"]
    match src.parentOf draft_location with
    | none => (tr1 ++ [.logWarn draft_location], some st)
    | some parent_loc =>
      let tr2 := tr1 ++ [.read .src "get_item"]
      match src.itemOf parent_loc with
      | none => (tr2, none)
      | some old_parent =>
        let split_parent_loc := dloc.make_usage_key parent_loc.category
          (if parent_loc.category ≠ "course" then some parent_loc.block_id
           else pubRoot.key.block_id)
        let tr3 := tr2 ++ [.read .dst "get_item"]
        match findBlock split_parent_loc.key st.draft with
        | none => (tr3, none)
        | some new_parent =>
          let kids := childUsages dloc new_parent
          if kids.any fun child => new_locator == child.version_agnostic then
            (tr3, some st)
          else
            let cursor := cursorWalkU dloc draft_location old_parent.children 0 kids
            let kids' := pyInsert cursor new_locator kids
            let vals' := setVal "children" (TValue.usageList kids').persist new_parent.vals
            let parent' : SplitBlock := { new_parent with vals := vals' }
            (tr3 ++ [.write .dst "update_item"], some (updateDraft st parent'))

/-- `_add_draft_modules_to_course` (lines 105-168): reconcile every
draft-only block, then run the pending adoptions. -/
def add_draft_modules_to_course (schema : Schema) (src : SourceStore)
    (pubRoot : UsageKey) (st : SplitStore) (tr : List StoreOp) :
    List StoreOp × Option SplitStore :=
  let dloc := pubRoot.course_key.for_branch BranchName.draft
  let tr0 := tr ++ [.read .src "get_items"]
  match src.draft_items.foldl (reconcileDraftItem schema dloc pubRoot) (tr0, some (st, [])) with
  | (tr1, none) => (tr1, none)
  | (tr1, some (st1, pending)) => pending.foldl (adoptEntry src dloc pubRoot) (tr1, some st1)

/-- `migrate_mongo_course` (lines 28-67): create the destination course
from the source course root's copied fields, copy the published tree, then
reconcile the drafts.  Returns the trace of store operations and, on
success, the new course key with the final destination state. -/
def migrate_mongo_course (schema : Schema) (src : SourceStore)
    (new_org new_course new_run : Option String) :
    List StoreOp × Option (CourseKey × SplitStore) :=
  let original_course := src.course_block
  let org := new_org.getD src.org
  let course := new_course.getD src.course
  let run := new_run.getD src.run
  let new_course_key : CourseKey := ⟨org, course, run, BranchName.published⟩
  let tr0 : List StoreOp := [.read .src "get_course"]
  match get_json_fields_translate_references schema original_course new_course_key none with
  | none => (tr0, none)
  | some fields =>
    let root : SplitBlock := ⟨⟨"course", some splitRootId⟩, persistFields fields⟩
    let st0 : SplitStore := ⟨[root], []⟩
    let pubRoot : UsageKey := new_course_key.make_usage_key "course" (some splitRootId)
    let tr1 := tr0 ++ [.write .dst "create_course"]
    match copy_published_modules_to_course schema src new_course_key pubRoot st0 tr1 with
    | (tr2, none) => (tr2, none)
    | (tr2, some st2) =>
      match add_draft_modules_to_course schema src pubRoot st2 tr2 with
      | (tr3, none) => (tr3, none)
      | (tr3, some st3) => (tr3, some (new_course_key, st3))

/-! ### Copier lemmas (claims C4, C7, C10) -/

theorem translateJsonValue_eq_jsonize_raw (ck : CourseKey) (cbid : Option String)
    (k : FieldKind) (v : Value) :
    translateJsonValue ck cbid k v = (translateRawValue ck cbid k v).map TValue.jsonize := by
  unfold translateJsonValue translateRawValue
  by_cases h1 : k = .reference ∧ v ≠ .null
  · simp only [if_pos h1]
    cases v <;> simp [TValue.jsonize]
  · simp only [if_neg h1]
    by_cases h2 : k = .referenceList
    · simp only [if_pos h2]
      cases v <;> simp [TValue.jsonize]
    · simp only [if_neg h2]
      by_cases h3 : k = .referenceValueDict
      · simp only [if_pos h3]
        cases v <;> simp [TValue.jsonize]
      · simp [if_neg h3, TValue.jsonize]

theorem jsonCopyFields_eq_jsonize (ck : CourseKey) (cbid : Option String) (x : XBlock) :
    ∀ fs : List FieldDesc,
      jsonCopyFields ck cbid x fs =
        (rawCopyFields ck cbid x fs).map (List.map fun p => (p.1.name, p.2.jsonize))
  | [] => by simp [jsonCopyFields, rawCopyFields]
  | f :: fs => by
    have ih := jsonCopyFields_eq_jsonize ck cbid x fs
    unfold jsonCopyFields rawCopyFields
    cases halo : alookup f.name x.vals with
    | none => simpa using ih
    | some v =>
      simp only [translateJsonValue_eq_jsonize_raw, ih, bind, Option.bind]
      cases translateRawValue ck cbid f.kind v with
      | none => simp
      | some tv =>
        cases rawCopyFields ck cbid x fs with
        | none => simp
        | some rest => simp

theorem translateRawValue_jsonize_id (ck : CourseKey) (cbid : Option String)
    {k : FieldKind} {v : Value} {tv : TValue}
    (h : translateRawValue ck cbid k v = some tv)
    (hkind : k = .referenceList ∨ k = .referenceValueDict ∨ (k = .reference ∧ v ≠ .null)) :
    tv.jsonize = tv := by
  rcases hkind with hk | hk | ⟨hk, hv⟩
  · subst hk
    cases v <;> simp [translateRawValue] at h <;> simp [← h, TValue.jsonize]
  · subst hk
    cases v <;> simp [translateRawValue] at h <;> simp [← h, TValue.jsonize]
  · subst hk
    cases v with
    | null => exact absurd rfl hv
    | loc l =>
      simp [translateRawValue] at h
      simp [← h, TValue.jsonize]
    | locList ls => simp [translateRawValue] at h
    | locDict kvs => simp [translateRawValue] at h
    | other j => simp [translateRawValue] at h

theorem rawCopyFields_keys (ck : CourseKey) (cbid : Option String) (x : XBlock) :
    ∀ fs : List FieldDesc, ∀ res, rawCopyFields ck cbid x fs = some res →
      res.map (·.1) = fs.filter fun f => x.is_set f.name
  | [], res => by
    intro h
    simp [rawCopyFields] at h
    simp [← h]
  | f :: fs, res => by
    unfold rawCopyFields
    cases halo : alookup f.name x.vals with
    | none =>
      intro h
      have hset : x.is_set f.name = false := by simp [XBlock.is_set, halo]
      simp [List.filter, hset, rawCopyFields_keys ck cbid x fs res h]
    | some v =>
      cases htv : translateRawValue ck cbid f.kind v with
      | none => simp [bind, Option.bind, htv]
      | some tv =>
        cases hrest : rawCopyFields ck cbid x fs with
        | none => simp [bind, Option.bind, htv, hrest]
        | some rest =>
          simp only [bind, Option.bind, htv, hrest, Option.pure_def]
          intro h
          have hset : x.is_set f.name = true := by simp [XBlock.is_set, halo]
          cases h
          simp [List.filter, hset, rawCopyFields_keys ck cbid x fs rest hrest]

theorem rawCopyFields_ref_jsonize (ck : CourseKey) (cbid : Option String) (x : XBlock) :
    ∀ fs : List FieldDesc, ∀ res, rawCopyFields ck cbid x fs = some res →
      ∀ p ∈ res,
        (p.1.kind = .referenceList ∨ p.1.kind = .referenceValueDict ∨
         (p.1.kind = .reference ∧ alookup p.1.name x.vals ≠ some Value.null)) →
        p.2.jsonize = p.2
  | [], res => by simp [rawCopyFields]; rintro rfl; simp
  | f :: fs, res => by
    unfold rawCopyFields
    cases halo : alookup f.name x.vals with
    | none => exact fun h => rawCopyFields_ref_jsonize ck cbid x fs res h
    | some v =>
      cases htv : translateRawValue ck cbid f.kind v with
      | none => simp [bind, Option.bind, htv]
      | some tv =>
        cases hrest : rawCopyFields ck cbid x fs with
        | none => simp [bind, Option.bind, htv, hrest]
        | some rest =>
          simp only [bind, Option.bind, htv, hrest, Option.pure_def]
          intro h
          cases h
          intro p hp hkind
          rcases List.mem_cons.mp hp with hhead | htail
          · subst hhead
            refine translateRawValue_jsonize_id ck cbid htv ?_
            rcases hkind with hk | hk | ⟨hk, hvne⟩
            · exact Or.inl hk
            · exact Or.inr (Or.inl hk)
            · refine Or.inr (Or.inr ⟨hk, ?_⟩)
              intro hv
              rw [hv] at halo
              exact hvne halo
          · exact rawCopyFields_ref_jsonize ck cbid x fs rest hrest p htail hkind

theorem jsonCopyFields_cons_unset (ck : CourseKey) (cbid : Option String) (x : XBlock)
    (f : FieldDesc) (fs : List FieldDesc) (h : alookup f.name x.vals = none) :
    jsonCopyFields ck cbid x (f :: fs) = jsonCopyFields ck cbid x fs := by
  simp only [jsonCopyFields, h]

theorem jsonCopyFields_cons_set (ck : CourseKey) (cbid : Option String) (x : XBlock)
    (f : FieldDesc) (fs : List FieldDesc) (v : Value) (h : alookup f.name x.vals = some v) :
    jsonCopyFields ck cbid x (f :: fs) =
      (translateJsonValue ck cbid f.kind v).bind fun tv =>
        (jsonCopyFields ck cbid x fs).bind fun rest => some ((f.name, tv) :: rest) := by
  simp only [jsonCopyFields, h]
  rfl

theorem rawCopyFields_cons_unset (ck : CourseKey) (cbid : Option String) (x : XBlock)
    (f : FieldDesc) (fs : List FieldDesc) (h : alookup f.name x.vals = none) :
    rawCopyFields ck cbid x (f :: fs) = rawCopyFields ck cbid x fs := by
  simp only [rawCopyFields, h]

theorem rawCopyFields_cons_set (ck : CourseKey) (cbid : Option String) (x : XBlock)
    (f : FieldDesc) (fs : List FieldDesc) (v : Value) (h : alookup f.name x.vals = some v) :
    rawCopyFields ck cbid x (f :: fs) =
      (translateRawValue ck cbid f.kind v).bind fun tv =>
        (rawCopyFields ck cbid x fs).bind fun rest => some ((f, tv) :: rest) := by
  simp only [rawCopyFields, h]
  rfl

theorem jsonCopyFields_mem_null (ck : CourseKey) (cbid : Option String) (x : XBlock) :
    ∀ fs : List FieldDesc, ∀ f ∈ fs, f.kind = .reference →
      alookup f.name x.vals = some Value.null →
      ∀ res, jsonCopyFields ck cbid x fs = some res →
        (f.name, TValue.json "null") ∈ res
  | [], f => by simp
  | g :: fs, f => by
    intro hf hkind hnull res
    rcases List.mem_cons.mp hf with hfg | hftail
    · subst hfg
      rw [jsonCopyFields_cons_set ck cbid x f fs Value.null hnull, hkind]
      have htr : translateJsonValue ck cbid FieldKind.reference Value.null =
          some (TValue.json "null") := by
        simp [translateJsonValue, read_json]
      rw [htr]
      cases hrest : jsonCopyFields ck cbid x fs with
      | none => simp
      | some rest =>
        simp only [Option.some_bind]
        intro h
        cases h
        exact List.mem_cons_self _ _
    · cases halo : alookup g.name x.vals with
      | none =>
        rw [jsonCopyFields_cons_unset ck cbid x g fs halo]
        exact jsonCopyFields_mem_null ck cbid x fs f hftail hkind hnull res
      | some v =>
        rw [jsonCopyFields_cons_set ck cbid x g fs v halo]
        cases htv : translateJsonValue ck cbid g.kind v with
        | none => simp
        | some tv =>
          cases hrest : jsonCopyFields ck cbid x fs with
          | none => simp
          | some rest =>
            simp only [Option.some_bind]
            intro h
            cases h
            exact List.mem_cons_of_mem _
              (jsonCopyFields_mem_null ck cbid x fs f hftail hkind hnull rest hrest)

theorem rawCopyFields_mem_null (ck : CourseKey) (cbid : Option String) (x : XBlock) :
    ∀ fs : List FieldDesc, ∀ f ∈ fs, f.kind = .reference →
      alookup f.name x.vals = some Value.null →
      ∀ res, rawCopyFields ck cbid x fs = some res →
        (f, TValue.raw Value.null) ∈ res
  | [], f => by simp
  | g :: fs, f => by
    intro hf hkind hnull res
    rcases List.mem_cons.mp hf with hfg | hftail
    · subst hfg
      rw [rawCopyFields_cons_set ck cbid x f fs Value.null hnull, hkind]
      have htr : translateRawValue ck cbid FieldKind.reference Value.null =
          some (TValue.raw Value.null) := by
        simp [translateRawValue]
      rw [htr]
      cases hrest : rawCopyFields ck cbid x fs with
      | none => simp
      | some rest =>
        simp only [Option.some_bind]
        intro h
        cases h
        exact List.mem_cons_self _ _
    · cases halo : alookup g.name x.vals with
      | none =>
        rw [rawCopyFields_cons_unset ck cbid x g fs halo]
        exact rawCopyFields_mem_null ck cbid x fs f hftail hkind hnull res
      | some v =>
        rw [rawCopyFields_cons_set ck cbid x g fs v halo]
        cases htv : translateRawValue ck cbid g.kind v with
        | none => simp
        | some tv =>
          cases hrest : rawCopyFields ck cbid x fs with
          | none => simp
          | some rest =>
            simp only [Option.some_bind]
            intro h
            cases h
            exact List.mem_cons_of_mem _
              (rawCopyFields_mem_null ck cbid x fs f hftail hkind hnull rest hrest)


/-- Claim C4: the reference translation used by both field copiers maps a
"course"-category identifier to a usage key on the destination course key
whose block id is the `course_block_id` argument (regardless of the source
root's block id), and keeps any other category's category and block id
unchanged, re-rooted to the destination namespace. -/
theorem claim4_translation_root_substitution (ck : CourseKey)
    (cbid : Option String) (loc : Location) :
    (loc.category = "course" →
      get_translation ck cbid loc = ck.make_usage_key "course" cbid) ∧
    (loc.category ≠ "course" →
      get_translation ck cbid loc = ck.make_usage_key loc.category (some loc.block_id)) := by
  constructor
  · intro h
    simp [get_translation, h]
  · intro h
    simp [get_translation, h]

theorem claim4_translation_root_substitution_witness :
    ((⟨"course", "origroot"⟩ : Location).category = "course" ∧
      get_translation ⟨"o", "c", "r", "pub"⟩ (some "newroot") ⟨"course", "origroot"⟩ =
        CourseKey.make_usage_key ⟨"o", "c", "r", "pub"⟩ "course" (some "newroot")) ∧
    ((⟨"chapter", "ch1"⟩ : Location).category ≠ "course" ∧
      get_translation ⟨"o", "c", "r", "pub"⟩ (some "newroot") ⟨"chapter", "ch1"⟩ =
        CourseKey.make_usage_key ⟨"o", "c", "r", "pub"⟩ "chapter" (some "ch1")) :=
  ⟨⟨rfl, (claim4_translation_root_substitution ⟨"o", "c", "r", "pub"⟩ (some "newroot")
      ⟨"course", "origroot"⟩).1 rfl⟩,
   ⟨by decide,
    (claim4_translation_root_substitution ⟨"o", "c", "r", "pub"⟩ (some "newroot")
      ⟨"chapter", "ch1"⟩).2 (by decide)⟩⟩

/-- Claim C7: a `Reference`-kind field explicitly set to null is never
handed to the reference translation by either field copier: its
per-field translation succeeds on the pass-through branch (json `null`
respectively the raw null value), and in each copier's output the field
still appears, with its null value untranslated. -/
theorem claim7_null_reference_passthrough (schema : Schema) (x : XBlock)
    (ck : CourseKey) (cbid : Option String) (f : FieldDesc)
    (hmem : f ∈ schema x.category) (hkind : f.kind = .reference)
    (hnull : alookup f.name x.vals = some Value.null) :
    translateJsonValue ck cbid f.kind Value.null = some (TValue.json "null") ∧
    translateRawValue ck cbid f.kind Value.null = some (TValue.raw Value.null) ∧
    (∀ res, get_json_fields_translate_references schema x ck cbid = some res →
      (f.name, TValue.json "null") ∈ res) ∧
    (∀ res, get_fields_translate_references schema x ck cbid = some res →
      (f, TValue.raw Value.null) ∈ res) := by
  refine ⟨?_, ?_, ?_, ?_⟩
  · rw [hkind]; simp [translateJsonValue, read_json]
  · rw [hkind]; simp [translateRawValue]
  · exact fun res h => jsonCopyFields_mem_null ck cbid x _ f hmem hkind hnull res h
  · exact fun res h => rawCopyFields_mem_null ck cbid x _ f hmem hkind hnull res h

theorem claim7_null_reference_passthrough_witness :
    (⟨"ref_fld", FieldKind.reference⟩ : FieldDesc) ∈
        (fun _ => [⟨"ref_fld", FieldKind.reference⟩] : Schema) "vertical" ∧
    (⟨"ref_fld", FieldKind.reference⟩ : FieldDesc).kind = FieldKind.reference ∧
    alookup "ref_fld" [("ref_fld", Value.null)] = some Value.null ∧
    (∀ res, get_json_fields_translate_references (fun _ => [⟨"ref_fld", FieldKind.reference⟩])
        ⟨⟨"vertical", "v1"⟩, [("ref_fld", Value.null)]⟩ ⟨"o", "c", "r", "pub"⟩ none = some res →
      ("ref_fld", TValue.json "null") ∈ res) := by
  refine ⟨by decide, rfl, by decide, ?_⟩
  exact (claim7_null_reference_passthrough (fun _ => [⟨"ref_fld", FieldKind.reference⟩])
    ⟨⟨"vertical", "v1"⟩, [("ref_fld", Value.null)]⟩ ⟨"o", "c", "r", "pub"⟩ none
    ⟨"ref_fld", FieldKind.reference⟩ (by decide) rfl (by decide)).2.2.1

/-- Claim C10: the two field-copier variants agree.  The json variant is
exactly the raw variant with each entry re-keyed by the field's name and
each non-reference raw value json-serialized (so they fail together, emit
the same fields in the same order, and coincide on translated reference
values); the emitted fields are exactly the explicitly-set ones; and every
reference-typed entry's value is unchanged by json-serialization, i.e. the
two variants produce identical translated reference values. -/
theorem claim10_copier_agreement (schema : Schema) (x : XBlock)
    (ck : CourseKey) (cbid : Option String) :
    get_json_fields_translate_references schema x ck cbid =
      (get_fields_translate_references schema x ck cbid).map
        (List.map fun p => (p.1.name, p.2.jsonize)) ∧
    (∀ res, get_fields_translate_references schema x ck cbid = some res →
      res.map (·.1) = (schema x.category).filter fun f => x.is_set f.name) ∧
    (∀ res, get_fields_translate_references schema x ck cbid = some res →
      ∀ p ∈ res,
        (p.1.kind = .referenceList ∨ p.1.kind = .referenceValueDict ∨
         (p.1.kind = .reference ∧ alookup p.1.name x.vals ≠ some Value.null)) →
        p.2.jsonize = p.2) :=
  ⟨jsonCopyFields_eq_jsonize ck cbid x (schema x.category),
   fun res h => rawCopyFields_keys ck cbid x (schema x.category) res h,
   fun res h => rawCopyFields_ref_jsonize ck cbid x (schema x.category) res h⟩

theorem claim10_copier_agreement_witness :
    ∃ res, get_fields_translate_references
        (fun _ => [⟨"children", FieldKind.referenceList⟩, ⟨"data", FieldKind.scalar⟩])
        ⟨⟨"chapter", "ch1"⟩, [("children", Value.locList [⟨"vertical", "v1"⟩]), ("data", Value.other "d")]⟩
        ⟨"o", "c", "r", "pub"⟩ (some "course") = some res ∧
      res.map (·.1) = [⟨"children", FieldKind.referenceList⟩, ⟨"data", FieldKind.scalar⟩] := by
  refine ⟨[(⟨"children", FieldKind.referenceList⟩,
      TValue.usageList [⟨⟨"o", "c", "r", "pub"⟩, ⟨"vertical", some "v1"⟩, none⟩]),
     (⟨"data", FieldKind.scalar⟩, TValue.raw (Value.other "d"))], by decide, ?_⟩
  exact (claim10_copier_agreement
    (fun _ => [⟨"children", FieldKind.referenceList⟩, ⟨"data", FieldKind.scalar⟩])
    ⟨⟨"chapter", "ch1"⟩, [("children", Value.locList [⟨"vertical", "v1"⟩]), ("data", Value.other "d")]⟩
    ⟨"o", "c", "r", "pub"⟩ (some "course")).2.1 _ (by decide)

/-! ### Published-copy lemmas (claims C2, C5) -/

theorem copyPublishedItem_none (schema : Schema) (cvl : CourseKey) (oldLoc : Location)
    (rootBid : Option String) :
    ∀ (items : List XBlock) (tr : List StoreOp),
      items.foldl (copyPublishedItem schema cvl oldLoc rootBid) (tr, none) = (tr, none)
  | [], tr => rfl
  | m :: ms, tr => copyPublishedItem_none schema cvl oldLoc rootBid ms tr

/-- The block the published-copy loop creates for one source block. -/
def publishedBlockOf (schema : Schema) (cvl : CourseKey) (rootBid : Option String)
    (m : XBlock) : Option SplitBlock :=
  (get_json_fields_translate_references schema m cvl rootBid).map fun fs =>
    ⟨⟨m.category, some m.location.block_id⟩, persistFields fs⟩

/-- The list of blocks the published-copy loop creates, in order. -/
def createdPublished (schema : Schema) (cvl : CourseKey) (oldLoc : Location)
    (rootBid : Option String) : List XBlock → Option (List SplitBlock)
  | [] => some []
  | m :: ms =>
    if m.location = oldLoc then createdPublished schema cvl oldLoc rootBid ms
    else
      (publishedBlockOf schema cvl rootBid m).bind fun b =>
        (createdPublished schema cvl oldLoc rootBid ms).map (b :: ·)

theorem copyPublishedFold_snd (schema : Schema) (cvl : CourseKey) (oldLoc : Location)
    (rootBid : Option String) :
    ∀ (items : List XBlock) (tr : List StoreOp) (st : SplitStore),
      (items.foldl (copyPublishedItem schema cvl oldLoc rootBid) (tr, some st)).2 =
        (createdPublished schema cvl oldLoc rootBid items).map
          fun bs => { st with published := st.published ++ bs }
  | [], tr, st => by simp [createdPublished]
  | m :: ms, tr, st => by
    simp only [List.foldl_cons, createdPublished]
    by_cases hm : m.location = oldLoc
    · rw [if_pos hm]
      have hstep : copyPublishedItem schema cvl oldLoc rootBid (tr, some st) m = (tr, some st) := by
        simp [copyPublishedItem, hm]
      rw [hstep, copyPublishedFold_snd schema cvl oldLoc rootBid ms tr st]
    · rw [if_neg hm]
      cases hcp : get_json_fields_translate_references schema m cvl rootBid with
      | none =>
        have hstep : copyPublishedItem schema cvl oldLoc rootBid (tr, some st) m = (tr, none) := by
          simp [copyPublishedItem, hm, hcp]
        rw [hstep, copyPublishedItem_none schema cvl oldLoc rootBid ms tr]
        simp [publishedBlockOf, hcp]
      | some fs =>
        have hstep : copyPublishedItem schema cvl oldLoc rootBid (tr, some st) m =
            (tr ++ [.write .dst "create_item"],
             some { st with published :=
                st.published ++ [⟨⟨m.category, some m.location.block_id⟩, persistFields fs⟩] }) := by
          simp [copyPublishedItem, hm, hcp]
        rw [hstep, copyPublishedFold_snd schema cvl oldLoc rootBid ms _ _]
        simp [publishedBlockOf, hcp]
        cases createdPublished schema cvl oldLoc rootBid ms with
        | none => simp
        | some bs => simp

theorem createdPublished_keys (schema : Schema) (cvl : CourseKey) (oldLoc : Location)
    (rootBid : Option String) :
    ∀ (items : List XBlock) (bs : List SplitBlock),
      createdPublished schema cvl oldLoc rootBid items = some bs →
      bs.map SplitBlock.key =
        (items.filter fun m => m.location ≠ oldLoc).map fun m => m.location.toKey
  | [], bs => by
    intro h
    simp [createdPublished] at h
    simp [← h]
  | m :: ms, bs => by
    intro h
    simp only [createdPublished] at h
    by_cases hm : m.location = oldLoc
    · rw [if_pos hm] at h
      have := createdPublished_keys schema cvl oldLoc rootBid ms bs h
      simp [List.filter_cons, hm, this]
    · rw [if_neg hm] at h
      cases hcp : get_json_fields_translate_references schema m cvl rootBid with
      | none => simp [publishedBlockOf, hcp] at h
      | some fs =>
        cases hrest : createdPublished schema cvl oldLoc rootBid ms with
        | none => simp [publishedBlockOf, hcp, hrest] at h
        | some bs' =>
          simp [publishedBlockOf, hcp, hrest] at h
          have := createdPublished_keys schema cvl oldLoc rootBid ms bs' hrest
          simp [← h, List.filter_cons, hm, this, Location.toKey, XBlock.category]

theorem createdPublished_mem (schema : Schema) (cvl : CourseKey) (oldLoc : Location)
    (rootBid : Option String) :
    ∀ (items : List XBlock) (bs : List SplitBlock),
      createdPublished schema cvl oldLoc rootBid items = some bs →
      ∀ m ∈ items, m.location ≠ oldLoc →
        ∃ fs, get_json_fields_translate_references schema m cvl rootBid = some fs ∧
          (⟨⟨m.category, some m.location.block_id⟩, persistFields fs⟩ : SplitBlock) ∈ bs
  | [], bs => by simp
  | m :: ms, bs => by
    intro h m' hm' hne
    simp only [createdPublished] at h
    rcases List.mem_cons.mp hm' with rfl | htail
    · rw [if_neg hne] at h
      cases hcp : get_json_fields_translate_references schema m' cvl rootBid with
      | none => simp [publishedBlockOf, hcp] at h
      | some fs =>
        refine ⟨fs, rfl, ?_⟩
        cases hrest : createdPublished schema cvl oldLoc rootBid ms with
        | none => simp [publishedBlockOf, hcp, hrest] at h
        | some bs' =>
          simp [publishedBlockOf, hcp, hrest] at h
          rw [← h]
          exact List.mem_cons_self _ _
    · by_cases hm : m.location = oldLoc
      · rw [if_pos hm] at h
        exact createdPublished_mem schema cvl oldLoc rootBid ms bs h m' htail hne
      · rw [if_neg hm] at h
        cases hcp : get_json_fields_translate_references schema m cvl rootBid with
        | none => simp [publishedBlockOf, hcp] at h
        | some fs =>
          cases hrest : createdPublished schema cvl oldLoc rootBid ms with
          | none => simp [publishedBlockOf, hcp, hrest] at h
          | some bs' =>
            simp [publishedBlockOf, hcp, hrest] at h
            rcases createdPublished_mem schema cvl oldLoc rootBid ms bs' hrest m' htail hne
              with ⟨fs', h1, h2⟩
            rw [← h]
            exact ⟨fs', h1, List.mem_cons_of_mem _ h2⟩

theorem reconcileFold_none (schema : Schema) (dloc : CourseKey) (pubRoot : UsageKey) :
    ∀ (items : List XBlock) (tr : List StoreOp),
      items.foldl (reconcileDraftItem schema dloc pubRoot) (tr, none) = (tr, none)
  | [], tr => rfl
  | m :: ms, tr => reconcileFold_none schema dloc pubRoot ms tr

theorem adoptFold_none (src : SourceStore) (dloc : CourseKey) (pubRoot : UsageKey) :
    ∀ (pending : List (Location × UsageKey)) (tr : List StoreOp),
      pending.foldl (adoptEntry src dloc pubRoot) (tr, none) = (tr, none)
  | [], tr => rfl
  | e :: es, tr => adoptFold_none src dloc pubRoot es tr

theorem reconcileDraftItem_bot (schema : Schema) (dloc : CourseKey) (pubRoot : UsageKey)
    (tr : List StoreOp) (m : XBlock) :
    reconcileDraftItem schema dloc pubRoot (tr, none) m = (tr, none) := rfl

theorem reconcileDraftItem_update (schema : Schema) (dloc : CourseKey) (pubRoot : UsageKey)
    (tr : List StoreOp) (st : SplitStore) (pending : List (Location × UsageKey))
    (m : XBlock) (split_module : SplitBlock) (fvs : List (FieldDesc × TValue))
    (hfb : findBlock (dloc.make_usage_key m.category (some m.location.block_id)).key st.draft =
      some split_module)
    (hfv : get_fields_translate_references schema m dloc pubRoot.key.block_id = some fvs) :
    reconcileDraftItem schema dloc pubRoot (tr, some (st, pending)) m =
      (tr ++ [.read .dst "has_item", .read .dst "get_item", .write .dst "update_item"],
       some (updateDraft st (writeFields (deleteUnset schema m split_module) fvs), pending)) := by
  simp [reconcileDraftItem, hfb, hfv]

theorem reconcileDraftItem_update_fail (schema : Schema) (dloc : CourseKey) (pubRoot : UsageKey)
    (tr : List StoreOp) (st : SplitStore) (pending : List (Location × UsageKey))
    (m : XBlock) (split_module : SplitBlock)
    (hfb : findBlock (dloc.make_usage_key m.category (some m.location.block_id)).key st.draft =
      some split_module)
    (hfv : get_fields_translate_references schema m dloc pubRoot.key.block_id = none) :
    reconcileDraftItem schema dloc pubRoot (tr, some (st, pending)) m =
      (tr ++ [.read .dst "has_item", .read .dst "get_item"], none) := by
  simp [reconcileDraftItem, hfb, hfv]

theorem reconcileDraftItem_create (schema : Schema) (dloc : CourseKey) (pubRoot : UsageKey)
    (tr : List StoreOp) (st : SplitStore) (pending : List (Location × UsageKey))
    (m : XBlock) (fields : List (String × TValue))
    (hfb : findBlock (dloc.make_usage_key m.category (some m.location.block_id)).key st.draft =
      none)
    (hcp : get_json_fields_translate_references schema m dloc pubRoot.key.block_id = some fields) :
    reconcileDraftItem schema dloc pubRoot (tr, some (st, pending)) m =
      (tr ++ [.read .dst "has_item", .write .dst "create_item"],
       some ({ st with draft := st.draft ++
          [⟨(dloc.make_usage_key m.category (some m.location.block_id)).key, persistFields fields⟩] },
         pending ++ [(m.location, dloc.make_usage_key m.category (some m.location.block_id))])) := by
  simp [reconcileDraftItem, hfb, hcp]

theorem reconcileDraftItem_create_fail (schema : Schema) (dloc : CourseKey) (pubRoot : UsageKey)
    (tr : List StoreOp) (st : SplitStore) (pending : List (Location × UsageKey))
    (m : XBlock)
    (hfb : findBlock (dloc.make_usage_key m.category (some m.location.block_id)).key st.draft =
      none)
    (hcp : get_json_fields_translate_references schema m dloc pubRoot.key.block_id = none) :
    reconcileDraftItem schema dloc pubRoot (tr, some (st, pending)) m =
      (tr ++ [.read .dst "has_item"], none) := by
  simp [reconcileDraftItem, hfb, hcp]

/-- The destination draft-tree parent key the adoption step computes
(line 148-151). -/
def splitParentKey (dloc : CourseKey) (pubRoot : UsageKey) (parent_loc : Location) : BlockKey :=
  (dloc.make_usage_key parent_loc.category
    (if parent_loc.category ≠ "course" then some parent_loc.block_id
     else pubRoot.key.block_id)).key

theorem adoptEntry_bot (src : SourceStore) (dloc : CourseKey) (pubRoot : UsageKey)
    (tr : List StoreOp) (e : Location × UsageKey) :
    adoptEntry src dloc pubRoot (tr, none) e = (tr, none) := rfl

theorem adoptEntry_warn (src : SourceStore) (dloc : CourseKey) (pubRoot : UsageKey)
    (tr : List StoreOp) (st : SplitStore) (l : Location) (nl : UsageKey)
    (hp : src.parentOf l = none) :
    adoptEntry src dloc pubRoot (tr, some st) (l, nl) =
      (tr ++ [.read .src "get_parent_location", .logWarn l], some st) := by
  simp [adoptEntry, hp]

theorem adoptEntry_itemfail (src : SourceStore) (dloc : CourseKey) (pubRoot : UsageKey)
    (tr : List StoreOp) (st : SplitStore) (l : Location) (nl : UsageKey) (p : Location)
    (hp : src.parentOf l = some p) (hi : src.itemOf p = none) :
    adoptEntry src dloc pubRoot (tr, some st) (l, nl) =
      (tr ++ [.read .src "get_parent_location", .read .src "get_item"], none) := by
  simp [adoptEntry, hp, hi]

theorem adoptEntry_destfail (src : SourceStore) (dloc : CourseKey) (pubRoot : UsageKey)
    (tr : List StoreOp) (st : SplitStore) (l : Location) (nl : UsageKey) (p : Location)
    (op : XBlock) (hp : src.parentOf l = some p) (hi : src.itemOf p = some op)
    (hfb : findBlock (splitParentKey dloc pubRoot p) st.draft = none) :
    adoptEntry src dloc pubRoot (tr, some st) (l, nl) =
      (tr ++ [.read .src "get_parent_location", .read .src "get_item", .read .dst "get_item"],
       none) := by
  simp only [splitParentKey] at hfb
  simp only [adoptEntry, hp, hi, hfb]
  simp

theorem adoptEntry_skip (src : SourceStore) (dloc : CourseKey) (pubRoot : UsageKey)
    (tr : List StoreOp) (st : SplitStore) (l : Location) (nl : UsageKey) (p : Location)
    (op : XBlock) (np : SplitBlock) (hp : src.parentOf l = some p) (hi : src.itemOf p = some op)
    (hfb : findBlock (splitParentKey dloc pubRoot p) st.draft = some np)
    (hmem : ((childUsages dloc np).any fun child => nl == child.version_agnostic) = true) :
    adoptEntry src dloc pubRoot (tr, some st) (l, nl) =
      (tr ++ [.read .src "get_parent_location", .read .src "get_item", .read .dst "get_item"],
       some st) := by
  simp only [splitParentKey] at hfb
  simp only [adoptEntry, hp, hi, hfb, hmem]
  simp

theorem adoptEntry_insert (src : SourceStore) (dloc : CourseKey) (pubRoot : UsageKey)
    (tr : List StoreOp) (st : SplitStore) (l : Location) (nl : UsageKey) (p : Location)
    (op : XBlock) (np : SplitBlock) (hp : src.parentOf l = some p) (hi : src.itemOf p = some op)
    (hfb : findBlock (splitParentKey dloc pubRoot p) st.draft = some np)
    (hmem : ((childUsages dloc np).any fun child => nl == child.version_agnostic) = false) :
    adoptEntry src dloc pubRoot (tr, some st) (l, nl) =
      (tr ++ [.read .src "get_parent_location", .read .src "get_item", .read .dst "get_item",
        .write .dst "update_item"],
       some (updateDraft st ⟨np.key,
         setVal "children"
           (TValue.usageList (pyInsert (cursorWalkU dloc l op.children 0 (childUsages dloc np))
             nl (childUsages dloc np))).persist np.vals⟩)) := by
  simp only [splitParentKey] at hfb
  simp only [adoptEntry, hp, hi, hfb, hmem]
  simp

theorem reconcileFold_published (schema : Schema) (dloc : CourseKey) (pubRoot : UsageKey) :
    ∀ (items : List XBlock) (tr : List StoreOp) (st : SplitStore)
      (pending : List (Location × UsageKey)) (tr' : List StoreOp) (st' : SplitStore)
      (pending' : List (Location × UsageKey)),
      items.foldl (reconcileDraftItem schema dloc pubRoot) (tr, some (st, pending)) =
        (tr', some (st', pending')) →
      st'.published = st.published
  | [], tr, st, pending, tr', st', pending' => by
    intro h
    cases h
    rfl
  | m :: ms, tr, st, pending, tr', st', pending' => by
    intro h
    simp only [List.foldl_cons] at h
    cases hfb : findBlock (dloc.make_usage_key m.category (some m.location.block_id)).key
        st.draft with
    | some split_module =>
      cases hfv : get_fields_translate_references schema m dloc pubRoot.key.block_id with
      | none =>
        rw [reconcileDraftItem_update_fail schema dloc pubRoot tr st pending m split_module
          hfb hfv, reconcileFold_none schema dloc pubRoot ms _] at h
        simp at h
      | some fvs =>
        rw [reconcileDraftItem_update schema dloc pubRoot tr st pending m split_module fvs
          hfb hfv] at h
        have := reconcileFold_published schema dloc pubRoot ms _ _ _ _ _ _ h
        exact this
    | none =>
      cases hcp : get_json_fields_translate_references schema m dloc pubRoot.key.block_id with
      | none =>
        rw [reconcileDraftItem_create_fail schema dloc pubRoot tr st pending m hfb hcp,
          reconcileFold_none schema dloc pubRoot ms _] at h
        simp at h
      | some fields =>
        rw [reconcileDraftItem_create schema dloc pubRoot tr st pending m fields hfb hcp] at h
        have := reconcileFold_published schema dloc pubRoot ms _ _ _ _ _ _ h
        exact this

theorem adoptFold_published (src : SourceStore) (dloc : CourseKey) (pubRoot : UsageKey) :
    ∀ (pending : List (Location × UsageKey)) (tr : List StoreOp) (st : SplitStore)
      (tr' : List StoreOp) (st' : SplitStore),
      pending.foldl (adoptEntry src dloc pubRoot) (tr, some st) = (tr', some st') →
      st'.published = st.published
  | [], tr, st, tr', st' => by
    intro h
    cases h
    rfl
  | e :: es, tr, st, tr', st' => by
    intro h
    simp only [List.foldl_cons] at h
    rcases e with ⟨l, nl⟩
    cases hp : src.parentOf l with
    | none =>
      rw [adoptEntry_warn src dloc pubRoot tr st l nl hp] at h
      exact adoptFold_published src dloc pubRoot es _ _ _ _ h
    | some p =>
      cases hi : src.itemOf p with
      | none =>
        rw [adoptEntry_itemfail src dloc pubRoot tr st l nl p hp hi,
          adoptFold_none src dloc pubRoot es _] at h
        simp at h
      | some op =>
        cases hfb : findBlock (splitParentKey dloc pubRoot p) st.draft with
        | none =>
          rw [adoptEntry_destfail src dloc pubRoot tr st l nl p op hp hi hfb,
            adoptFold_none src dloc pubRoot es _] at h
          simp at h
        | some np =>
          cases hmem : (childUsages dloc np).any fun child => nl == child.version_agnostic with
          | true =>
            rw [adoptEntry_skip src dloc pubRoot tr st l nl p op np hp hi hfb hmem] at h
            exact adoptFold_published src dloc pubRoot es _ _ _ _ h
          | false =>
            rw [adoptEntry_insert src dloc pubRoot tr st l nl p op np hp hi hfb hmem] at h
            have := adoptFold_published src dloc pubRoot es _ _ _ _ h
            exact this

/-- The whole draft phase leaves the published branch untouched. -/
theorem add_draft_modules_published (schema : Schema) (src : SourceStore)
    (pubRoot : UsageKey) (st : SplitStore) (tr : List StoreOp) (tr' : List StoreOp)
    (st' : SplitStore)
    (h : add_draft_modules_to_course schema src pubRoot st tr = (tr', some st')) :
    st'.published = st.published := by
  simp only [add_draft_modules_to_course] at h
  rcases hfold : src.draft_items.foldl
      (reconcileDraftItem schema (pubRoot.course_key.for_branch BranchName.draft) pubRoot)
      (tr ++ [.read .src "get_items"], some (st, [])) with ⟨tr1, r1⟩
  rw [hfold] at h
  cases r1 with
  | none => simp at h
  | some sp =>
    rcases sp with ⟨st1, pending⟩
    have h1 : st1.published = st.published :=
      reconcileFold_published schema _ pubRoot src.draft_items _ st [] tr1 st1 pending hfold
    have h2 : st'.published = st1.published :=
      adoptFold_published src _ pubRoot pending tr1 st1 tr' st' h
    rw [h2, h1]

theorem filter_key_length : ∀ (bs : List SplitBlock) (k : BlockKey),
    (bs.filter fun b => b.key = k).length =
      ((bs.map SplitBlock.key).filter fun k' => k' = k).length
  | [], k => rfl
  | b :: bs, k => by
    by_cases h : b.key = k
    · simp [List.filter_cons, h, filter_key_length bs k]
    · simp [List.filter_cons, h, filter_key_length bs k]

theorem cleanChildren_map_key (bs : List SplitBlock) :
    (cleanChildrenBlocks bs).map SplitBlock.key = bs.map SplitBlock.key := by
  simp [cleanChildrenBlocks]

theorem keys_filter_len_one : ∀ (l : List BlockKey) (k : BlockKey), l.Nodup → k ∈ l →
    (l.filter fun k' => k' = k).length = 1
  | [], k => by simp
  | a :: l, k => by
    intro hnd hk
    rcases List.mem_cons.mp hk with rfl | htail
    · have : k ∉ l := (List.nodup_cons.mp hnd).1
      have hzero : (l.filter fun k' => k' = k).length = 0 := by
        rw [List.length_eq_zero]
        rw [List.filter_eq_nil]
        intro a ha
        simp only [decide_eq_true_eq]
        intro heq
        exact this (heq ▸ ha)
      simp [List.filter_cons, hzero]
    · have hne : a ≠ k := by
        intro heq
        exact (List.nodup_cons.mp hnd).1 (heq ▸ htail)
      have hrec := keys_filter_len_one l k (List.nodup_cons.mp hnd).2 htail
      simp [List.filter_cons, hne, hrec]

theorem keys_filter_len_zero (l : List BlockKey) (k : BlockKey) (h : k ∉ l) :
    (l.filter fun k' => k' = k).length = 0 := by
  rw [List.length_eq_zero, List.filter_eq_nil]
  intro a ha
  simp only [decide_eq_true_eq]
  intro heq
  exact h (heq ▸ ha)

theorem mem_length_one {α : Type} : ∀ {l : List α} {b : α}, l.length = 1 → b ∈ l → l = [b]
  | [a], b => by
    intro _ hm
    rcases List.mem_singleton.mp hm with rfl
    rfl
  | [], b => by simp
  | a :: c :: l, b => by
    intro h
    simp at h

/-- Anatomy of a successful migration: the returned course key is the
published-branch destination key, and the final published branch is the
cleaned concatenation of the created root and the created published
blocks. -/
theorem migrate_anatomy (schema : Schema) (src : SourceStore)
    (new_org new_course new_run : Option String) (ck : CourseKey) (st : SplitStore)
    (hmig : (migrate_mongo_course schema src new_org new_course new_run).2 = some (ck, st)) :
    ck = ⟨new_org.getD src.org, new_course.getD src.course, new_run.getD src.run,
      BranchName.published⟩ ∧
    ∃ rootfs bs,
      get_json_fields_translate_references schema src.course_block ck none = some rootfs ∧
      createdPublished schema ck src.course_block.location (some splitRootId)
        src.published_items = some bs ∧
      st.published = cleanChildrenBlocks
        (⟨⟨"course", some splitRootId⟩, persistFields rootfs⟩ :: bs) := by
  simp only [migrate_mongo_course] at hmig
  cases hroot : get_json_fields_translate_references schema src.course_block
      ⟨new_org.getD src.org, new_course.getD src.course, new_run.getD src.run,
        BranchName.published⟩ none with
  | none =>
    rw [hroot] at hmig
    simp at hmig
  | some rootfs =>
    simp only [hroot] at hmig
    rcases hcp2 : copy_published_modules_to_course schema src
        ⟨new_org.getD src.org, new_course.getD src.course, new_run.getD src.run,
          BranchName.published⟩
        (CourseKey.make_usage_key ⟨new_org.getD src.org, new_course.getD src.course,
          new_run.getD src.run, BranchName.published⟩ "course" (some splitRootId))
        ⟨[⟨⟨"course", some splitRootId⟩, persistFields rootfs⟩], []⟩
        ([.read .src "get_course"] ++ [.write .dst "create_course"]) with ⟨tr2, r2⟩
    simp only [hcp2] at hmig
    cases r2 with
    | none => simp at hmig
    | some st2 =>
      rcases hadd : add_draft_modules_to_course schema src
          (CourseKey.make_usage_key ⟨new_org.getD src.org, new_course.getD src.course,
            new_run.getD src.run, BranchName.published⟩ "course" (some splitRootId))
          st2 tr2 with ⟨tr3, r3⟩
      simp only [hadd] at hmig
      cases r3 with
      | none => simp at hmig
      | some st3 =>
        simp only [Option.some.injEq, Prod.mk.injEq] at hmig
        rcases hmig with ⟨hck, hst⟩
        subst hck
        subst hst
        refine ⟨rfl, rootfs, ?_⟩
        simp only [copy_published_modules_to_course, CourseKey.make_usage_key] at hcp2
        rcases hfold : src.published_items.foldl
            (copyPublishedItem schema
              ⟨new_org.getD src.org, new_course.getD src.course, new_run.getD src.run,
                BranchName.published⟩
              src.course_block.location (some splitRootId))
            ([.read .src "get_course"] ++ [.write .dst "create_course"] ++
              [.read .src "get_items"],
             some ⟨[⟨⟨"course", some splitRootId⟩, persistFields rootfs⟩], []⟩)
            with ⟨tr1f, r1f⟩
        rw [hfold] at hcp2
        cases r1f with
        | none => simp at hcp2
        | some st1 =>
          have hsnd := copyPublishedFold_snd schema
            ⟨new_org.getD src.org, new_course.getD src.course, new_run.getD src.run,
              BranchName.published⟩
            src.course_block.location (some splitRootId) src.published_items
            ([.read .src "get_course"] ++ [.write .dst "create_course"] ++
              [.read .src "get_items"])
            ⟨[⟨⟨"course", some splitRootId⟩, persistFields rootfs⟩], []⟩
          rw [hfold] at hsnd
          cases hcreated : createdPublished schema
              ⟨new_org.getD src.org, new_course.getD src.course, new_run.getD src.run,
                BranchName.published⟩
              src.course_block.location (some splitRootId) src.published_items with
          | none =>
            rw [hcreated] at hsnd
            simp at hsnd
          | some bs =>
            rw [hcreated] at hsnd
            simp only [Option.map_some] at hsnd
            have hst1 : st1 = { published :=
                ⟨⟨"course", some splitRootId⟩, persistFields rootfs⟩ :: bs, draft := [] } := by
              have : (tr1f, some st1).2 = _ := hsnd
              simpa using this
            subst hst1
            simp only [Option.some.injEq, Prod.mk.injEq] at hcp2
            rcases hcp2 with ⟨htr2, hst2⟩
            have hpub3 : st3.published = st2.published :=
              add_draft_modules_published schema src _ st2 tr2 tr3 st3 hadd
            refine ⟨bs, hroot, rfl, ?_⟩
            rw [hpub3, ← hst2]

theorem clean_filter_key_length (bs : List SplitBlock) (k : BlockKey) :
    ((cleanChildrenBlocks bs).filter fun b => b.key = k).length =
      (bs.filter fun b => b.key = k).length := by
  rw [filter_key_length, cleanChildren_map_key, ← filter_key_length]

theorem alookup_children_clean (keys : List BlockKey) :
    ∀ vals : List (String × SValue),
      alookup "children" (vals.map fun p =>
        if p.1 == "children" then (p.1, cleanSV keys p.2) else p) =
      (alookup "children" vals).map (cleanSV keys)
  | [] => rfl
  | p :: ps => by
    by_cases hb : p.1 = "children"
    · simp [alookup, hb]
    · have h1 := alookup_children_clean keys ps
      simp only [alookup] at h1
      have hstep : (if (p.1 == "children") = true then (p.1, cleanSV keys p.2) else p) = p := by
        have hbeq : (p.1 == "children") = false := by simpa using hb
        rw [hbeq]
        simp
      simp only [List.map_cons, hstep, alookup]
      rw [List.find?_cons_of_neg _ (by simpa using hb),
        List.find?_cons_of_neg _ (by simpa using hb)]
      exact h1

theorem cleanChildrenBlocks_childKeys_sub (l : List SplitBlock) (b : SplitBlock)
    (hb : b ∈ cleanChildrenBlocks l) (k : BlockKey) (hk : k ∈ b.childKeys) :
    k ∈ l.map SplitBlock.key := by
  simp only [cleanChildrenBlocks, List.mem_map] at hb
  rcases hb with ⟨b0, hb0, rfl⟩
  simp only [SplitBlock.childKeys, alookup_children_clean] at hk
  cases hal : alookup "children" b0.vals with
  | none => rw [hal] at hk; simp at hk
  | some sv =>
    rw [hal] at hk
    cases sv with
    | keyList ks =>
      simp only [Option.map_some', cleanSV] at hk
      have := List.of_mem_filter hk
      simpa using this
    | key k' => simp [cleanSV] at hk
    | keyDict kvs => simp [cleanSV] at hk
    | sjson s => simp [cleanSV] at hk
    | sraw v => simp [cleanSV] at hk

theorem cleanChildrenBlocks_no_dangling (l : List SplitBlock) (b : SplitBlock)
    (hb : b ∈ cleanChildrenBlocks l) (k : BlockKey) (hk : k ∈ b.childKeys) :
    ∃ b' ∈ cleanChildrenBlocks l, b'.key = k := by
  have hmem := cleanChildrenBlocks_childKeys_sub l b hb k hk
  simp only [List.mem_map] at hmem
  rcases hmem with ⟨b0, hb0, rfl⟩
  refine ⟨{ b0 with vals := b0.vals.map fun p =>
      if p.1 == "children" then (p.1, cleanSV (l.map SplitBlock.key) p.2) else p }, ?_, rfl⟩
  simp only [cleanChildrenBlocks, List.mem_map]
  exact ⟨b0, hb0, rfl⟩

/-- Claim C5: after a completed migration, every child reference held by a
block of the destination published tree resolves to a block that exists in
that tree: the published copy has no dangling child pointers. -/
theorem claim5_no_dangling_published (schema : Schema) (src : SourceStore)
    (new_org new_course new_run : Option String) (ck : CourseKey) (st : SplitStore)
    (hmig : (migrate_mongo_course schema src new_org new_course new_run).2 = some (ck, st)) :
    ∀ b ∈ st.published, ∀ k ∈ b.childKeys, ∃ b' ∈ st.published, b'.key = k := by
  rcases migrate_anatomy schema src new_org new_course new_run ck st hmig
    with ⟨-, rootfs, bs, -, -, hpub⟩
  rw [hpub]
  exact cleanChildrenBlocks_no_dangling _

/-- Claim C2: a completed migration creates, for every non-root block of
the source published view, exactly one destination published block with
the same category and block id (the source location's block key); the
creation pass gave it exactly the json-copied fields with course_block_id
bound to the destination root's block id; and the course root block key
occurs exactly once in the destination published tree (the root is never
copied a second time). -/
theorem claim2_published_completeness (schema : Schema) (src : SourceStore)
    (new_org new_course new_run : Option String) (ck : CourseKey) (st : SplitStore)
    (hmig : (migrate_mongo_course schema src new_org new_course new_run).2 = some (ck, st))
    (hnodup : (src.published_items.map XBlock.location).Nodup)
    (hroot : ∀ m ∈ src.published_items, m.location ≠ src.course_block.location →
      m.location.toKey ≠ ⟨"course", some splitRootId⟩) :
    (∀ m ∈ src.published_items, m.location ≠ src.course_block.location →
      ∃ fs bs,
        get_json_fields_translate_references schema m ck (some splitRootId) = some fs ∧
        createdPublished schema ck src.course_block.location (some splitRootId)
          src.published_items = some bs ∧
        bs.filter (fun b => b.key = m.location.toKey) =
          [⟨m.location.toKey, persistFields fs⟩] ∧
        (st.published.filter fun b => b.key = m.location.toKey).length = 1) ∧
    (st.published.filter fun b => b.key = (⟨"course", some splitRootId⟩ : BlockKey)).length = 1 := by
  rcases migrate_anatomy schema src new_org new_course new_run ck st hmig
    with ⟨-, rootfs, bs, -, hcreated, hpub⟩
  have hkeys := createdPublished_keys schema ck src.course_block.location (some splitRootId)
    src.published_items bs hcreated
  have hndk : (bs.map SplitBlock.key).Nodup := by
    rw [hkeys]
    have h1 : ((src.published_items.filter fun m => m.location ≠ src.course_block.location).map
        XBlock.location).Nodup :=
      (hnodup.sublist (List.Sublist.map XBlock.location (List.filter_sublist _)))
    have h2 := h1.map (fun a b (h : Location.toKey a = Location.toKey b) => Location.toKey_inj h)
    rw [List.map_map] at h2
    exact h2
  constructor
  · intro m hm hne
    rcases createdPublished_mem schema ck src.course_block.location (some splitRootId)
      src.published_items bs hcreated m hm hne with ⟨fs, hfs, hbmem⟩
    have hkmem : m.location.toKey ∈ bs.map SplitBlock.key := by
      rw [hkeys]
      refine List.mem_map_of_mem (fun m : XBlock => m.location.toKey) ?_
      rw [List.mem_filter]
      exact ⟨hm, by simpa using hne⟩
    have hlen : (bs.filter fun b => b.key = m.location.toKey).length = 1 := by
      rw [filter_key_length]
      exact keys_filter_len_one _ _ hndk hkmem
    refine ⟨fs, bs, hfs, hcreated, ?_, ?_⟩
    · refine mem_length_one hlen ?_
      rw [List.mem_filter]
      exact ⟨hbmem, by simp⟩
    · rw [hpub, clean_filter_key_length]
      have hrne : (⟨⟨"course", some splitRootId⟩, persistFields rootfs⟩ : SplitBlock).key ≠
          m.location.toKey := fun h => hroot m hm hne h.symm
      simp only [List.filter_cons]
      rw [if_neg (by simpa using hrne)]
      exact hlen
  · rw [hpub, clean_filter_key_length]
    simp only [List.filter_cons]
    rw [if_pos (by simp)]
    have : ((⟨"course", some splitRootId⟩ : BlockKey) ∉ bs.map SplitBlock.key) := by
      rw [hkeys]
      intro hmem
      rcases List.mem_map.mp hmem with ⟨m, hmm, heq⟩
      have hne : m.location ≠ src.course_block.location := by
        have := (List.mem_filter.mp hmm).2
        simpa using this
      exact hroot m (List.mem_filter.mp hmm).1 hne heq
    have hzero : (bs.filter fun b => b.key = (⟨"course", some splitRootId⟩ : BlockKey)).length
        = 0 := by
      rw [filter_key_length]
      exact keys_filter_len_zero _ _ this
    simp [hzero]

/-! ### Concrete sample migrations used by the witnesses -/

/-- A small concrete schema: every category has a reference-list `children`
field and a scalar `data` field. -/
def sampleSchema : Schema :=
  fun _ => [⟨"children", FieldKind.referenceList⟩, ⟨"data", FieldKind.scalar⟩]

def sampleCourseLoc : Location := ⟨"course", "crs"⟩

def sampleChapterLoc : Location := ⟨"chapter", "p"⟩

def sampleALoc : Location := ⟨"vertical", "a"⟩

def sampleBLoc : Location := ⟨"vertical", "b"⟩

def sampleCLoc : Location := ⟨"vertical", "c"⟩

def sampleCourseBlock : XBlock := ⟨sampleCourseLoc, [("children", .locList [sampleChapterLoc])]⟩

def sampleChapterPub : XBlock :=
  ⟨sampleChapterLoc, [("children", .locList [sampleALoc, sampleCLoc])]⟩

def sampleChapterDraft : XBlock :=
  ⟨sampleChapterLoc, [("children", .locList [sampleALoc, sampleBLoc, sampleCLoc])]⟩

def sampleABlock : XBlock := ⟨sampleALoc, [("data", .other "A")]⟩

def sampleBBlock : XBlock := ⟨sampleBLoc, [("data", .other "B")]⟩

def sampleCBlock : XBlock := ⟨sampleCLoc, [("data", .other "C")]⟩

/-- The spec's private-draft adoption scenario: the chapter is published
with children [a, c]; b exists only in draft; the draft-preferred chapter
lists [a, b, c]. -/
def sampleSrc : SourceStore :=
  { org := "o", course := "c", run := "r"
    course_block := sampleCourseBlock
    published_items := [sampleCourseBlock, sampleChapterPub, sampleABlock, sampleCBlock]
    draft_items := [sampleBBlock]
    parentOf := fun l => if l = sampleBLoc then some sampleChapterLoc else none
    itemOf := fun l => if l = sampleChapterLoc then some sampleChapterDraft else none }

def sampleCK : CourseKey := ⟨"o", "c", "r", BranchName.published⟩

def sampleSt : SplitStore :=
  ((migrate_mongo_course sampleSchema sampleSrc none none none).2.map Prod.snd).getD ⟨[], []⟩

theorem claim2_published_completeness_witness :
    (migrate_mongo_course sampleSchema sampleSrc none none none).2 =
      some (sampleCK, sampleSt) ∧
    ∃ fs bs,
      get_json_fields_translate_references sampleSchema sampleChapterPub sampleCK
        (some splitRootId) = some fs ∧
      createdPublished sampleSchema sampleCK sampleSrc.course_block.location
        (some splitRootId) sampleSrc.published_items = some bs ∧
      bs.filter (fun b => b.key = sampleChapterLoc.toKey) =
        [⟨sampleChapterLoc.toKey, persistFields fs⟩] ∧
      (sampleSt.published.filter fun b => b.key = sampleChapterLoc.toKey).length = 1 :=
  ⟨by decide,
   (claim2_published_completeness sampleSchema sampleSrc none none none sampleCK sampleSt
      (by decide) (by decide) (by decide)).1 sampleChapterPub (by decide) (by decide)⟩

theorem claim5_no_dangling_published_witness :
    ∃ b' ∈ sampleSt.published, b'.key = sampleALoc.toKey :=
  claim5_no_dangling_published sampleSchema sampleSrc none none none sampleCK sampleSt
    (by decide)
    ((findBlock sampleChapterLoc.toKey sampleSt.published).getD ⟨⟨"", none⟩, []⟩)
    (by decide) sampleALoc.toKey (by decide)

/-! ### Draft update-in-place lemmas (claim C3) -/

theorem alookup_cons {β : Type} (n : String) (p : String × β) (l : List (String × β)) :
    alookup n (p :: l) = if (p.1 == n) = true then some p.2 else alookup n l := by
  by_cases h : (p.1 == n) = true
  · rw [if_pos h]
    simp only [alookup]
    have hf : List.find? (fun q => q.1 == n) (p :: l) = some p := List.find?_cons_of_pos _ h
    rw [hf]
    rfl
  · rw [if_neg h]
    simp only [alookup]
    rw [List.find?_cons_of_neg _ (by simpa using h)]

theorem delVal_lookup (k n : String) : ∀ vs : List (String × SValue),
    alookup n (delVal k vs) = if k = n then none else alookup n vs
  | [] => by by_cases h : k = n <;> simp [delVal, alookup, h]
  | p :: vs => by
    have ih := delVal_lookup k n vs
    by_cases hpk : p.1 = k
    · have h1 : delVal k (p :: vs) = delVal k vs := by
        simp [delVal, List.filter_cons, hpk]
      rw [h1, ih]
      by_cases hkn : k = n
      · simp [hkn]
      · rw [if_neg hkn, if_neg hkn, alookup_cons]
        have h2 : (p.1 == n) = false := by
          have : ¬ p.1 = n := fun h => hkn (by rw [← hpk, h])
          simpa using this
        rw [h2]
        simp
    · have h1 : delVal k (p :: vs) = p :: delVal k vs := by
        simp [delVal, List.filter_cons, hpk]
      rw [h1, alookup_cons, alookup_cons]
      by_cases hpn : p.1 = n
      · have h2 : (p.1 == n) = true := by simpa using hpn
        rw [h2]
        have hkn : ¬ k = n := fun h => hpk (by rw [h, hpn])
        simp [hkn]
      · have h2 : (p.1 == n) = false := by simpa using hpn
        rw [h2]
        simp only [Bool.false_eq_true, if_false]
        rw [ih]

theorem setVal_lookup (k n : String) (v : SValue) : ∀ vs : List (String × SValue),
    alookup n (setVal k v vs) = if k = n then some v else alookup n vs
  | [] => by
    by_cases h : k = n
    · simp [setVal, alookup, h]
    · have hb : (k == n) = false := by simpa using h
      simp [setVal, alookup, hb, h]
  | p :: vs => by
    have ih := setVal_lookup k n v vs
    by_cases hpk : p.1 = k
    · have hb : (p.1 == k) = true := by simpa using hpk
      have h1 : setVal k v (p :: vs) = (k, v) :: vs := by simp [setVal, hb]
      rw [h1, alookup_cons, alookup_cons]
      by_cases hkn : k = n
      · have h2 : (k == n) = true := by simpa using hkn
        simp [h2, hkn]
      · have h2 : (k == n) = false := by simpa using hkn
        have h3 : (p.1 == n) = false := by
          have : ¬ p.1 = n := fun h => hkn (by rw [← hpk, h])
          simpa using this
        simp [h2, h3, hkn]
    · have hb : (p.1 == k) = false := by simpa using hpk
      have h1 : setVal k v (p :: vs) = p :: setVal k v vs := by simp [setVal, hb]
      rw [h1, alookup_cons, alookup_cons]
      by_cases hpn : p.1 = n
      · have h2 : (p.1 == n) = true := by simpa using hpn
        have hkn : ¬ k = n := fun h => hpk (by rw [h, hpn])
        simp [h2, hkn]
      · have h2 : (p.1 == n) = false := by simpa using hpn
        simp [h2, ih]

theorem deleteUnset_fold_lookup (m : XBlock) :
    ∀ (fs : List FieldDesc) (vs : List (String × SValue)) (n : String),
      alookup n (fs.foldl
        (fun vs f =>
          if (alookup f.name vs).isSome = true ∧ m.is_set f.name = false then
            delVal f.name vs
          else vs)
        vs) =
      if n ∈ fs.map FieldDesc.name ∧ m.is_set n = false then none else alookup n vs
  | [], vs, n => by simp
  | f :: fs, vs, n => by
    simp only [List.foldl_cons]
    rw [deleteUnset_fold_lookup m fs _ n]
    by_cases hn : n ∈ fs.map FieldDesc.name ∧ m.is_set n = false
    · rw [if_pos hn, if_pos ⟨List.mem_cons_of_mem _ hn.1, hn.2⟩]
    · rw [if_neg hn]
      by_cases hfn : f.name = n ∧ m.is_set n = false
      · have hmem : n ∈ (f :: fs).map FieldDesc.name := by
          rw [← hfn.1]
          exact List.mem_map_of_mem FieldDesc.name (List.mem_cons_self f fs)
        by_cases hset : (alookup f.name vs).isSome = true ∧ m.is_set f.name = false
        · rw [if_pos hset, delVal_lookup, if_pos hfn.1, if_pos ⟨hmem, hfn.2⟩]
        · rw [if_neg hset, if_pos ⟨hmem, hfn.2⟩]
          rcases hfn with ⟨hf1, hunset⟩
          have hno : ¬ (alookup f.name vs).isSome = true := by
            intro hs
            refine hset ⟨hs, ?_⟩
            rw [hf1]
            exact hunset
          rw [hf1] at hno
          simpa using hno
      · have hcond : ¬ (n ∈ (f :: fs).map FieldDesc.name ∧ m.is_set n = false) := by
          intro hc
          rcases hc with ⟨hmem, hunset⟩
          rw [List.map_cons] at hmem
          rcases List.mem_cons.mp hmem with heq | htail
          · exact hfn ⟨heq.symm, hunset⟩
          · exact hn ⟨htail, hunset⟩
        by_cases hset : (alookup f.name vs).isSome = true ∧ m.is_set f.name = false
        · have hne : ¬ f.name = n := by
            intro heq
            refine hfn ⟨heq, ?_⟩
            rw [← heq]
            exact hset.2
          rw [if_pos hset, delVal_lookup, if_neg hne, if_neg hcond]
        · rw [if_neg hset, if_neg hcond]

theorem writeFields_fold_lookup :
    ∀ (fvs : List (FieldDesc × TValue)) (vs : List (String × SValue)) (n : String),
      (fvs.map fun p => p.1.name).Nodup →
      alookup n (fvs.foldl (fun vs fv => setVal fv.1.name fv.2.persist vs) vs) =
        match fvs.find? (fun p => p.1.name == n) with
        | some fv => some fv.2.persist
        | none => alookup n vs
  | [], vs, n => by simp
  | fv :: fvs, vs, n => by
    intro hnd
    rw [List.map_cons] at hnd
    have hhead : fv.1.name ∉ fvs.map (fun p => p.1.name) := (List.nodup_cons.mp hnd).1
    have htail : (fvs.map fun p => p.1.name).Nodup := (List.nodup_cons.mp hnd).2
    simp only [List.foldl_cons]
    rw [writeFields_fold_lookup fvs _ n htail]
    by_cases hfn : fv.1.name = n
    · have hb : (fv.1.name == n) = true := by simpa using hfn
      have hf : List.find? (fun p => p.1.name == n) (fv :: fvs) = some fv :=
        List.find?_cons_of_pos _ hb
      rw [hf]
      have hnot : fvs.find? (fun p => p.1.name == n) = none := by
        rw [List.find?_eq_none]
        intro q hq
        simp only [beq_iff_eq]
        intro heq
        refine hhead ?_
        have hqm : q.1.name ∈ fvs.map (fun p => p.1.name) :=
          List.mem_map_of_mem (fun p : FieldDesc × TValue => p.1.name) hq
        rw [heq, ← hfn] at hqm
        exact hqm
      rw [hnot, setVal_lookup, if_pos hfn]
    · have hb : (fv.1.name == n) = false := by simpa using hfn
      have hf : List.find? (fun p => p.1.name == n) (fv :: fvs) =
          List.find? (fun p => p.1.name == n) fvs :=
        List.find?_cons_of_neg _ (by simp [hb])
      rw [hf]
      cases hfind : fvs.find? (fun p => p.1.name == n) with
      | some q => rfl
      | none => rw [setVal_lookup, if_neg hfn]

theorem rawCopyFields_find_unset (ck : CourseKey) (cbid : Option String) (x : XBlock)
    (fs : List FieldDesc) (res : List (FieldDesc × TValue))
    (h : rawCopyFields ck cbid x fs = some res)
    (n : String) (halo : alookup n x.vals = none) :
    res.find? (fun p => p.1.name == n) = none := by
  rw [List.find?_eq_none]
  intro q hq
  simp only [beq_iff_eq]
  intro heq
  have hk := rawCopyFields_keys ck cbid x fs res h
  have hm : q.1 ∈ res.map (·.1) := List.mem_map_of_mem _ hq
  rw [hk] at hm
  have hset := (List.mem_filter.mp hm).2
  rw [heq] at hset
  simp [XBlock.is_set, halo] at hset

theorem rawCopyFields_find_set (ck : CourseKey) (cbid : Option String) (x : XBlock) :
    ∀ fs : List FieldDesc, (fs.map FieldDesc.name).Nodup →
      ∀ res, rawCopyFields ck cbid x fs = some res →
      ∀ f ∈ fs, ∀ v, alookup f.name x.vals = some v →
        ∃ tv, translateRawValue ck cbid f.kind v = some tv ∧
          res.find? (fun p => p.1.name == f.name) = some (f, tv)
  | [], _, res => by simp
  | g :: fs, hnd, res => by
    intro hres f hf v halo
    rcases List.mem_cons.mp hf with rfl | htail
    · rw [rawCopyFields_cons_set ck cbid x f fs v halo] at hres
      cases htv : translateRawValue ck cbid f.kind v with
      | none =>
        rw [htv] at hres
        simp at hres
      | some tv =>
        rw [htv] at hres
        cases hrest : rawCopyFields ck cbid x fs with
        | none =>
          rw [hrest] at hres
          simp at hres
        | some rest =>
          rw [hrest] at hres
          simp only [Option.some_bind] at hres
          cases hres
          refine ⟨tv, rfl, ?_⟩
          exact List.find?_cons_of_pos _ (by simp)
    · rw [List.map_cons] at hnd
      have hgf : ¬ g.name = f.name := by
        intro heq
        exact (List.nodup_cons.mp hnd).1 (heq ▸ List.mem_map_of_mem FieldDesc.name htail)
      cases halog : alookup g.name x.vals with
      | none =>
        rw [rawCopyFields_cons_unset ck cbid x g fs halog] at hres
        exact rawCopyFields_find_set ck cbid x fs (List.nodup_cons.mp hnd).2 res hres
          f htail v halo
      | some w =>
        rw [rawCopyFields_cons_set ck cbid x g fs w halog] at hres
        cases htw : translateRawValue ck cbid g.kind w with
        | none =>
          rw [htw] at hres
          simp at hres
        | some tw =>
          rw [htw] at hres
          cases hrest : rawCopyFields ck cbid x fs with
          | none =>
            rw [hrest] at hres
            simp at hres
          | some rest =>
            rw [hrest] at hres
            simp only [Option.some_bind] at hres
            cases hres
            rcases rawCopyFields_find_set ck cbid x fs (List.nodup_cons.mp hnd).2 rest hrest
              f htail v halo with ⟨tv, h1, h2⟩
            refine ⟨tv, h1, ?_⟩
            have hskip : List.find? (fun p => p.1.name == f.name) ((g, tw) :: rest) =
                List.find? (fun p => p.1.name == f.name) rest :=
              List.find?_cons_of_neg _ (by simp [hgf])
            rw [hskip, h2]

theorem findBlock_key (k : BlockKey) : ∀ (bs : List SplitBlock) (b : SplitBlock),
    findBlock k bs = some b → b.key = k
  | [], b => by simp [findBlock]
  | x :: bs, b => by
    intro h
    by_cases hx : x.key = k
    · have : findBlock k (x :: bs) = some x :=
        List.find?_cons_of_pos _ (by simpa using hx)
      rw [this] at h
      cases h
      exact hx
    · have : findBlock k (x :: bs) = findBlock k bs :=
        List.find?_cons_of_neg _ (by simpa using hx)
      rw [this] at h
      exact findBlock_key k bs b h

theorem findBlock_updateDraft (st : SplitStore) (b' : SplitBlock) (k : BlockKey)
    (hk : b'.key = k) :
    ∀ bs : List SplitBlock, (∃ b, findBlock k bs = some b) →
      findBlock k (bs.map fun x => if x.key == b'.key then b' else x) = some b'
  | [], h => by
    rcases h with ⟨b, hb⟩
    simp [findBlock] at hb
  | x :: bs, h => by
    by_cases hx : x.key = k
    · have hxb : (x.key == b'.key) = true := by simp [hx, hk]
      simp only [List.map_cons, hxb, if_pos]
      exact List.find?_cons_of_pos _ (by simpa using hk)
    · have hxb : (x.key == b'.key) = false := by
        simp only [beq_eq_false_iff_ne, ne_eq, hk]
        exact hx
      simp only [List.map_cons, hxb, Bool.false_eq_true, if_false]
      have hskip : findBlock k (x :: bs.map fun x => if x.key == b'.key then b' else x) =
          findBlock k (bs.map fun x => if x.key == b'.key then b' else x) :=
        List.find?_cons_of_neg _ (by simpa using hx)
      rw [hskip]
      refine findBlock_updateDraft st b' k hk bs ?_
      rcases h with ⟨b, hb⟩
      have : findBlock k (x :: bs) = findBlock k bs :=
        List.find?_cons_of_neg _ (by simpa using hx)
      rw [this] at hb
      exact ⟨b, hb⟩

theorem updateDraft_keys (st : SplitStore) (b' : SplitBlock) :
    (updateDraft st b').draft.map SplitBlock.key = st.draft.map SplitBlock.key := by
  simp only [updateDraft, List.map_map]
  refine List.map_congr_left ?_
  intro x hx
  by_cases h : x.key = b'.key
  · simp [Function.comp, h]
  · simp [Function.comp, h]

/-- Claim C3: when a source draft-only block's translated identifier
already exists in the destination draft tree, the reconciliation step
updates that block in place: the step's only store write is an
`update_item` (a new draft version, no block created), the draft tree's
keys are unchanged, the updated block is stored under the same key, and
its fields are exactly the source draft's explicitly-set fields
(translated): a field set on the destination but not on the source is
deleted, a field set on the source is overwritten with the translated
value, and all other fields stay unset. -/
theorem claim3_draft_update_in_place (schema : Schema) (dloc : CourseKey) (pubRoot : UsageKey)
    (tr : List StoreOp) (st : SplitStore) (pending : List (Location × UsageKey))
    (m : XBlock) (split_module : SplitBlock) (fvs : List (FieldDesc × TValue))
    (hfb : findBlock (dloc.make_usage_key m.category (some m.location.block_id)).key st.draft =
      some split_module)
    (hfv : get_fields_translate_references schema m dloc pubRoot.key.block_id = some fvs)
    (hnd : ((schema m.category).map FieldDesc.name).Nodup) :
    reconcileDraftItem schema dloc pubRoot (tr, some (st, pending)) m =
      (tr ++ [.read .dst "has_item", .read .dst "get_item", .write .dst "update_item"],
       some (updateDraft st (writeFields (deleteUnset schema m split_module) fvs), pending)) ∧
    (updateDraft st (writeFields (deleteUnset schema m split_module) fvs)).draft.map
        SplitBlock.key = st.draft.map SplitBlock.key ∧
    findBlock (dloc.make_usage_key m.category (some m.location.block_id)).key
        (updateDraft st (writeFields (deleteUnset schema m split_module) fvs)).draft =
      some (writeFields (deleteUnset schema m split_module) fvs) ∧
    ∀ f ∈ schema m.category,
      alookup f.name (writeFields (deleteUnset schema m split_module) fvs).vals =
        (alookup f.name m.vals).bind fun v =>
          (translateRawValue dloc pubRoot.key.block_id f.kind v).map TValue.persist := by
  have hkey : split_module.key = (dloc.make_usage_key m.category (some m.location.block_id)).key :=
    findBlock_key _ st.draft split_module hfb
  have hndfvs : (fvs.map fun p => p.1.name).Nodup := by
    have hk := rawCopyFields_keys dloc pubRoot.key.block_id m (schema m.category) fvs hfv
    have : fvs.map (fun p => p.1.name) = (fvs.map (·.1)).map FieldDesc.name := by
      rw [List.map_map]
      rfl
    rw [this, hk]
    refine hnd.sublist ?_
    exact List.Sublist.map FieldDesc.name (List.filter_sublist _)
  refine ⟨reconcileDraftItem_update schema dloc pubRoot tr st pending m split_module fvs hfb hfv,
    updateDraft_keys st _, ?_, ?_⟩
  · exact findBlock_updateDraft st (writeFields (deleteUnset schema m split_module) fvs) _
      hkey st.draft ⟨split_module, hfb⟩
  · intro f hf
    have hvals : (writeFields (deleteUnset schema m split_module) fvs).vals =
        fvs.foldl (fun vs fv => setVal fv.1.name fv.2.persist vs)
          ((schema m.category).foldl
            (fun vs f =>
              if (alookup f.name vs).isSome = true ∧ m.is_set f.name = false then
                delVal f.name vs
              else vs)
            split_module.vals) := by
      simp [writeFields, deleteUnset]
    rw [hvals, writeFields_fold_lookup fvs _ f.name hndfvs]
    cases halo : alookup f.name m.vals with
    | some v =>
      rcases rawCopyFields_find_set dloc pubRoot.key.block_id m (schema m.category) hnd fvs hfv
        f hf v halo with ⟨tv, h1, h2⟩
      rw [h2, Option.some_bind, h1]
      rfl
    | none =>
      rw [rawCopyFields_find_unset dloc pubRoot.key.block_id m (schema m.category) fvs hfv
        f.name halo]
      rw [deleteUnset_fold_lookup m (schema m.category) split_module.vals f.name]
      rw [if_pos ⟨List.mem_map_of_mem FieldDesc.name hf, by simp [XBlock.is_set, halo]⟩]
      simp

/-- The pre-existing destination draft chapter block used by the C3
witness: published fields, children [a, c]. -/
def sampleUBlock : SplitBlock :=
  ⟨sampleChapterLoc.toKey,
   [("children", SValue.keyList [sampleALoc.toKey, sampleCLoc.toKey]),
    ("data", SValue.sjson "old")]⟩

def sampleStU : SplitStore := ⟨[], [sampleUBlock]⟩

theorem claim3_draft_update_in_place_witness :
    ∃ fvs,
      get_fields_translate_references sampleSchema sampleChapterDraft
        (sampleCK.for_branch BranchName.draft)
        (sampleCK.make_usage_key "course" (some splitRootId)).key.block_id = some fvs ∧
      alookup "children" (writeFields (deleteUnset sampleSchema sampleChapterDraft sampleUBlock)
          fvs).vals =
        (alookup "children" sampleChapterDraft.vals).bind fun v =>
          (translateRawValue (sampleCK.for_branch BranchName.draft)
            (sampleCK.make_usage_key "course" (some splitRootId)).key.block_id
            FieldKind.referenceList v).map TValue.persist := by
  refine ⟨_, rfl, ?_⟩
  exact (claim3_draft_update_in_place sampleSchema (sampleCK.for_branch BranchName.draft)
      (sampleCK.make_usage_key "course" (some splitRootId)) [] sampleStU [] sampleChapterDraft
      sampleUBlock _ (by decide) rfl (by decide)).2.2.2
    ⟨"children", FieldKind.referenceList⟩ (by decide)

/-- Claim C1: a pending adoption whose source parent resolves and whose
translated identifier is not already among the destination parent's
children (version-agnostically) inserts the child at the cursor computed
by walking the source parent's children strictly up to the adopted child,
advancing past each preceding sibling found at or after the cursor
(first conjunct: the step performs exactly that insertion).  In
particular (second conjunct), for a source parent with children
[A, B, C] where B is the private draft and the destination parent holds
[A, C], the adopted B ends up between A and C. -/
theorem claim1_private_draft_adoption_ordering (src : SourceStore) (dloc : CourseKey)
    (pubRoot : UsageKey) (tr : List StoreOp) (st : SplitStore) :
    (∀ l nl p op np, src.parentOf l = some p → src.itemOf p = some op →
      findBlock (splitParentKey dloc pubRoot p) st.draft = some np →
      ((childUsages dloc np).any fun child => nl == child.version_agnostic) = false →
      adoptEntry src dloc pubRoot (tr, some st) (l, nl) =
        (tr ++ [.read .src "get_parent_location", .read .src "get_item",
          .read .dst "get_item", .write .dst "update_item"],
         some (updateDraft st ⟨np.key,
           setVal "children"
             (TValue.usageList (pyInsert (cursorWalkU dloc l op.children 0 (childUsages dloc np))
               nl (childUsages dloc np))).persist np.vals⟩))) ∧
    (∀ (A B C p : Location) (op : XBlock) (np : SplitBlock),
      B.toKey ≠ A.toKey → B.toKey ≠ C.toKey →
      op.children = [A, B, C] → np.childKeys = [A.toKey, C.toKey] →
      src.parentOf B = some p → src.itemOf p = some op →
      findBlock (splitParentKey dloc pubRoot p) st.draft = some np →
      ∃ st' np',
        adoptEntry src dloc pubRoot (tr, some st)
          (B, dloc.make_usage_key B.category (some B.block_id)) =
          (tr ++ [.read .src "get_parent_location", .read .src "get_item",
            .read .dst "get_item", .write .dst "update_item"], some st') ∧
        findBlock (splitParentKey dloc pubRoot p) st'.draft = some np' ∧
        np'.childKeys = [A.toKey, B.toKey, C.toKey]) := by
  constructor
  · intro l nl p op np hp hi hfb hmem
    exact adoptEntry_insert src dloc pubRoot tr st l nl p op np hp hi hfb hmem
  · intro A B C p op np hBA hBC hop hck hp hi hfb
    have hAB : ¬ A = B := fun h => hBA (by rw [h])
    have hkids : childUsages dloc np =
        [⟨dloc, A.toKey, none⟩, ⟨dloc, C.toKey, none⟩] := by
      rw [childUsages, hck]
      rfl
    have hmem : ((childUsages dloc np).any fun child =>
        dloc.make_usage_key B.category (some B.block_id) == child.version_agnostic) = false := by
      rw [hkids]
      simp only [List.any_cons, List.any_nil, Bool.or_false]
      have h1 : (dloc.make_usage_key B.category (some B.block_id) ==
          (⟨dloc, A.toKey, none⟩ : UsageKey).version_agnostic) = false := by
        simp only [beq_eq_false_iff_ne, ne_eq, CourseKey.make_usage_key,
          UsageKey.version_agnostic]
        intro h
        refine hBA ?_
        have := congrArg UsageKey.key h
        exact this
      have h2 : (dloc.make_usage_key B.category (some B.block_id) ==
          (⟨dloc, C.toKey, none⟩ : UsageKey).version_agnostic) = false := by
        simp only [beq_eq_false_iff_ne, ne_eq, CourseKey.make_usage_key,
          UsageKey.version_agnostic]
        intro h
        refine hBC ?_
        have := congrArg UsageKey.key h
        exact this
      rw [h1, h2]
      rfl
    have hcur : cursorWalkU dloc B op.children 0 (childUsages dloc np) = 1 := by
      rw [hop, hkids]
      simp only [cursorWalkU, hAB, if_neg, if_false]
      have hfind : findFromBy
          (fun child : UsageKey => child.version_agnostic ==
            dloc.make_usage_key A.category (some A.block_id))
          ([⟨dloc, A.toKey, none⟩, ⟨dloc, C.toKey, none⟩] : List UsageKey) 0 = some 0 := by
        simp [findFromBy, UsageKey.version_agnostic, CourseKey.make_usage_key, Location.toKey]
      rw [hfind]
      simp [cursorWalkU]
    have hstep := adoptEntry_insert src dloc pubRoot tr st B
      (dloc.make_usage_key B.category (some B.block_id)) p op np hp hi hfb hmem
    have heq : (⟨np.key,
        setVal "children"
          (TValue.usageList (pyInsert (cursorWalkU dloc B op.children 0 (childUsages dloc np))
            (dloc.make_usage_key B.category (some B.block_id))
            (childUsages dloc np))).persist np.vals⟩ : SplitBlock) =
        ⟨np.key, setVal "children" (SValue.keyList [A.toKey, B.toKey, C.toKey]) np.vals⟩ := by
      rw [hcur, hkids]
      simp [pyInsert, TValue.persist, CourseKey.make_usage_key, Location.toKey]
    rw [heq] at hstep
    refine ⟨updateDraft st ⟨np.key, setVal "children"
        (SValue.keyList [A.toKey, B.toKey, C.toKey]) np.vals⟩,
      ⟨np.key, setVal "children" (SValue.keyList [A.toKey, B.toKey, C.toKey]) np.vals⟩,
      hstep, ?_, ?_⟩
    · exact findBlock_updateDraft st
        ⟨np.key, setVal "children" (SValue.keyList [A.toKey, B.toKey, C.toKey]) np.vals⟩ _
        (findBlock_key _ st.draft np hfb) st.draft ⟨np, hfb⟩
    · simp [SplitBlock.childKeys, setVal_lookup]

theorem claim1_private_draft_adoption_ordering_witness :
    ∃ st' np',
      adoptEntry sampleSrc (sampleCK.for_branch BranchName.draft)
        (sampleCK.make_usage_key "course" (some splitRootId)) ([], some sampleStU)
        (sampleBLoc, (sampleCK.for_branch BranchName.draft).make_usage_key
          sampleBLoc.category (some sampleBLoc.block_id)) =
        ([] ++ [.read .src "get_parent_location", .read .src "get_item",
          .read .dst "get_item", .write .dst "update_item"], some st') ∧
      findBlock (splitParentKey (sampleCK.for_branch BranchName.draft)
          (sampleCK.make_usage_key "course" (some splitRootId)) sampleChapterLoc)
        st'.draft = some np' ∧
      np'.childKeys = [sampleALoc.toKey, sampleBLoc.toKey, sampleCLoc.toKey] :=
  (claim1_private_draft_adoption_ordering sampleSrc (sampleCK.for_branch BranchName.draft)
      (sampleCK.make_usage_key "course" (some splitRootId)) [] sampleStU).2
    sampleALoc sampleBLoc sampleCLoc sampleChapterLoc sampleChapterDraft sampleUBlock
    (by decide) (by decide) (by decide) (by decide) (by decide) (by decide) (by decide)

theorem mem_pyInsert {α : Type} (x y : α) : ∀ (n : Nat) (l : List α),
    x ∈ pyInsert n y l ↔ x = y ∨ x ∈ l
  | n, [] => by
    cases n <;> simp [pyInsert]
  | 0, a :: l => by simp [pyInsert]
  | n + 1, a :: l => by
    simp only [pyInsert, List.mem_cons, mem_pyInsert x y n l]
    tauto

theorem findBlock_map_upd (k k0 : BlockKey) (b' : SplitBlock) (hb : b'.key = k0) :
    ∀ bs : List SplitBlock,
      findBlock k (bs.map fun x => if x.key == k0 then b' else x) =
        (findBlock k bs).map fun x => if x.key == k0 then b' else x
  | [] => rfl
  | x :: bs => by
    have hupdkey : (if (x.key == k0) = true then b' else x).key = x.key := by
      by_cases h : x.key = k0
      · simp [h, hb]
      · simp [h]
    by_cases hx : x.key = k
    · have h1 : findBlock k ((x :: bs).map fun x => if x.key == k0 then b' else x) =
          some (if (x.key == k0) = true then b' else x) := by
        simp only [List.map_cons]
        refine List.find?_cons_of_pos _ ?_
        show ((if (x.key == k0) = true then b' else x).key == k) = true
        rw [hupdkey]
        simpa using hx
      have h2 : findBlock k (x :: bs) = some x :=
        List.find?_cons_of_pos _ (by simpa using hx)
      rw [h1, h2]
      rfl
    · have h1 : findBlock k ((x :: bs).map fun x => if x.key == k0 then b' else x) =
          findBlock k (bs.map fun x => if x.key == k0 then b' else x) := by
        simp only [List.map_cons]
        refine List.find?_cons_of_neg _ ?_
        show ¬ ((if (x.key == k0) = true then b' else x).key == k) = true
        rw [hupdkey]
        simpa using hx
      have h2 : findBlock k (x :: bs) = findBlock k bs :=
        List.find?_cons_of_neg _ (by simpa using hx)
      rw [h1, h2, findBlock_map_upd k k0 b' hb bs]

theorem findBlock_updateDraft_eq (st : SplitStore) (b : SplitBlock) (k : BlockKey) :
    findBlock k (updateDraft st b).draft =
      (findBlock k st.draft).map fun x => if x.key == b.key then b else x := by
  simp only [updateDraft]
  exact findBlock_map_upd k b.key b rfl st.draft

/-- The children keys of the parent block the insert branch writes. -/
theorem insert_parent_childKeys (dloc : CourseKey) (np : SplitBlock) (nl : UsageKey)
    (c : Nat) :
    (⟨np.key, setVal "children"
        (TValue.usageList (pyInsert c nl (childUsages dloc np))).persist np.vals⟩ :
      SplitBlock).childKeys =
      (pyInsert c nl (childUsages dloc np)).map UsageKey.key := by
  simp [SplitBlock.childKeys, setVal_lookup, TValue.persist]

theorem mem_map_pyInsert_key (dloc : CourseKey) (np : SplitBlock) (nl : UsageKey)
    (c : Nat) (k : BlockKey)
    (h : k ∈ (pyInsert c nl (childUsages dloc np)).map UsageKey.key) :
    k = nl.key ∨ k ∈ np.childKeys := by
  rcases List.mem_map.mp h with ⟨u, hu, rfl⟩
  rcases (mem_pyInsert u nl c _).mp hu with rfl | hmem
  · exact Or.inl rfl
  · right
    simp only [childUsages, List.mem_map] at hmem
    rcases hmem with ⟨k0, hk0, rfl⟩
    exact hk0

/-- Case analysis for one adoption step on a live state: it aborts, leaves
the store unchanged, or updates the resolved destination parent with the
insertion. -/
theorem adoptEntry_case_split (src : SourceStore) (dloc : CourseKey) (pubRoot : UsageKey)
    (tr : List StoreOp) (st : SplitStore) (e : Location × UsageKey) :
    (adoptEntry src dloc pubRoot (tr, some st) e).2 = none ∨
    (adoptEntry src dloc pubRoot (tr, some st) e).2 = some st ∨
    ∃ p op np, src.parentOf e.1 = some p ∧ src.itemOf p = some op ∧
      findBlock (splitParentKey dloc pubRoot p) st.draft = some np ∧
      (adoptEntry src dloc pubRoot (tr, some st) e).2 =
        some (updateDraft st ⟨np.key,
          setVal "children"
            (TValue.usageList (pyInsert (cursorWalkU dloc e.1 op.children 0 (childUsages dloc np))
              e.2 (childUsages dloc np))).persist np.vals⟩) := by
  rcases e with ⟨l, nl⟩
  cases hp : src.parentOf l with
  | none =>
    rw [adoptEntry_warn src dloc pubRoot tr st l nl hp]
    exact Or.inr (Or.inl rfl)
  | some p =>
    cases hi : src.itemOf p with
    | none =>
      rw [adoptEntry_itemfail src dloc pubRoot tr st l nl p hp hi]
      exact Or.inl rfl
    | some op =>
      cases hfb : findBlock (splitParentKey dloc pubRoot p) st.draft with
      | none =>
        rw [adoptEntry_destfail src dloc pubRoot tr st l nl p op hp hi hfb]
        exact Or.inl rfl
      | some np =>
        cases hmem : (childUsages dloc np).any fun child => nl == child.version_agnostic with
        | true =>
          rw [adoptEntry_skip src dloc pubRoot tr st l nl p op np hp hi hfb hmem]
          exact Or.inr (Or.inl rfl)
        | false =>
          rw [adoptEntry_insert src dloc pubRoot tr st l nl p op np hp hi hfb hmem]
          exact Or.inr (Or.inr ⟨p, op, np, rfl, hi, hfb, rfl⟩)

theorem adoptEntry_block_preserved (src : SourceStore) (dloc : CourseKey)
    (pubRoot : UsageKey) (tr : List StoreOp) (st st1 : SplitStore)
    (e : Location × UsageKey)
    (h : (adoptEntry src dloc pubRoot (tr, some st) e).2 = some st1) (k : BlockKey)
    (hk : (findBlock k st.draft).isSome = true) :
    (findBlock k st1.draft).isSome = true := by
  rcases adoptEntry_case_split src dloc pubRoot tr st e with hnone | hsame | ⟨p, op, np, _, _, _, hupd⟩
  · rw [hnone] at h
    cases h
  · rw [hsame] at h
    cases h
    exact hk
  · rw [hupd] at h
    cases h
    rw [findBlock_updateDraft_eq]
    cases hf : findBlock k st.draft with
    | none =>
      rw [hf] at hk
      simp at hk
    | some b => simp

theorem adoptEntry_trace_mono (src : SourceStore) (dloc : CourseKey) (pubRoot : UsageKey)
    (tr : List StoreOp) (r : Option SplitStore) (e : Location × UsageKey) (op : StoreOp)
    (hop : op ∈ tr) : op ∈ (adoptEntry src dloc pubRoot (tr, r) e).1 := by
  cases r with
  | none => exact hop
  | some st =>
    rcases e with ⟨l, nl⟩
    cases hp : src.parentOf l with
    | none =>
      rw [adoptEntry_warn src dloc pubRoot tr st l nl hp]
      exact List.mem_append_left _ hop
    | some p =>
      cases hi : src.itemOf p with
      | none =>
        rw [adoptEntry_itemfail src dloc pubRoot tr st l nl p hp hi]
        exact List.mem_append_left _ hop
      | some op' =>
        cases hfb : findBlock (splitParentKey dloc pubRoot p) st.draft with
        | none =>
          rw [adoptEntry_destfail src dloc pubRoot tr st l nl p op' hp hi hfb]
          exact List.mem_append_left _ hop
        | some np =>
          cases hmem : (childUsages dloc np).any fun child => nl == child.version_agnostic with
          | true =>
            rw [adoptEntry_skip src dloc pubRoot tr st l nl p op' np hp hi hfb hmem]
            exact List.mem_append_left _ hop
          | false =>
            rw [adoptEntry_insert src dloc pubRoot tr st l nl p op' np hp hi hfb hmem]
            exact List.mem_append_left _ hop

theorem adoptFold_trace_mono (src : SourceStore) (dloc : CourseKey) (pubRoot : UsageKey)
    (op : StoreOp) :
    ∀ (pending : List (Location × UsageKey)) (s : List StoreOp × Option SplitStore),
      op ∈ s.1 → op ∈ (pending.foldl (adoptEntry src dloc pubRoot) s).1
  | [], s => fun h => h
  | e :: es, s => by
    intro h
    simp only [List.foldl_cons]
    refine adoptFold_trace_mono src dloc pubRoot op es _ ?_
    rcases s with ⟨tr, r⟩
    exact adoptEntry_trace_mono src dloc pubRoot tr r e op h

theorem adoptFold_logWarn (src : SourceStore) (dloc : CourseKey) (pubRoot : UsageKey)
    (l : Location) (nl : UsageKey) (hp : src.parentOf l = none) :
    ∀ (pending : List (Location × UsageKey)) (tr : List StoreOp) (st : SplitStore)
      (tr' : List StoreOp) (st' : SplitStore),
      pending.foldl (adoptEntry src dloc pubRoot) (tr, some st) = (tr', some st') →
      (l, nl) ∈ pending → StoreOp.logWarn l ∈ tr'
  | [], tr, st, tr', st' => by simp
  | e :: es, tr, st, tr', st' => by
    intro hfold hmem
    simp only [List.foldl_cons] at hfold
    rcases List.mem_cons.mp hmem with rfl | htail
    · rw [adoptEntry_warn src dloc pubRoot tr st l nl hp] at hfold
      have h1 : StoreOp.logWarn l ∈
          ((tr ++ [.read .src "get_parent_location", .logWarn l] : List StoreOp), some st).1 := by
        simp
      have := adoptFold_trace_mono src dloc pubRoot (StoreOp.logWarn l) es _ h1
      rw [hfold] at this
      exact this
    · rcases hstep : adoptEntry src dloc pubRoot (tr, some st) e with ⟨tr1, r1⟩
      rw [hstep] at hfold
      cases r1 with
      | none =>
        rw [adoptFold_none src dloc pubRoot es tr1] at hfold
        cases hfold
      | some st1 =>
        exact adoptFold_logWarn src dloc pubRoot l nl hp es tr1 st1 tr' st' hfold htail

theorem adoptFold_block_preserved (src : SourceStore) (dloc : CourseKey) (pubRoot : UsageKey) :
    ∀ (pending : List (Location × UsageKey)) (tr : List StoreOp) (st : SplitStore)
      (tr' : List StoreOp) (st' : SplitStore),
      pending.foldl (adoptEntry src dloc pubRoot) (tr, some st) = (tr', some st') →
      ∀ k, (findBlock k st.draft).isSome = true → (findBlock k st'.draft).isSome = true
  | [], tr, st, tr', st' => by
    intro h k hk
    cases h
    exact hk
  | e :: es, tr, st, tr', st' => by
    intro hfold k hk
    simp only [List.foldl_cons] at hfold
    rcases hstep : adoptEntry src dloc pubRoot (tr, some st) e with ⟨tr1, r1⟩
    rw [hstep] at hfold
    cases r1 with
    | none =>
      rw [adoptFold_none src dloc pubRoot es tr1] at hfold
      cases hfold
    | some st1 =>
      have h1 : (findBlock k st1.draft).isSome = true := by
        refine adoptEntry_block_preserved src dloc pubRoot tr st st1 e ?_ k hk
        rw [hstep]
      exact adoptFold_block_preserved src dloc pubRoot es tr1 st1 tr' st' hfold k h1

theorem adoptEntry_no_new_ref (src : SourceStore) (dloc : CourseKey) (pubRoot : UsageKey)
    (tr : List StoreOp) (st st1 : SplitStore) (e : Location × UsageKey)
    (l : Location) (nl : UsageKey) (hp : src.parentOf l = none)
    (hother : e.2.key = nl.key → e.1 = l)
    (h : (adoptEntry src dloc pubRoot (tr, some st) e).2 = some st1)
    (k : BlockKey) (b' : SplitBlock) (hf1 : findBlock k st1.draft = some b')
    (hmem : nl.key ∈ b'.childKeys) :
    ∃ b, findBlock k st.draft = some b ∧ nl.key ∈ b.childKeys := by
  rcases adoptEntry_case_split src dloc pubRoot tr st e with hnone | hsame | ⟨p, op, np, hpe, hie, hfbe, hupd⟩
  · rw [hnone] at h
    cases h
  · rw [hsame] at h
    cases h
    exact ⟨b', hf1, hmem⟩
  · rw [hupd] at h
    cases h
    rw [findBlock_updateDraft_eq] at hf1
    cases hf : findBlock k st.draft with
    | none =>
      rw [hf] at hf1
      cases hf1
    | some b =>
      rw [hf] at hf1
      simp only [Option.map_some', Option.some.injEq] at hf1
      by_cases hbk : (b.key == (⟨np.key,
          setVal "children"
            (TValue.usageList (pyInsert (cursorWalkU dloc e.1 op.children 0 (childUsages dloc np))
              e.2 (childUsages dloc np))).persist np.vals⟩ : SplitBlock).key) = true
      · rw [if_pos hbk] at hf1
        rw [← hf1] at hmem
        rw [insert_parent_childKeys] at hmem
        rcases mem_map_pyInsert_key dloc np e.2 _ _ hmem with heq | hmem2
        · have he1 : e.1 = l := hother heq.symm
          rw [he1] at hpe
          rw [hp] at hpe
          cases hpe
        · have hbkey : b.key = k := findBlock_key k st.draft b hf
          have hbknp : b.key = np.key := by simpa using hbk
          have hnpkey : np.key = splitParentKey dloc pubRoot p :=
            findBlock_key _ st.draft np hfbe
          have hkk : k = splitParentKey dloc pubRoot p := by
            rw [← hbkey, hbknp, hnpkey]
          have hf2 : findBlock (splitParentKey dloc pubRoot p) st.draft = some b := by
            rw [← hkk]
            exact hf
          rw [hfbe] at hf2
          injection hf2 with h2
          have hbnp : b = np := h2.symm
          refine ⟨np, ?_, hmem2⟩
          rw [hbnp]
      · rw [if_neg (by simpa using hbk)] at hf1
        rw [← hf1] at hmem
        exact ⟨b, rfl, hmem⟩

theorem adoptFold_no_new_refs (src : SourceStore) (dloc : CourseKey) (pubRoot : UsageKey)
    (l : Location) (nl : UsageKey) (hp : src.parentOf l = none) :
    ∀ (pending : List (Location × UsageKey)) (tr : List StoreOp) (st : SplitStore)
      (tr' : List StoreOp) (st' : SplitStore),
      pending.foldl (adoptEntry src dloc pubRoot) (tr, some st) = (tr', some st') →
      (∀ e ∈ pending, e.2.key = nl.key → e.1 = l) →
      ∀ k b', findBlock k st'.draft = some b' → nl.key ∈ b'.childKeys →
        ∃ b, findBlock k st.draft = some b ∧ nl.key ∈ b.childKeys
  | [], tr, st, tr', st' => by
    intro h _ k b' hf1 hmem
    cases h
    exact ⟨b', hf1, hmem⟩
  | e :: es, tr, st, tr', st' => by
    intro hfold hother k b' hf1 hmem
    simp only [List.foldl_cons] at hfold
    rcases hstep : adoptEntry src dloc pubRoot (tr, some st) e with ⟨tr1, r1⟩
    rw [hstep] at hfold
    cases r1 with
    | none =>
      rw [adoptFold_none src dloc pubRoot es tr1] at hfold
      cases hfold
    | some st1 =>
      rcases adoptFold_no_new_refs src dloc pubRoot l nl hp es tr1 st1 tr' st' hfold
        (fun e' he' => hother e' (List.mem_cons_of_mem _ he')) k b' hf1 hmem
        with ⟨b1, hb1, hmem1⟩
      refine adoptEntry_no_new_ref src dloc pubRoot tr st st1 e l nl hp
        (hother e (List.mem_cons_self _ _)) ?_ k b1 hb1 hmem1
      rw [hstep]

/-- Claim C8: a pending adoption whose source parent lookup returns no
parent is non-fatal: the step just logs a warning and leaves the store
unchanged (first conjunct), so the reconciliation pass continues; after a
completed adoption pass the warning is in the trace, the orphaned block is
still present in the destination draft tree, and no destination block's
children were modified to reference it. -/
theorem claim8_orphan_skip_safe (src : SourceStore) (dloc : CourseKey) (pubRoot : UsageKey)
    (l : Location) (nl : UsageKey) (hp : src.parentOf l = none)
    (pending : List (Location × UsageKey)) (tr tr' : List StoreOp) (st st' : SplitStore)
    (hfold : pending.foldl (adoptEntry src dloc pubRoot) (tr, some st) = (tr', some st'))
    (hmem : (l, nl) ∈ pending)
    (hother : ∀ e ∈ pending, e.2.key = nl.key → e.1 = l) :
    (∀ (tr0 : List StoreOp) (st0 : SplitStore),
      adoptEntry src dloc pubRoot (tr0, some st0) (l, nl) =
        (tr0 ++ [.read .src "get_parent_location", .logWarn l], some st0)) ∧
    StoreOp.logWarn l ∈ tr' ∧
    ((findBlock nl.key st.draft).isSome = true → (findBlock nl.key st'.draft).isSome = true) ∧
    (∀ k b', findBlock k st'.draft = some b' → nl.key ∈ b'.childKeys →
      ∃ b, findBlock k st.draft = some b ∧ nl.key ∈ b.childKeys) :=
  ⟨fun tr0 st0 => adoptEntry_warn src dloc pubRoot tr0 st0 l nl hp,
   adoptFold_logWarn src dloc pubRoot l nl hp pending tr st tr' st' hfold hmem,
   fun h => adoptFold_block_preserved src dloc pubRoot pending tr st tr' st' hfold nl.key h,
   adoptFold_no_new_refs src dloc pubRoot l nl hp pending tr st tr' st' hfold hother⟩

def sampleXLoc : Location := ⟨"vertical", "x"⟩

/-- A source course whose only draft-only block has no resolvable parent. -/
def sampleOrphanSrc : SourceStore :=
  { sampleSrc with
    draft_items := [⟨sampleXLoc, [("data", .other "X")]⟩]
    parentOf := fun _ => none }

def sampleNlX : UsageKey :=
  (sampleCK.for_branch BranchName.draft).make_usage_key "vertical" (some "x")

def sampleStO : SplitStore := ⟨[], [⟨sampleXLoc.toKey, [("data", SValue.sjson "X")]⟩]⟩

theorem claim8_orphan_skip_safe_witness :
    StoreOp.logWarn sampleXLoc ∈
      ([StoreOp.read Target.src "get_parent_location", StoreOp.logWarn sampleXLoc] :
        List StoreOp) ∧
    (findBlock sampleNlX.key sampleStO.draft).isSome = true :=
  ⟨(claim8_orphan_skip_safe sampleOrphanSrc (sampleCK.for_branch BranchName.draft)
      (sampleCK.make_usage_key "course" (some splitRootId)) sampleXLoc sampleNlX rfl
      [(sampleXLoc, sampleNlX)] []
      [StoreOp.read Target.src "get_parent_location", StoreOp.logWarn sampleXLoc]
      sampleStO sampleStO (by decide) (by decide) (by decide)).2.1,
   (claim8_orphan_skip_safe sampleOrphanSrc (sampleCK.for_branch BranchName.draft)
      (sampleCK.make_usage_key "course" (some splitRootId)) sampleXLoc sampleNlX rfl
      [(sampleXLoc, sampleNlX)] []
      [StoreOp.read Target.src "get_parent_location", StoreOp.logWarn sampleXLoc]
      sampleStO sampleStO (by decide) (by decide) (by decide)).2.2.1 (by decide)⟩

/-- The frame discipline a trace operation must satisfy: writes go only to
the destination store, and source-store operations are only the four read
operations the migrator is allowed to use. -/
def opOk : StoreOp → Bool
  | .write t _ => t == Target.dst
  | .read Target.src n =>
    (["get_course", "get_items", "get_item", "get_parent_location"] : List String).contains n
  | .read Target.dst _ => true
  | .logWarn _ => true

theorem foldl_trace_ok {α σ : Type} (f : (List StoreOp × σ) → α → (List StoreOp × σ))
    (hf : ∀ s x, (∀ op ∈ s.1, opOk op = true) → ∀ op ∈ (f s x).1, opOk op = true) :
    ∀ (l : List α) (s : List StoreOp × σ), (∀ op ∈ s.1, opOk op = true) →
      ∀ op ∈ (l.foldl f s).1, opOk op = true
  | [], s => fun h => h
  | x :: l, s => fun h => foldl_trace_ok f hf l (f s x) (hf s x h)

theorem opOk_append (tr ext : List StoreOp) (h : ∀ op ∈ tr, opOk op = true)
    (hext : ext.all opOk = true) : ∀ op ∈ tr ++ ext, opOk op = true := by
  intro op hop
  rcases List.mem_append.mp hop with h1 | h2
  · exact h op h1
  · exact List.all_eq_true.mp hext op h2

theorem copyPublishedItem_trace_ok (schema : Schema) (cvl : CourseKey) (oldLoc : Location)
    (rootBid : Option String) (s : List StoreOp × Option SplitStore) (m : XBlock)
    (h : ∀ op ∈ s.1, opOk op = true) :
    ∀ op ∈ (copyPublishedItem schema cvl oldLoc rootBid s m).1, opOk op = true := by
  rcases s with ⟨tr, r⟩
  cases r with
  | none => exact h
  | some st =>
    by_cases hm : m.location = oldLoc
    · have hstep : copyPublishedItem schema cvl oldLoc rootBid (tr, some st) m =
          (tr, some st) := by
        simp [copyPublishedItem, hm]
      rw [hstep]
      exact h
    · cases hcp : get_json_fields_translate_references schema m cvl rootBid with
      | none =>
        have hstep : copyPublishedItem schema cvl oldLoc rootBid (tr, some st) m =
            (tr, none) := by
          simp [copyPublishedItem, hm, hcp]
        rw [hstep]
        exact h
      | some fields =>
        have hstep : (copyPublishedItem schema cvl oldLoc rootBid (tr, some st) m).1 =
            tr ++ [.write .dst "create_item"] := by
          simp [copyPublishedItem, hm, hcp]
        rw [hstep]
        exact opOk_append tr _ h rfl

theorem reconcileDraftItem_trace_ok (schema : Schema) (dloc : CourseKey) (pubRoot : UsageKey)
    (s : List StoreOp × Option (SplitStore × List (Location × UsageKey))) (m : XBlock)
    (h : ∀ op ∈ s.1, opOk op = true) :
    ∀ op ∈ (reconcileDraftItem schema dloc pubRoot s m).1, opOk op = true := by
  rcases s with ⟨tr, r⟩
  cases r with
  | none => exact h
  | some sp =>
    rcases sp with ⟨st, pending⟩
    cases hfb : findBlock (dloc.make_usage_key m.category (some m.location.block_id)).key
        st.draft with
    | some split_module =>
      cases hfv : get_fields_translate_references schema m dloc pubRoot.key.block_id with
      | none =>
        rw [reconcileDraftItem_update_fail schema dloc pubRoot tr st pending m split_module
          hfb hfv]
        exact opOk_append tr _ h rfl
      | some fvs =>
        rw [reconcileDraftItem_update schema dloc pubRoot tr st pending m split_module fvs
          hfb hfv]
        exact opOk_append tr _ h rfl
    | none =>
      cases hcp : get_json_fields_translate_references schema m dloc pubRoot.key.block_id with
      | none =>
        rw [reconcileDraftItem_create_fail schema dloc pubRoot tr st pending m hfb hcp]
        exact opOk_append tr _ h rfl
      | some fields =>
        rw [reconcileDraftItem_create schema dloc pubRoot tr st pending m fields hfb hcp]
        exact opOk_append tr _ h rfl

theorem adoptEntry_trace_ok (src : SourceStore) (dloc : CourseKey) (pubRoot : UsageKey)
    (s : List StoreOp × Option SplitStore) (e : Location × UsageKey)
    (h : ∀ op ∈ s.1, opOk op = true) :
    ∀ op ∈ (adoptEntry src dloc pubRoot s e).1, opOk op = true := by
  rcases s with ⟨tr, r⟩
  cases r with
  | none => exact h
  | some st =>
    rcases e with ⟨l, nl⟩
    cases hp : src.parentOf l with
    | none =>
      rw [adoptEntry_warn src dloc pubRoot tr st l nl hp]
      exact opOk_append tr _ h rfl
    | some p =>
      cases hi : src.itemOf p with
      | none =>
        rw [adoptEntry_itemfail src dloc pubRoot tr st l nl p hp hi]
        exact opOk_append tr _ h rfl
      | some op' =>
        cases hfb : findBlock (splitParentKey dloc pubRoot p) st.draft with
        | none =>
          rw [adoptEntry_destfail src dloc pubRoot tr st l nl p op' hp hi hfb]
          exact opOk_append tr _ h rfl
        | some np =>
          cases hmem : (childUsages dloc np).any fun child => nl == child.version_agnostic with
          | true =>
            rw [adoptEntry_skip src dloc pubRoot tr st l nl p op' np hp hi hfb hmem]
            exact opOk_append tr _ h rfl
          | false =>
            rw [adoptEntry_insert src dloc pubRoot tr st l nl p op' np hp hi hfb hmem]
            exact opOk_append tr _ h rfl

theorem copy_published_modules_trace_ok (schema : Schema) (src : SourceStore)
    (cvl : CourseKey) (pubRoot : UsageKey) (st : SplitStore) (tr : List StoreOp)
    (h : ∀ op ∈ tr, opOk op = true) :
    ∀ op ∈ (copy_published_modules_to_course schema src cvl pubRoot st tr).1,
      opOk op = true := by
  have h0 : ∀ op ∈ tr ++ [StoreOp.read Target.src "get_items"], opOk op = true :=
    opOk_append tr _ h rfl
  have hfoldok : ∀ op ∈ (src.published_items.foldl
      (copyPublishedItem schema cvl src.course_block.location pubRoot.key.block_id)
      (tr ++ [StoreOp.read Target.src "get_items"], some st)).1, opOk op = true :=
    foldl_trace_ok _ (fun s x hs => copyPublishedItem_trace_ok schema cvl
      src.course_block.location pubRoot.key.block_id s x hs) _ _ h0
  cases hfold : src.published_items.foldl
      (copyPublishedItem schema cvl src.course_block.location pubRoot.key.block_id)
      (tr ++ [StoreOp.read Target.src "get_items"], some st) with
  | mk tr1 r1 =>
    rw [hfold] at hfoldok
    cases r1 with
    | none =>
      have hstep : (copy_published_modules_to_course schema src cvl pubRoot st tr).1 = tr1 := by
        simp only [copy_published_modules_to_course, hfold]
      rw [hstep]
      exact hfoldok
    | some st1 =>
      have hstep : (copy_published_modules_to_course schema src cvl pubRoot st tr).1 =
          (tr1 ++ [StoreOp.read Target.dst "get_course_index_info",
                   StoreOp.write Target.dst "update_course_index"]) ++
          [StoreOp.write Target.dst "internal_clean_children"] := by
        simp only [copy_published_modules_to_course, hfold]
      rw [hstep]
      exact opOk_append _ _ (opOk_append tr1 _ hfoldok rfl) rfl

theorem add_draft_modules_trace_ok (schema : Schema) (src : SourceStore)
    (pubRoot : UsageKey) (st : SplitStore) (tr : List StoreOp)
    (h : ∀ op ∈ tr, opOk op = true) :
    ∀ op ∈ (add_draft_modules_to_course schema src pubRoot st tr).1, opOk op = true := by
  have h0 : ∀ op ∈ tr ++ [StoreOp.read Target.src "get_items"], opOk op = true :=
    opOk_append tr _ h rfl
  have hfoldok : ∀ op ∈ (src.draft_items.foldl
      (reconcileDraftItem schema (pubRoot.course_key.for_branch BranchName.draft) pubRoot)
      (tr ++ [StoreOp.read Target.src "get_items"],
       some (st, ([] : List (Location × UsageKey))))).1, opOk op = true :=
    foldl_trace_ok _ (fun s x hs => reconcileDraftItem_trace_ok schema
      (pubRoot.course_key.for_branch BranchName.draft) pubRoot s x hs) _ _ h0
  cases hfold : src.draft_items.foldl
      (reconcileDraftItem schema (pubRoot.course_key.for_branch BranchName.draft) pubRoot)
      (tr ++ [StoreOp.read Target.src "get_items"],
       some (st, ([] : List (Location × UsageKey)))) with
  | mk tr1 r1 =>
    rw [hfold] at hfoldok
    cases r1 with
    | none =>
      have hstep : (add_draft_modules_to_course schema src pubRoot st tr).1 = tr1 := by
        simp only [add_draft_modules_to_course, hfold]
      rw [hstep]
      exact hfoldok
    | some p =>
      rcases p with ⟨st1, pending⟩
      have hstep : add_draft_modules_to_course schema src pubRoot st tr =
          pending.foldl (adoptEntry src (pubRoot.course_key.for_branch BranchName.draft) pubRoot)
            (tr1, some st1) := by
        simp only [add_draft_modules_to_course, hfold]
      rw [hstep]
      exact foldl_trace_ok _ (fun s x hs => adoptEntry_trace_ok src
        (pubRoot.course_key.for_branch BranchName.draft) pubRoot s x hs) _ _ hfoldok

/-- C9: for every invocation of `migrate_mongo_course` — whether it completes
or aborts — every operation in its store trace satisfies the frame
discipline: the only source-store operations are the reads `get_course`,
`get_items`, `get_item` and `get_parent_location`, and every write
(`create_course`, `create_item`, `update_item`, `update_course_index`,
`internal_clean_children`) targets the destination split store.  The
embedding passes the source store as a pure value that no phase ever
rebuilds, so the source state is unchanged by construction; this theorem
checks the operation trace the phases emit. -/
theorem claim9_source_never_mutated (schema : Schema) (src : SourceStore)
    (new_org new_course new_run : Option String) :
    ∀ op ∈ (migrate_mongo_course schema src new_org new_course new_run).1,
      opOk op = true := by
  have h0 : ∀ op ∈ ([StoreOp.read Target.src "get_course"] : List StoreOp),
      opOk op = true := by
    intro op hop
    rw [List.mem_singleton.mp hop]
    rfl
  cases hjf : get_json_fields_translate_references schema src.course_block
      ⟨new_org.getD src.org, new_course.getD src.course, new_run.getD src.run,
       BranchName.published⟩ none with
  | none =>
    have hstep : (migrate_mongo_course schema src new_org new_course new_run).1 =
        [StoreOp.read Target.src "get_course"] := by
      simp only [migrate_mongo_course, hjf]
    rw [hstep]
    exact h0
  | some fields =>
    have h1 : ∀ op ∈ [StoreOp.read Target.src "get_course",
        StoreOp.write Target.dst "create_course"], opOk op = true :=
      opOk_append [StoreOp.read Target.src "get_course"] _ h0 rfl
    have hcpok := copy_published_modules_trace_ok schema src
      ⟨new_org.getD src.org, new_course.getD src.course, new_run.getD src.run,
       BranchName.published⟩
      (CourseKey.make_usage_key
        ⟨new_org.getD src.org, new_course.getD src.course, new_run.getD src.run,
         BranchName.published⟩ "course" (some splitRootId))
      ⟨[⟨⟨"course", some splitRootId⟩, persistFields fields⟩], []⟩
      [StoreOp.read Target.src "get_course", StoreOp.write Target.dst "create_course"] h1
    cases hcp : copy_published_modules_to_course schema src
        ⟨new_org.getD src.org, new_course.getD src.course, new_run.getD src.run,
         BranchName.published⟩
        (CourseKey.make_usage_key
          ⟨new_org.getD src.org, new_course.getD src.course, new_run.getD src.run,
           BranchName.published⟩ "course" (some splitRootId))
        ⟨[⟨⟨"course", some splitRootId⟩, persistFields fields⟩], []⟩
        [StoreOp.read Target.src "get_course", StoreOp.write Target.dst "create_course"] with
    | mk tr2 r2 =>
      rw [hcp] at hcpok
      cases r2 with
      | none =>
        have hstep : (migrate_mongo_course schema src new_org new_course new_run).1 = tr2 := by
          simp only [migrate_mongo_course, hjf, List.singleton_append, hcp]
        rw [hstep]
        exact hcpok
      | some st2 =>
        have haddok := add_draft_modules_trace_ok schema src
          (CourseKey.make_usage_key
            ⟨new_org.getD src.org, new_course.getD src.course, new_run.getD src.run,
             BranchName.published⟩ "course" (some splitRootId)) st2 tr2 hcpok
        cases hadd : add_draft_modules_to_course schema src
            (CourseKey.make_usage_key
              ⟨new_org.getD src.org, new_course.getD src.course, new_run.getD src.run,
               BranchName.published⟩ "course" (some splitRootId)) st2 tr2 with
        | mk tr3 r3 =>
          rw [hadd] at haddok
          cases r3 with
          | none =>
            have hstep : (migrate_mongo_course schema src new_org new_course new_run).1 =
                tr3 := by
              simp only [migrate_mongo_course, hjf, List.singleton_append, hcp, hadd]
            rw [hstep]
            exact haddok
          | some st3 =>
            have hstep : (migrate_mongo_course schema src new_org new_course new_run).1 =
                tr3 := by
              simp only [migrate_mongo_course, hjf, List.singleton_append, hcp, hadd]
            rw [hstep]
            exact haddok

theorem claim9_source_never_mutated_witness :
    StoreOp.read Target.src "get_course" ∈
      (migrate_mongo_course sampleSchema sampleSrc none none none).1 ∧
    opOk (StoreOp.read Target.src "get_course") = true :=
  ⟨by decide,
   claim9_source_never_mutated sampleSchema sampleSrc none none none
     (StoreOp.read Target.src "get_course") (by decide)⟩

/-! ### Draft-iteration order (claim C6) -/

/-- The sibling translation the adoption walk compares destination children
against (line 161). -/
def translateU (dloc : CourseKey) (s : Location) : UsageKey :=
  dloc.make_usage_key s.category (some s.block_id)

theorem translateU_inj {dloc : CourseKey} {a b : Location}
    (h : translateU dloc a = translateU dloc b) : a = b := by
  cases a; cases b
  simp [translateU, CourseKey.make_usage_key] at h
  simp [h.1, h.2]

theorem pyInsert_zero {α : Type} (x : α) (l : List α) : pyInsert 0 x l = x :: l := by
  cases l <;> rfl

theorem pyInsert_length {α : Type} (x : α) : ∀ (n : Nat) (l : List α),
    (pyInsert n x l).length = l.length + 1
  | n, [] => by cases n <;> simp [pyInsert]
  | 0, a :: l => by simp [pyInsert]
  | n + 1, a :: l => by simp [pyInsert, pyInsert_length x n l]

theorem pyInsert_comm {α : Type} (x y : α) : ∀ (l : List α) (i j : Nat), i ≤ j →
    j ≤ l.length → pyInsert (j + 1) y (pyInsert i x l) = pyInsert i x (pyInsert j y l)
  | [], i, j, hij, hj => by
    have hj0 : j = 0 := Nat.le_zero.mp hj
    subst hj0
    have hi0 : i = 0 := Nat.le_zero.mp hij
    subst hi0
    rfl
  | z :: zs, 0, j, hij, hj => by
    rw [pyInsert_zero, pyInsert_zero]
    rfl
  | z :: zs, i + 1, j, hij, hj => by
    cases j with
    | zero => exact absurd hij (by omega)
    | succ j' =>
      have h1 : pyInsert (i + 1) x (z :: zs) = z :: pyInsert i x zs := rfl
      have h2 : pyInsert (j' + 1) y (z :: zs) = z :: pyInsert j' y zs := rfl
      rw [h1, h2]
      have h3 : pyInsert (j' + 1 + 1) y (z :: pyInsert i x zs) =
          z :: pyInsert (j' + 1) y (pyInsert i x zs) := rfl
      have h4 : pyInsert (i + 1) x (z :: pyInsert j' y zs) =
          z :: pyInsert i x (pyInsert j' y zs) := rfl
      rw [h3, h4, pyInsert_comm x y zs i j' (by omega) (by simpa using hj)]

theorem findFromBy_lt {α : Type} (q : α → Bool) : ∀ (K : List α) (c i : Nat),
    findFromBy q K c = some i → i < K.length
  | [], c, i, h => by simp [findFromBy] at h
  | y :: ys, 0, i, h => by
    by_cases hy : q y
    · simp [findFromBy, hy] at h
      simp
      omega
    · simp only [findFromBy, hy, if_false, Bool.false_eq_true] at h
      rcases Option.map_eq_some'.mp h with ⟨i', hi', rfl⟩
      have := findFromBy_lt q ys 0 i' hi'
      simp
      omega
  | y :: ys, c + 1, i, h => by
    simp only [findFromBy] at h
    rcases Option.map_eq_some'.mp h with ⟨i', hi', rfl⟩
    have := findFromBy_lt q ys c i' hi'
    simp
    omega

theorem findFromBy_ge {α : Type} (q : α → Bool) : ∀ (K : List α) (c i : Nat),
    findFromBy q K c = some i → c ≤ i
  | [], c, i, h => by simp [findFromBy] at h
  | y :: ys, 0, i, h => Nat.zero_le i
  | y :: ys, c + 1, i, h => by
    simp only [findFromBy] at h
    rcases Option.map_eq_some'.mp h with ⟨i', hi', rfl⟩
    have := findFromBy_ge q ys c i' hi'
    omega

theorem findFromBy_none_of {α : Type} (q : α → Bool)
    (K : List α) (hq : ∀ u ∈ K, q u = false) : ∀ c : Nat, findFromBy q K c = none := by
  induction K with
  | nil => intro c; simp [findFromBy]
  | cons y ys ih =>
    intro c
    have hys : ∀ u ∈ ys, q u = false := fun u hu => hq u (List.mem_cons_of_mem y hu)
    cases c with
    | zero =>
      simp [findFromBy, hq y (List.mem_cons_self y ys), ih hys 0]
    | succ c' =>
      simp [findFromBy, ih hys c']

theorem findFromBy_insert_le {α : Type} (q : α → Bool) (x : α) (hx : q x = false) :
    ∀ (K : List α) (c p : Nat), c ≤ p → p ≤ K.length →
      findFromBy q (pyInsert p x K) c =
        (findFromBy q K c).map (fun i => if i < p then i else i + 1)
  | [], c, p, hcp, hpl => by
    have hp0 : p = 0 := Nat.le_zero.mp hpl
    subst hp0
    have hc0 : c = 0 := Nat.le_zero.mp hcp
    subst hc0
    simp [pyInsert, findFromBy, hx]
  | y :: ys, c, p, hcp, hpl => by
    cases p with
    | zero =>
      have hc0 : c = 0 := Nat.le_zero.mp hcp
      subst hc0
      rw [pyInsert_zero]
      have h1 : findFromBy q (x :: y :: ys) 0 =
          (findFromBy q (y :: ys) 0).map (· + 1) := by
        simp [findFromBy, hx]
      rw [h1]
      cases hf : findFromBy q (y :: ys) 0 <;> simp
    | succ p' =>
      have h1 : pyInsert (p' + 1) x (y :: ys) = y :: pyInsert p' x ys := rfl
      rw [h1]
      cases c with
      | zero =>
        by_cases hy : q y
        · simp [findFromBy, hy]
        · have h2 : findFromBy q (y :: pyInsert p' x ys) 0 =
              (findFromBy q (pyInsert p' x ys) 0).map (· + 1) := by
            simp [findFromBy, hy]
          have h3 : findFromBy q (y :: ys) 0 = (findFromBy q ys 0).map (· + 1) := by
            simp [findFromBy, hy]
          rw [h2, h3,
            findFromBy_insert_le q x hx ys 0 p' (Nat.zero_le p') (by simpa using hpl)]
          cases hf : findFromBy q ys 0 with
          | none => simp
          | some i =>
            simp only [Option.map_some']
            have : (if i < p' then i else i + 1) + 1 =
                if i + 1 < p' + 1 then i + 1 else i + 1 + 1 := by
              by_cases hip : i < p' <;> simp [hip]
            simp [this]
      | succ c' =>
        have h2 : findFromBy q (y :: pyInsert p' x ys) (c' + 1) =
            (findFromBy q (pyInsert p' x ys) c').map (· + 1) := rfl
        have h3 : findFromBy q (y :: ys) (c' + 1) = (findFromBy q ys c').map (· + 1) := rfl
        rw [h2, h3,
          findFromBy_insert_le q x hx ys c' p' (by omega) (by simpa using hpl)]
        cases hf : findFromBy q ys c' with
        | none => simp
        | some i =>
          simp only [Option.map_some']
          have : (if i < p' then i else i + 1) + 1 =
              if i + 1 < p' + 1 then i + 1 else i + 1 + 1 := by
            by_cases hip : i < p' <;> simp [hip]
          simp [this]

theorem findFromBy_insert_after {α : Type} (q : α → Bool) (x : α) (hx : q x = false) :
    ∀ (K : List α) (c p : Nat), p ≤ c → p ≤ K.length →
      findFromBy q (pyInsert p x K) (c + 1) = (findFromBy q K c).map (· + 1)
  | [], c, p, hpc, hpl => by
    have hp0 : p = 0 := Nat.le_zero.mp hpl
    subst hp0
    simp [pyInsert, findFromBy]
  | y :: ys, c, p, hpc, hpl => by
    cases p with
    | zero =>
      rw [pyInsert_zero]
      rfl
    | succ p' =>
      have h1 : pyInsert (p' + 1) x (y :: ys) = y :: pyInsert p' x ys := rfl
      rw [h1]
      cases c with
      | zero => exact absurd hpc (by omega)
      | succ c' =>
        have h2 : findFromBy q (y :: pyInsert p' x ys) (c' + 1 + 1) =
            (findFromBy q (pyInsert p' x ys) (c' + 1)).map (· + 1) := rfl
        have h3 : findFromBy q (y :: ys) (c' + 1) = (findFromBy q ys c').map (· + 1) := rfl
        rw [h2, h3,
          findFromBy_insert_after q x hx ys c' p' (by omega) (by simpa using hpl)]

theorem findFromBy_insert_self {α : Type} (q : α → Bool) (x : α) (hx : q x = true) :
    ∀ (K : List α) (p : Nat), p ≤ K.length →
      findFromBy q (pyInsert p x K) p = some p
  | [], p, hpl => by
    have hp0 : p = 0 := Nat.le_zero.mp hpl
    subst hp0
    simp [pyInsert, findFromBy, hx]
  | y :: ys, 0, hpl => by
    rw [pyInsert_zero]
    simp [findFromBy, hx]
  | y :: ys, p + 1, hpl => by
    have h1 : pyInsert (p + 1) x (y :: ys) = y :: pyInsert p x ys := rfl
    rw [h1]
    have h2 : findFromBy q (y :: pyInsert p x ys) (p + 1) =
        (findFromBy q (pyInsert p x ys) p).map (· + 1) := rfl
    rw [h2, findFromBy_insert_self q x hx ys p (by simpa using hpl)]
    rfl

/-- The sibling-cursor walk over a segment of the source parent's children,
without the stop test (the walk of lines 157-166 restricted to the siblings
that precede the adopted child). -/
def walkSeg (dloc : CourseKey) : List Location → Nat → List UsageKey → Nat
  | [], c, _ => c
  | s :: ss, c, kids =>
    match findFromBy (fun child => child.version_agnostic == translateU dloc s) kids c with
    | some i => walkSeg dloc ss (i + 1) kids
    | none => walkSeg dloc ss c kids

theorem cursorWalk_eq_walkSeg (dloc : CourseKey) (l : Location) :
    ∀ (S : List Location) (c : Nat) (K : List UsageKey),
      cursorWalkU dloc l S c K = walkSeg dloc (S.takeWhile fun s => s != l) c K
  | [], c, K => rfl
  | s :: ss, c, K => by
    by_cases hs : s = l
    · have ht : (s :: ss).takeWhile (fun s => s != l) = [] := by
        simp [List.takeWhile_cons, hs]
      rw [ht]
      simp [cursorWalkU, hs, walkSeg]
    · have ht : (s :: ss).takeWhile (fun s => s != l) =
          s :: ss.takeWhile (fun s => s != l) := by
        simp [List.takeWhile_cons, hs]
      rw [ht]
      have hq : (fun child : UsageKey => child.version_agnostic ==
            dloc.make_usage_key s.category (some s.block_id)) =
          fun child : UsageKey => child.version_agnostic == translateU dloc s := rfl
      cases hf : findFromBy
          (fun child => child.version_agnostic == translateU dloc s) K c with
      | some i =>
        simp only [cursorWalkU, hs, if_false, hq, hf, walkSeg]
        exact cursorWalk_eq_walkSeg dloc l ss (i + 1) K
      | none =>
        simp only [cursorWalkU, hs, if_false, hq, hf, walkSeg]
        exact cursorWalk_eq_walkSeg dloc l ss c K

theorem takeWhile_middle {l : Location} : ∀ (S1 S2 : List Location), l ∉ S1 →
    (S1 ++ l :: S2).takeWhile (fun s => s != l) = S1
  | [], S2, h => by simp [List.takeWhile_cons]
  | s :: S1, S2, h => by
    have hs : s ≠ l := fun he => h (he ▸ List.mem_cons_self s S1)
    have h1 : l ∉ S1 := fun hm => h (List.mem_cons_of_mem s hm)
    simp only [List.cons_append, List.takeWhile_cons]
    have hb : (s != l) = true := by simpa using hs
    rw [hb]
    simp only [if_true]
    rw [takeWhile_middle S1 S2 h1]

theorem walkSeg_append (dloc : CourseKey) :
    ∀ (S1 S2 : List Location) (c : Nat) (K : List UsageKey),
      walkSeg dloc (S1 ++ S2) c K = walkSeg dloc S2 (walkSeg dloc S1 c K) K
  | [], S2, c, K => rfl
  | s :: S1, S2, c, K => by
    cases hf : findFromBy
        (fun child => child.version_agnostic == translateU dloc s) K c with
    | some i =>
      simp only [List.cons_append, walkSeg, hf]
      exact walkSeg_append dloc S1 S2 (i + 1) K
    | none =>
      simp only [List.cons_append, walkSeg, hf]
      exact walkSeg_append dloc S1 S2 c K

theorem walkSeg_le (dloc : CourseKey) :
    ∀ (Sg : List Location) (c : Nat) (K : List UsageKey), c ≤ K.length →
      walkSeg dloc Sg c K ≤ K.length
  | [], c, K, h => h
  | s :: ss, c, K, h => by
    cases hf : findFromBy
        (fun child => child.version_agnostic == translateU dloc s) K c with
    | some i =>
      simp only [walkSeg, hf]
      exact walkSeg_le dloc ss (i + 1) K (findFromBy_lt _ K c i hf)
    | none =>
      simp only [walkSeg, hf]
      exact walkSeg_le dloc ss c K h

theorem walkSeg_mono (dloc : CourseKey) :
    ∀ (Sg : List Location) (c : Nat) (K : List UsageKey), c ≤ walkSeg dloc Sg c K
  | [], c, K => Nat.le_refl c
  | s :: ss, c, K => by
    cases hf : findFromBy
        (fun child => child.version_agnostic == translateU dloc s) K c with
    | some i =>
      simp only [walkSeg, hf]
      have h1 := findFromBy_ge _ K c i hf
      have h2 := walkSeg_mono dloc ss (i + 1) K
      omega
    | none =>
      simp only [walkSeg, hf]
      exact walkSeg_mono dloc ss c K

/-- How an index at or after an insertion point shifts. -/
def shiftIdx (p c : Nat) : Nat := if c ≤ p then c else c + 1

theorem walkSeg_insert (dloc : CourseKey) (x : UsageKey) (p : Nat) :
    ∀ (Sg : List Location) (c : Nat) (K : List UsageKey), p ≤ K.length →
      (∀ s ∈ Sg, (x.version_agnostic == translateU dloc s) = false) →
      walkSeg dloc Sg (shiftIdx p c) (pyInsert p x K) = shiftIdx p (walkSeg dloc Sg c K)
  | [], c, K, hp, hm => rfl
  | s :: ss, c, K, hp, hm => by
    have hx : (x.version_agnostic == translateU dloc s) = false :=
      hm s (List.mem_cons_self s ss)
    have hmss : ∀ s' ∈ ss, (x.version_agnostic == translateU dloc s') = false :=
      fun s' hs' => hm s' (List.mem_cons_of_mem s hs')
    by_cases hc : c ≤ p
    · have hsc : shiftIdx p c = c := by simp [shiftIdx, hc]
      have hf1 := findFromBy_insert_le
        (fun child => child.version_agnostic == translateU dloc s) x hx K c p hc hp
      cases hf : findFromBy
          (fun child => child.version_agnostic == translateU dloc s) K c with
      | none =>
        rw [hf] at hf1
        simp only [Option.map_none'] at hf1
        have ih := walkSeg_insert dloc x p ss c K hp hmss
        have hL : walkSeg dloc (s :: ss) (shiftIdx p c) (pyInsert p x K) =
            walkSeg dloc ss (shiftIdx p c) (pyInsert p x K) := by
          simp only [walkSeg, hsc, hf1]
        have hR : walkSeg dloc (s :: ss) c K = walkSeg dloc ss c K := by
          simp only [walkSeg, hf]
        rw [hL, hR]
        exact ih
      | some i =>
        rw [hf] at hf1
        simp only [Option.map_some'] at hf1
        have ih := walkSeg_insert dloc x p ss (i + 1) K hp hmss
        have hsh : (if i < p then i else i + 1) + 1 = shiftIdx p (i + 1) := by
          simp only [shiftIdx]
          by_cases hip : i < p
          · have h2 : i + 1 ≤ p := hip
            simp [hip, h2]
          · have h2 : ¬ i + 1 ≤ p := by omega
            simp [hip, h2]
        have hL : walkSeg dloc (s :: ss) (shiftIdx p c) (pyInsert p x K) =
            walkSeg dloc ss (shiftIdx p (i + 1)) (pyInsert p x K) := by
          simp only [walkSeg, hsc, hf1, hsh]
        have hR : walkSeg dloc (s :: ss) c K = walkSeg dloc ss (i + 1) K := by
          simp only [walkSeg, hf]
        rw [hL, hR]
        exact ih
    · have hsc : shiftIdx p c = c + 1 := by simp [shiftIdx, hc]
      have hf1 := findFromBy_insert_after
        (fun child => child.version_agnostic == translateU dloc s) x hx K c p
        (by omega) hp
      cases hf : findFromBy
          (fun child => child.version_agnostic == translateU dloc s) K c with
      | none =>
        rw [hf] at hf1
        simp only [Option.map_none'] at hf1
        have ih := walkSeg_insert dloc x p ss c K hp hmss
        have hL : walkSeg dloc (s :: ss) (shiftIdx p c) (pyInsert p x K) =
            walkSeg dloc ss (shiftIdx p c) (pyInsert p x K) := by
          simp only [walkSeg, hsc, hf1]
        have hR : walkSeg dloc (s :: ss) c K = walkSeg dloc ss c K := by
          simp only [walkSeg, hf]
        rw [hL, hR]
        exact ih
      | some i =>
        rw [hf] at hf1
        simp only [Option.map_some'] at hf1
        have hci := findFromBy_ge _ K c i hf
        have ih := walkSeg_insert dloc x p ss (i + 1) K hp hmss
        have hsh : i + 1 + 1 = shiftIdx p (i + 1) := by
          simp only [shiftIdx]
          have h2 : ¬ i + 1 ≤ p := by omega
          simp [h2]
        have hL : walkSeg dloc (s :: ss) (shiftIdx p c) (pyInsert p x K) =
            walkSeg dloc ss (shiftIdx p (i + 1)) (pyInsert p x K) := by
          simp only [walkSeg, hsc, hf1, hsh]
        have hR : walkSeg dloc (s :: ss) c K = walkSeg dloc ss (i + 1) K := by
          simp only [walkSeg, hf]
        rw [hL, hR]
        exact ih

theorem walkSeg_insert_after (dloc : CourseKey) (x : UsageKey) (p : Nat) :
    ∀ (Sg : List Location) (c : Nat) (K : List UsageKey), p ≤ c → p ≤ K.length →
      (∀ s ∈ Sg, (x.version_agnostic == translateU dloc s) = false) →
      walkSeg dloc Sg (c + 1) (pyInsert p x K) = walkSeg dloc Sg c K + 1
  | [], c, K, hpc, hp, hm => rfl
  | s :: ss, c, K, hpc, hp, hm => by
    have hx : (x.version_agnostic == translateU dloc s) = false :=
      hm s (List.mem_cons_self s ss)
    have hmss : ∀ s' ∈ ss, (x.version_agnostic == translateU dloc s') = false :=
      fun s' hs' => hm s' (List.mem_cons_of_mem s hs')
    have hf1 := findFromBy_insert_after
      (fun child => child.version_agnostic == translateU dloc s) x hx K c p hpc hp
    cases hf : findFromBy
        (fun child => child.version_agnostic == translateU dloc s) K c with
    | none =>
      rw [hf] at hf1
      simp only [Option.map_none'] at hf1
      simp only [walkSeg, hf1, hf]
      exact walkSeg_insert_after dloc x p ss c K hpc hp hmss
    | some i =>
      rw [hf] at hf1
      simp only [Option.map_some'] at hf1
      simp only [walkSeg, hf1, hf]
      have hci := findFromBy_ge _ K c i hf
      exact walkSeg_insert_after dloc x p ss (i + 1) K (by omega) hp hmss

theorem va_translateU (dloc : CourseKey) (s : Location) :
    (translateU dloc s).version_agnostic = translateU dloc s := rfl

theorem nomatch_of_ne (dloc : CourseKey) {a s : Location} (h : s ≠ a) (nl : UsageKey)
    (hnl : nl = translateU dloc a) :
    (nl.version_agnostic == translateU dloc s) = false := by
  subst hnl
  rw [va_translateU]
  have : translateU dloc a ≠ translateU dloc s := fun he => h (translateU_inj he).symm
  simpa using this

theorem kidsInsert_comm (dloc : CourseKey) (lb ld : Location) (nlb nld : UsageKey)
    (S S1 S2 S3 : List Location) (K : List UsageKey)
    (hSdef : S = S1 ++ lb :: (S2 ++ ld :: S3)) (hS : S.Nodup)
    (hnlb : nlb = translateU dloc lb) (hnld : nld = translateU dloc ld)
    (hKb : ∀ u ∈ K, (nlb == u.version_agnostic) = false)
    (hKd : ∀ u ∈ K, (nld == u.version_agnostic) = false) :
    pyInsert (cursorWalkU dloc ld S 0 (pyInsert (cursorWalkU dloc lb S 0 K) nlb K)) nld
        (pyInsert (cursorWalkU dloc lb S 0 K) nlb K) =
      pyInsert (cursorWalkU dloc lb S 0 (pyInsert (cursorWalkU dloc ld S 0 K) nld K)) nlb
        (pyInsert (cursorWalkU dloc ld S 0 K) nld K) := by
  subst hSdef
  rcases List.nodup_append.mp hS with ⟨hnS1, hn2, hdisj⟩
  rcases List.nodup_cons.mp hn2 with ⟨hlb_notin, hn3⟩
  rcases List.nodup_append.mp hn3 with ⟨hnS2, hn4, hdisj2⟩
  have h_lb_S1 : lb ∉ S1 := fun hm =>
    hdisj hm (List.mem_cons_self lb (S2 ++ ld :: S3))
  have h_ld_S1 : ld ∉ S1 := fun hm =>
    hdisj hm (List.mem_cons_of_mem lb
      (List.mem_append.mpr (Or.inr (List.mem_cons_self ld S3))))
  have h_lb_S2 : lb ∉ S2 := fun hm => hlb_notin (List.mem_append.mpr (Or.inl hm))
  have h_ld_ne : ld ≠ lb := fun he =>
    hlb_notin (List.mem_append.mpr (Or.inr (List.mem_cons.mpr (Or.inl he.symm))))
  have h_ld_S2 : ld ∉ S2 := fun hm => hdisj2 hm (List.mem_cons_self ld S3)
  have hmS1b : ∀ s ∈ S1, (nlb.version_agnostic == translateU dloc s) = false := by
    intro s hs
    refine nomatch_of_ne dloc ?_ nlb hnlb
    intro he
    rw [he] at hs
    exact h_lb_S1 hs
  have hmS2b : ∀ s ∈ S2, (nlb.version_agnostic == translateU dloc s) = false := by
    intro s hs
    refine nomatch_of_ne dloc ?_ nlb hnlb
    intro he
    rw [he] at hs
    exact h_lb_S2 hs
  have hmS1d : ∀ s ∈ S1, (nld.version_agnostic == translateU dloc s) = false := by
    intro s hs
    refine nomatch_of_ne dloc ?_ nld hnld
    intro he
    rw [he] at hs
    exact h_ld_S1 hs
  have hKb' : ∀ u ∈ K, (u.version_agnostic == translateU dloc lb) = false := by
    intro u hu
    rw [← hnlb]
    have h1 : ¬ nlb = u.version_agnostic := by simpa using hKb u hu
    have h2 : ¬ u.version_agnostic = nlb := fun he => h1 he.symm
    simpa using h2
  have hqb : ((nlb.version_agnostic == translateU dloc lb) : Bool) = true := by
    rw [hnlb, va_translateU]
    simp
  -- the walk for the first-in-source child stops before the insertion point
  have htwb : (S1 ++ lb :: (S2 ++ ld :: S3)).takeWhile (fun s => s != lb) = S1 :=
    takeWhile_middle S1 (S2 ++ ld :: S3) h_lb_S1
  have h_ld_pre : ld ∉ S1 ++ lb :: S2 := by
    intro hm
    rcases List.mem_append.mp hm with h1 | h2
    · exact h_ld_S1 h1
    · rcases List.mem_cons.mp h2 with h3 | h4
      · exact h_ld_ne h3
      · exact h_ld_S2 h4
  have hassoc : S1 ++ lb :: (S2 ++ ld :: S3) = (S1 ++ lb :: S2) ++ ld :: S3 := by
    simp
  have htwd : (S1 ++ lb :: (S2 ++ ld :: S3)).takeWhile (fun s => s != ld) =
      S1 ++ lb :: S2 := by
    rw [hassoc]
    exact takeWhile_middle (S1 ++ lb :: S2) S3 h_ld_pre
  -- base cursors
  have hc1len : walkSeg dloc S1 0 K ≤ K.length := walkSeg_le dloc S1 0 K (Nat.zero_le _)
  have hfb_none : findFromBy
      (fun child => child.version_agnostic == translateU dloc lb) K (walkSeg dloc S1 0 K) =
      none := findFromBy_none_of _ K hKb' _
  have hcb : cursorWalkU dloc lb (S1 ++ lb :: (S2 ++ ld :: S3)) 0 K =
      walkSeg dloc S1 0 K := by
    rw [cursorWalk_eq_walkSeg, htwb]
  have hcd : cursorWalkU dloc ld (S1 ++ lb :: (S2 ++ ld :: S3)) 0 K =
      walkSeg dloc S2 (walkSeg dloc S1 0 K) K := by
    rw [cursorWalk_eq_walkSeg, htwd, walkSeg_append]
    simp only [walkSeg, hfb_none]
  have hc1c2 : walkSeg dloc S1 0 K ≤ walkSeg dloc S2 (walkSeg dloc S1 0 K) K :=
    walkSeg_mono dloc S2 _ K
  have hc2len : walkSeg dloc S2 (walkSeg dloc S1 0 K) K ≤ K.length :=
    walkSeg_le dloc S2 _ K hc1len
  -- the walk for the second-in-source child over the store with the first
  -- child already inserted
  have hS1K1 : walkSeg dloc S1 0 (pyInsert (walkSeg dloc S1 0 K) nlb K) =
      walkSeg dloc S1 0 K := by
    have h0 : shiftIdx (walkSeg dloc S1 0 K) 0 = 0 := by
      simp [shiftIdx]
    have := walkSeg_insert dloc nlb (walkSeg dloc S1 0 K) S1 0 K hc1len hmS1b
    rw [h0] at this
    rw [this]
    simp [shiftIdx]
  have hfbK1 : findFromBy (fun child => child.version_agnostic == translateU dloc lb)
      (pyInsert (walkSeg dloc S1 0 K) nlb K) (walkSeg dloc S1 0 K) =
      some (walkSeg dloc S1 0 K) :=
    findFromBy_insert_self _ nlb hqb K _ hc1len
  have hcd1 : cursorWalkU dloc ld (S1 ++ lb :: (S2 ++ ld :: S3)) 0
      (pyInsert (walkSeg dloc S1 0 K) nlb K) =
      walkSeg dloc S2 (walkSeg dloc S1 0 K) K + 1 := by
    rw [cursorWalk_eq_walkSeg, htwd, walkSeg_append, hS1K1]
    simp only [walkSeg, hfbK1]
    exact walkSeg_insert_after dloc nlb (walkSeg dloc S1 0 K) S2 (walkSeg dloc S1 0 K) K
      (Nat.le_refl _) hc1len hmS2b
  -- the walk for the first-in-source child over the store with the second
  -- child already inserted
  have hcb2 : cursorWalkU dloc lb (S1 ++ lb :: (S2 ++ ld :: S3)) 0
      (pyInsert (walkSeg dloc S2 (walkSeg dloc S1 0 K) K) nld K) =
      walkSeg dloc S1 0 K := by
    rw [cursorWalk_eq_walkSeg, htwb]
    have h0 : shiftIdx (walkSeg dloc S2 (walkSeg dloc S1 0 K) K) 0 = 0 := by
      simp [shiftIdx]
    have := walkSeg_insert dloc nld (walkSeg dloc S2 (walkSeg dloc S1 0 K) K)
      S1 0 K hc2len hmS1d
    rw [h0] at this
    rw [this]
    simp [shiftIdx, hc1c2]
  rw [hcb, hcd, hcd1, hcb2]
  exact pyInsert_comm nlb nld K (walkSeg dloc S1 0 K)
    (walkSeg dloc S2 (walkSeg dloc S1 0 K) K) hc1c2 hc2len

/-- The state component of one adoption step (the trace only accumulates,
so the state evolution is a function of the state alone). -/
def adoptS (src : SourceStore) (dloc : CourseKey) (pubRoot : UsageKey)
    (r : Option SplitStore) (e : Location × UsageKey) : Option SplitStore :=
  (adoptEntry src dloc pubRoot ([], r) e).2

theorem adoptEntry_snd (src : SourceStore) (dloc : CourseKey) (pubRoot : UsageKey)
    (tr : List StoreOp) (r : Option SplitStore) (e : Location × UsageKey) :
    (adoptEntry src dloc pubRoot (tr, r) e).2 = adoptS src dloc pubRoot r e := by
  cases r with
  | none => rfl
  | some st =>
    rcases e with ⟨l, nl⟩
    unfold adoptS
    cases hp : src.parentOf l with
    | none =>
      rw [adoptEntry_warn src dloc pubRoot tr st l nl hp,
        adoptEntry_warn src dloc pubRoot [] st l nl hp]
    | some p =>
      cases hi : src.itemOf p with
      | none =>
        rw [adoptEntry_itemfail src dloc pubRoot tr st l nl p hp hi,
          adoptEntry_itemfail src dloc pubRoot [] st l nl p hp hi]
      | some op' =>
        cases hfb : findBlock (splitParentKey dloc pubRoot p) st.draft with
        | none =>
          rw [adoptEntry_destfail src dloc pubRoot tr st l nl p op' hp hi hfb,
            adoptEntry_destfail src dloc pubRoot [] st l nl p op' hp hi hfb]
        | some np =>
          cases hmem : (childUsages dloc np).any fun child => nl == child.version_agnostic with
          | true =>
            rw [adoptEntry_skip src dloc pubRoot tr st l nl p op' np hp hi hfb hmem,
              adoptEntry_skip src dloc pubRoot [] st l nl p op' np hp hi hfb hmem]
          | false =>
            rw [adoptEntry_insert src dloc pubRoot tr st l nl p op' np hp hi hfb hmem,
              adoptEntry_insert src dloc pubRoot [] st l nl p op' np hp hi hfb hmem]

theorem adoptFold_snd (src : SourceStore) (dloc : CourseKey) (pubRoot : UsageKey) :
    ∀ (pending : List (Location × UsageKey)) (tr : List StoreOp) (r : Option SplitStore),
      (pending.foldl (adoptEntry src dloc pubRoot) (tr, r)).2 =
        pending.foldl (adoptS src dloc pubRoot) r
  | [], tr, r => rfl
  | e :: es, tr, r => by
    cases h : adoptEntry src dloc pubRoot (tr, r) e with
    | mk tr' r' =>
      have h2 : r' = adoptS src dloc pubRoot r e := by
        rw [← adoptEntry_snd src dloc pubRoot tr r e, h]
      simp only [List.foldl_cons, h]
      rw [adoptFold_snd src dloc pubRoot es tr' r', h2]

theorem adoptS_warn (src : SourceStore) (dloc : CourseKey) (pubRoot : UsageKey)
    (st : SplitStore) (l : Location) (nl : UsageKey) (hp : src.parentOf l = none) :
    adoptS src dloc pubRoot (some st) (l, nl) = some st := by
  unfold adoptS
  rw [adoptEntry_warn src dloc pubRoot [] st l nl hp]

theorem adoptS_itemfail (src : SourceStore) (dloc : CourseKey) (pubRoot : UsageKey)
    (st : SplitStore) (l : Location) (nl : UsageKey) (p : Location)
    (hp : src.parentOf l = some p) (hi : src.itemOf p = none) :
    adoptS src dloc pubRoot (some st) (l, nl) = none := by
  unfold adoptS
  rw [adoptEntry_itemfail src dloc pubRoot [] st l nl p hp hi]

theorem adoptS_destfail (src : SourceStore) (dloc : CourseKey) (pubRoot : UsageKey)
    (st : SplitStore) (l : Location) (nl : UsageKey) (p : Location) (op : XBlock)
    (hp : src.parentOf l = some p) (hi : src.itemOf p = some op)
    (hfb : findBlock (splitParentKey dloc pubRoot p) st.draft = none) :
    adoptS src dloc pubRoot (some st) (l, nl) = none := by
  unfold adoptS
  rw [adoptEntry_destfail src dloc pubRoot [] st l nl p op hp hi hfb]

theorem adoptS_skip (src : SourceStore) (dloc : CourseKey) (pubRoot : UsageKey)
    (st : SplitStore) (l : Location) (nl : UsageKey) (p : Location) (op : XBlock)
    (np : SplitBlock) (hp : src.parentOf l = some p) (hi : src.itemOf p = some op)
    (hfb : findBlock (splitParentKey dloc pubRoot p) st.draft = some np)
    (hmem : ((childUsages dloc np).any fun child => nl == child.version_agnostic) = true) :
    adoptS src dloc pubRoot (some st) (l, nl) = some st := by
  unfold adoptS
  rw [adoptEntry_skip src dloc pubRoot [] st l nl p op np hp hi hfb hmem]

theorem adoptS_insert (src : SourceStore) (dloc : CourseKey) (pubRoot : UsageKey)
    (st : SplitStore) (l : Location) (nl : UsageKey) (p : Location) (op : XBlock)
    (np : SplitBlock) (hp : src.parentOf l = some p) (hi : src.itemOf p = some op)
    (hfb : findBlock (splitParentKey dloc pubRoot p) st.draft = some np)
    (hmem : ((childUsages dloc np).any fun child => nl == child.version_agnostic) = false) :
    adoptS src dloc pubRoot (some st) (l, nl) =
      some (updateDraft st ⟨np.key,
        setVal "children"
          (TValue.usageList (pyInsert (cursorWalkU dloc l op.children 0 (childUsages dloc np))
            nl (childUsages dloc np))).persist np.vals⟩) := by
  unfold adoptS
  rw [adoptEntry_insert src dloc pubRoot [] st l nl p op np hp hi hfb hmem]

theorem setVal_setVal (n : String) (v v' : SValue) : ∀ vs : List (String × SValue),
    setVal n v' (setVal n v vs) = setVal n v' vs
  | [] => by simp [setVal]
  | p :: ps => by
    by_cases h : p.1 = n
    · have hb : (p.1 == n) = true := by simpa using h
      simp [setVal, hb]
    · have hb : (p.1 == n) = false := by simpa using h
      simp [setVal, hb, setVal_setVal n v v' ps]

theorem updateDraft_updateDraft (st : SplitStore) (b b' : SplitBlock)
    (h : b'.key = b.key) : updateDraft (updateDraft st b) b' = updateDraft st b' := by
  simp only [updateDraft, List.map_map]
  congr 1
  refine List.map_congr_left ?_
  intro x hx0
  by_cases hx : x.key = b.key
  · have hb1 : (x.key == b.key) = true := by simpa using hx
    have hb2 : (b.key == b'.key) = true := by simpa using h.symm
    have hb3 : (x.key == b'.key) = true := by
      rw [hx] at hb1 ⊢
      simpa using h.symm
    simp [Function.comp, hb1, hb2, hb3]
  · have hb1 : (x.key == b.key) = false := by simpa using hx
    simp [Function.comp, hb1]

theorem updateDraft_comm (st : SplitStore) (b b' : SplitBlock) (h : ¬ b.key = b'.key) :
    updateDraft (updateDraft st b) b' = updateDraft (updateDraft st b') b := by
  simp only [updateDraft, List.map_map]
  congr 1
  refine List.map_congr_left ?_
  intro x hx0
  by_cases hxb : x.key = b.key
  · have hb1 : (x.key == b.key) = true := by simpa using hxb
    have hb2 : (b.key == b'.key) = false := by simpa using h
    have hb3 : (x.key == b'.key) = false := by
      rw [hxb]
      simpa using h
    simp [Function.comp, hb1, hb2, hb3]
  · by_cases hxb' : x.key = b'.key
    · have hb1 : (x.key == b.key) = false := by simpa using hxb
      have hb2 : (x.key == b'.key) = true := by simpa using hxb'
      have hb3 : (b'.key == b.key) = false := by
        have : ¬ b'.key = b.key := fun he => h he.symm
        simpa using this
      simp [Function.comp, hb1, hb2, hb3]
    · have hb1 : (x.key == b.key) = false := by simpa using hxb
      have hb2 : (x.key == b'.key) = false := by simpa using hxb'
      simp [Function.comp, hb1, hb2]

theorem childUsages_setChildren (dloc : CourseKey) (k : BlockKey)
    (vals : List (String × SValue)) (ks : List UsageKey) :
    childUsages dloc ⟨k, setVal "children" (TValue.usageList ks).persist vals⟩ =
      ks.map (fun u => (⟨dloc, u.key, none⟩ : UsageKey)) := by
  have h1 : (⟨k, setVal "children" (TValue.usageList ks).persist vals⟩ :
      SplitBlock).childKeys = ks.map UsageKey.key := by
    simp [SplitBlock.childKeys, setVal_lookup, TValue.persist]
  simp [childUsages, h1, List.map_map, Function.comp]

theorem childUsages_canon (dloc : CourseKey) (b : SplitBlock) :
    ∀ u ∈ childUsages dloc b, u = ⟨dloc, u.key, none⟩ := by
  intro u hu
  rcases List.mem_map.mp hu with ⟨kk, hk, he⟩
  rw [← he]

theorem map_canon_id (dloc : CourseKey) : ∀ ks : List UsageKey,
    (∀ u ∈ ks, u = ⟨dloc, u.key, none⟩) →
    ks.map (fun u => (⟨dloc, u.key, none⟩ : UsageKey)) = ks
  | [], h => rfl
  | u :: us, h => by
    have h1 : u = ⟨dloc, u.key, none⟩ := h u (List.mem_cons_self u us)
    have h2 := map_canon_id dloc us (fun v hv => h v (List.mem_cons_of_mem u hv))
    simp only [List.map_cons, h2]
    rw [← h1]

theorem any_pyInsert {α : Type} (q : α → Bool) (x : α) : ∀ (n : Nat) (l : List α),
    (pyInsert n x l).any q = (q x || l.any q)
  | n, [] => by cases n <;> simp [pyInsert]
  | 0, a :: l => by simp [pyInsert]
  | n + 1, a :: l => by
    simp only [pyInsert, List.any_cons, any_pyInsert q x n l]
    cases q a <;> cases q x <;> simp

theorem adoptS_none_eq (src : SourceStore) (dloc : CourseKey) (pubRoot : UsageKey)
    (e : Location × UsageKey) : adoptS src dloc pubRoot none e = none := rfl

theorem adoptS_warn_id (src : SourceStore) (dloc : CourseKey) (pubRoot : UsageKey)
    (l : Location) (nl : UsageKey) (hp : src.parentOf l = none) :
    ∀ r : Option SplitStore, adoptS src dloc pubRoot r (l, nl) = r
  | none => rfl
  | some st => adoptS_warn src dloc pubRoot st l nl hp

theorem adoptS_itemfail_none (src : SourceStore) (dloc : CourseKey) (pubRoot : UsageKey)
    (l : Location) (nl : UsageKey) (p : Location)
    (hp : src.parentOf l = some p) (hi : src.itemOf p = none) :
    ∀ r : Option SplitStore, adoptS src dloc pubRoot r (l, nl) = none
  | none => rfl
  | some st => adoptS_itemfail src dloc pubRoot st l nl p hp hi

theorem canon_va (dloc : CourseKey) (k : BlockKey) :
    (⟨dloc, k, none⟩ : UsageKey).version_agnostic = ⟨dloc, k, none⟩ := rfl

theorem childUsages_insertBlock (dloc : CourseKey) (np : SplitBlock) (nl : UsageKey)
    (c : Nat) (hnl : nl = ⟨dloc, nl.key, none⟩) :
    childUsages dloc ⟨np.key,
        setVal "children"
          (TValue.usageList (pyInsert c nl (childUsages dloc np))).persist np.vals⟩ =
      pyInsert c nl (childUsages dloc np) := by
  rw [childUsages_setChildren]
  refine map_canon_id dloc _ ?_
  intro u hu
  rcases (mem_pyInsert u nl c _).mp hu with he | hm
  · rw [he]
    exact hnl
  · exact childUsages_canon dloc np u hm

theorem mem_mem_split {α : Type} {x y : α} : ∀ {S : List α}, x ∈ S → y ∈ S → x ≠ y →
    ∃ S1 S2 S3, S = S1 ++ x :: (S2 ++ y :: S3) ∨ S = S1 ++ y :: (S2 ++ x :: S3) := by
  intro S hx hy hxy
  rcases List.append_of_mem hx with ⟨u, v, rfl⟩
  rcases List.mem_append.mp hy with hyu | hyv
  · rcases List.append_of_mem hyu with ⟨u1, u2, rfl⟩
    exact ⟨u1, u2, v, Or.inr (by simp)⟩
  · rcases List.mem_cons.mp hyv with hyx | hyv'
    · exact absurd hyx.symm hxy
    · rcases List.append_of_mem hyv' with ⟨v1, v2, rfl⟩
      exact ⟨u, v1, v2, Or.inl rfl⟩

theorem adoptS_skip_on_updated (src : SourceStore) (dloc : CourseKey) (pubRoot : UsageKey)
    (st : SplitStore) (l : Location) (nl : UsageKey) (p : Location) (P : XBlock)
    (np : SplitBlock) (c : Nat) (nl0 : UsageKey)
    (hp : src.parentOf l = some p) (hi : src.itemOf p = some P)
    (hfa : findBlock (splitParentKey dloc pubRoot p) st.draft = some np)
    (hnl0 : nl0 = ⟨dloc, nl0.key, none⟩)
    (hskip : ((pyInsert c nl0 (childUsages dloc np)).any
      fun child => nl == child.version_agnostic) = true) :
    adoptS src dloc pubRoot
      (some (updateDraft st ⟨np.key,
        setVal "children" (TValue.usageList (pyInsert c nl0 (childUsages dloc np))).persist
          np.vals⟩)) (l, nl) =
    some (updateDraft st ⟨np.key,
      setVal "children" (TValue.usageList (pyInsert c nl0 (childUsages dloc np))).persist
        np.vals⟩) := by
  have hfb' : findBlock (splitParentKey dloc pubRoot p)
      (updateDraft st ⟨np.key,
        setVal "children" (TValue.usageList (pyInsert c nl0 (childUsages dloc np))).persist
          np.vals⟩).draft =
      some ⟨np.key,
        setVal "children" (TValue.usageList (pyInsert c nl0 (childUsages dloc np))).persist
          np.vals⟩ := by
    rw [findBlock_updateDraft_eq, hfa]
    simp
  have hcu : childUsages dloc ⟨np.key,
      setVal "children" (TValue.usageList (pyInsert c nl0 (childUsages dloc np))).persist
        np.vals⟩ = pyInsert c nl0 (childUsages dloc np) :=
    childUsages_insertBlock dloc np nl0 c hnl0
  exact adoptS_skip src dloc pubRoot _ l nl p P _ hp hi hfb' (by rw [hcu]; exact hskip)

theorem adoptS_insert_on_updated (src : SourceStore) (dloc : CourseKey) (pubRoot : UsageKey)
    (st : SplitStore) (l : Location) (nl : UsageKey) (p : Location) (P : XBlock)
    (np : SplitBlock) (c : Nat) (nl0 : UsageKey)
    (hp : src.parentOf l = some p) (hi : src.itemOf p = some P)
    (hfa : findBlock (splitParentKey dloc pubRoot p) st.draft = some np)
    (hnl0 : nl0 = ⟨dloc, nl0.key, none⟩)
    (hskip : ((pyInsert c nl0 (childUsages dloc np)).any
      fun child => nl == child.version_agnostic) = false) :
    adoptS src dloc pubRoot
      (some (updateDraft st ⟨np.key,
        setVal "children" (TValue.usageList (pyInsert c nl0 (childUsages dloc np))).persist
          np.vals⟩)) (l, nl) =
    some (updateDraft st ⟨np.key,
      setVal "children" (TValue.usageList
        (pyInsert (cursorWalkU dloc l P.children 0 (pyInsert c nl0 (childUsages dloc np)))
          nl (pyInsert c nl0 (childUsages dloc np)))).persist np.vals⟩) := by
  have hfb' : findBlock (splitParentKey dloc pubRoot p)
      (updateDraft st ⟨np.key,
        setVal "children" (TValue.usageList (pyInsert c nl0 (childUsages dloc np))).persist
          np.vals⟩).draft =
      some ⟨np.key,
        setVal "children" (TValue.usageList (pyInsert c nl0 (childUsages dloc np))).persist
          np.vals⟩ := by
    rw [findBlock_updateDraft_eq, hfa]
    simp
  have hcu : childUsages dloc ⟨np.key,
      setVal "children" (TValue.usageList (pyInsert c nl0 (childUsages dloc np))).persist
        np.vals⟩ = pyInsert c nl0 (childUsages dloc np) :=
    childUsages_insertBlock dloc np nl0 c hnl0
  have h2 := adoptS_insert src dloc pubRoot _ l nl p P _ hp hi hfb' (by rw [hcu]; exact hskip)
  rw [h2, hcu]
  have hcol := updateDraft_updateDraft st
    ⟨np.key, setVal "children"
      (TValue.usageList (pyInsert c nl0 (childUsages dloc np))).persist np.vals⟩
    ⟨np.key, setVal "children"
      (TValue.usageList
        (pyInsert (cursorWalkU dloc l P.children 0 (pyInsert c nl0 (childUsages dloc np)))
          nl (pyInsert c nl0 (childUsages dloc np)))).persist
      (setVal "children"
        (TValue.usageList (pyInsert c nl0 (childUsages dloc np))).persist np.vals)⟩ rfl
  rw [hcol, setVal_setVal]

theorem adoptS_comm_same (src : SourceStore) (dloc : CourseKey) (pubRoot : UsageKey)
    (st : SplitStore) (la lb2 : Location) (nla nlb2 : UsageKey) (p : Location)
    (P : XBlock) (np : SplitBlock)
    (hpa : src.parentOf la = some p) (hpb : src.parentOf lb2 = some p)
    (hi : src.itemOf p = some P)
    (hfa : findBlock (splitParentKey dloc pubRoot p) st.draft = some np)
    (hna : nla = translateU dloc la) (hnb : nlb2 = translateU dloc lb2)
    (hab : la ≠ lb2)
    (hmema : la ∈ P.children) (hmemb : lb2 ∈ P.children) (hnd : P.children.Nodup) :
    adoptS src dloc pubRoot (adoptS src dloc pubRoot (some st) (la, nla)) (lb2, nlb2) =
      adoptS src dloc pubRoot (adoptS src dloc pubRoot (some st) (lb2, nlb2)) (la, nla) := by
  have hca : nla = ⟨dloc, nla.key, none⟩ := by rw [hna]; rfl
  have hcb : nlb2 = ⟨dloc, nlb2.key, none⟩ := by rw [hnb]; rfl
  have hva : nla.version_agnostic = nla := by rw [hna]; rfl
  have hvb : nlb2.version_agnostic = nlb2 := by rw [hnb]; rfl
  have hne_ab : (nla == nlb2) = false := by
    rw [hna, hnb]
    have : translateU dloc la ≠ translateU dloc lb2 := fun he => hab (translateU_inj he)
    simpa using this
  have hne_ba : (nlb2 == nla) = false := by
    rw [hna, hnb]
    have : translateU dloc lb2 ≠ translateU dloc la := fun he => hab (translateU_inj he).symm
    simpa using this
  cases hsa : (childUsages dloc np).any (fun child => nla == child.version_agnostic) with
  | true =>
    cases hsb : (childUsages dloc np).any (fun child => nlb2 == child.version_agnostic) with
    | true =>
      rw [adoptS_skip src dloc pubRoot st la nla p P np hpa hi hfa hsa,
        adoptS_skip src dloc pubRoot st lb2 nlb2 p P np hpb hi hfa hsb,
        adoptS_skip src dloc pubRoot st la nla p P np hpa hi hfa hsa]
    | false =>
      rw [adoptS_skip src dloc pubRoot st la nla p P np hpa hi hfa hsa,
        adoptS_insert src dloc pubRoot st lb2 nlb2 p P np hpb hi hfa hsb,
        adoptS_skip_on_updated src dloc pubRoot st la nla p P np
          (cursorWalkU dloc lb2 P.children 0 (childUsages dloc np)) nlb2 hpa hi hfa hcb
          (by rw [any_pyInsert, hvb, hne_ab]; simp [hsa])]
  | false =>
    cases hsb : (childUsages dloc np).any (fun child => nlb2 == child.version_agnostic) with
    | true =>
      rw [adoptS_insert src dloc pubRoot st la nla p P np hpa hi hfa hsa,
        adoptS_skip_on_updated src dloc pubRoot st lb2 nlb2 p P np
          (cursorWalkU dloc la P.children 0 (childUsages dloc np)) nla hpb hi hfa hca
          (by rw [any_pyInsert, hva, hne_ba]; simp [hsb]),
        adoptS_skip src dloc pubRoot st lb2 nlb2 p P np hpb hi hfa hsb,
        adoptS_insert src dloc pubRoot st la nla p P np hpa hi hfa hsa]
    | false =>
      have hKa : ∀ u ∈ childUsages dloc np, (nla == u.version_agnostic) = false := by
        intro u hu
        have h1 := List.any_eq_false.mp hsa u hu
        simpa using h1
      have hKb : ∀ u ∈ childUsages dloc np, (nlb2 == u.version_agnostic) = false := by
        intro u hu
        have h1 := List.any_eq_false.mp hsb u hu
        simpa using h1
      rw [adoptS_insert src dloc pubRoot st la nla p P np hpa hi hfa hsa,
        adoptS_insert_on_updated src dloc pubRoot st lb2 nlb2 p P np
          (cursorWalkU dloc la P.children 0 (childUsages dloc np)) nla hpb hi hfa hca
          (by rw [any_pyInsert, hva, hne_ba]; simp [hsb]),
        adoptS_insert src dloc pubRoot st lb2 nlb2 p P np hpb hi hfa hsb,
        adoptS_insert_on_updated src dloc pubRoot st la nla p P np
          (cursorWalkU dloc lb2 P.children 0 (childUsages dloc np)) nlb2 hpa hi hfa hcb
          (by rw [any_pyInsert, hvb, hne_ab]; simp [hsa])]
      rcases mem_mem_split hmema hmemb hab with ⟨S1, S2, S3, hsplit | hsplit⟩
      · rw [kidsInsert_comm dloc la lb2 nla nlb2 P.children S1 S2 S3 (childUsages dloc np)
          hsplit hnd hna hnb hKa hKb]
      · rw [(kidsInsert_comm dloc lb2 la nlb2 nla P.children S1 S2 S3 (childUsages dloc np)
          hsplit hnd hnb hna hKb hKa).symm]

theorem adoptS_comm_diff (src : SourceStore) (dloc : CourseKey) (pubRoot : UsageKey)
    (st : SplitStore) (la lb2 : Location) (nla nlb2 : UsageKey) (pa pb : Location)
    (Pa Pb : XBlock) (npa npb : SplitBlock)
    (hpa : src.parentOf la = some pa) (hpb : src.parentOf lb2 = some pb)
    (hia : src.itemOf pa = some Pa) (hib : src.itemOf pb = some Pb)
    (hfa : findBlock (splitParentKey dloc pubRoot pa) st.draft = some npa)
    (hfb : findBlock (splitParentKey dloc pubRoot pb) st.draft = some npb)
    (hk : splitParentKey dloc pubRoot pa ≠ splitParentKey dloc pubRoot pb) :
    adoptS src dloc pubRoot (adoptS src dloc pubRoot (some st) (la, nla)) (lb2, nlb2) =
      adoptS src dloc pubRoot (adoptS src dloc pubRoot (some st) (lb2, nlb2)) (la, nla) := by
  have hka : npa.key = splitParentKey dloc pubRoot pa := findBlock_key _ _ _ hfa
  have hkb : npb.key = splitParentKey dloc pubRoot pb := findBlock_key _ _ _ hfb
  have hkab : ¬ npa.key = npb.key := by
    rw [hka, hkb]
    exact hk
  cases hsa : (childUsages dloc npa).any (fun child => nla == child.version_agnostic) with
  | true =>
    cases hsb : (childUsages dloc npb).any (fun child => nlb2 == child.version_agnostic) with
    | true =>
      rw [adoptS_skip src dloc pubRoot st la nla pa Pa npa hpa hia hfa hsa,
        adoptS_skip src dloc pubRoot st lb2 nlb2 pb Pb npb hpb hib hfb hsb,
        adoptS_skip src dloc pubRoot st la nla pa Pa npa hpa hia hfa hsa]
    | false =>
      rw [adoptS_skip src dloc pubRoot st la nla pa Pa npa hpa hia hfa hsa,
        adoptS_insert src dloc pubRoot st lb2 nlb2 pb Pb npb hpb hib hfb hsb]
      have hfa' : findBlock (splitParentKey dloc pubRoot pa)
          (updateDraft st ⟨npb.key,
            setVal "children"
              (TValue.usageList
                (pyInsert (cursorWalkU dloc lb2 Pb.children 0 (childUsages dloc npb))
                  nlb2 (childUsages dloc npb))).persist npb.vals⟩).draft = some npa := by
        rw [findBlock_updateDraft_eq, hfa]
        simp only [Option.map_some']
        have : (npa.key == npb.key) = false := by simpa using hkab
        simp [this]
      rw [adoptS_skip src dloc pubRoot _ la nla pa Pa npa hpa hia hfa' hsa]
  | false =>
    cases hsb : (childUsages dloc npb).any (fun child => nlb2 == child.version_agnostic) with
    | true =>
      rw [adoptS_insert src dloc pubRoot st la nla pa Pa npa hpa hia hfa hsa]
      have hfb' : findBlock (splitParentKey dloc pubRoot pb)
          (updateDraft st ⟨npa.key,
            setVal "children"
              (TValue.usageList
                (pyInsert (cursorWalkU dloc la Pa.children 0 (childUsages dloc npa))
                  nla (childUsages dloc npa))).persist npa.vals⟩).draft = some npb := by
        rw [findBlock_updateDraft_eq, hfb]
        simp only [Option.map_some']
        have : (npb.key == npa.key) = false := by
          have h2 : ¬ npb.key = npa.key := fun he => hkab he.symm
          simpa using h2
        simp [this]
      rw [adoptS_skip src dloc pubRoot _ lb2 nlb2 pb Pb npb hpb hib hfb' hsb,
        adoptS_skip src dloc pubRoot st lb2 nlb2 pb Pb npb hpb hib hfb hsb,
        adoptS_insert src dloc pubRoot st la nla pa Pa npa hpa hia hfa hsa]
    | false =>
      rw [adoptS_insert src dloc pubRoot st la nla pa Pa npa hpa hia hfa hsa]
      have hfb' : findBlock (splitParentKey dloc pubRoot pb)
          (updateDraft st ⟨npa.key,
            setVal "children"
              (TValue.usageList
                (pyInsert (cursorWalkU dloc la Pa.children 0 (childUsages dloc npa))
                  nla (childUsages dloc npa))).persist npa.vals⟩).draft = some npb := by
        rw [findBlock_updateDraft_eq, hfb]
        simp only [Option.map_some']
        have : (npb.key == npa.key) = false := by
          have h2 : ¬ npb.key = npa.key := fun he => hkab he.symm
          simpa using h2
        simp [this]
      rw [adoptS_insert src dloc pubRoot _ lb2 nlb2 pb Pb npb hpb hib hfb' hsb,
        adoptS_insert src dloc pubRoot st lb2 nlb2 pb Pb npb hpb hib hfb hsb]
      have hfa' : findBlock (splitParentKey dloc pubRoot pa)
          (updateDraft st ⟨npb.key,
            setVal "children"
              (TValue.usageList
                (pyInsert (cursorWalkU dloc lb2 Pb.children 0 (childUsages dloc npb))
                  nlb2 (childUsages dloc npb))).persist npb.vals⟩).draft = some npa := by
        rw [findBlock_updateDraft_eq, hfa]
        simp only [Option.map_some']
        have : (npa.key == npb.key) = false := by simpa using hkab
        simp [this]
      rw [adoptS_insert src dloc pubRoot _ la nla pa Pa npa hpa hia hfa' hsa]
      rw [updateDraft_comm]
      intro he
      exact hkab he

theorem adoptS_comm (src : SourceStore) (dloc : CourseKey) (pubRoot : UsageKey)
    (la lb2 : Location) (nla nlb2 : UsageKey)
    (hna : nla = translateU dloc la) (hnb : nlb2 = translateU dloc lb2)
    (hab : la ≠ lb2)
    (hPa : ∀ p P, src.parentOf la = some p → src.itemOf p = some P →
      la ∈ P.children ∧ P.children.Nodup)
    (hPb : ∀ p P, src.parentOf lb2 = some p → src.itemOf p = some P →
      lb2 ∈ P.children ∧ P.children.Nodup)
    (hinj : ∀ p p', src.parentOf la = some p → src.parentOf lb2 = some p' →
      splitParentKey dloc pubRoot p = splitParentKey dloc pubRoot p' → p = p') :
    ∀ r : Option SplitStore,
      adoptS src dloc pubRoot (adoptS src dloc pubRoot r (la, nla)) (lb2, nlb2) =
        adoptS src dloc pubRoot (adoptS src dloc pubRoot r (lb2, nlb2)) (la, nla)
  | none => rfl
  | some st => by
    cases hpa : src.parentOf la with
    | none =>
      rw [adoptS_warn src dloc pubRoot st la nla hpa,
        adoptS_warn_id src dloc pubRoot la nla hpa
          (adoptS src dloc pubRoot (some st) (lb2, nlb2))]
    | some pa =>
      cases hia : src.itemOf pa with
      | none =>
        rw [adoptS_itemfail src dloc pubRoot st la nla pa hpa hia, adoptS_none_eq,
          adoptS_itemfail_none src dloc pubRoot la nla pa hpa hia
            (adoptS src dloc pubRoot (some st) (lb2, nlb2))]
      | some Pa =>
        cases hpb : src.parentOf lb2 with
        | none =>
          rw [adoptS_warn src dloc pubRoot st lb2 nlb2 hpb,
            adoptS_warn_id src dloc pubRoot lb2 nlb2 hpb
              (adoptS src dloc pubRoot (some st) (la, nla))]
        | some pb =>
          cases hib : src.itemOf pb with
          | none =>
            rw [adoptS_itemfail src dloc pubRoot st lb2 nlb2 pb hpb hib, adoptS_none_eq,
              adoptS_itemfail_none src dloc pubRoot lb2 nlb2 pb hpb hib
                (adoptS src dloc pubRoot (some st) (la, nla))]
          | some Pb =>
            cases hfa : findBlock (splitParentKey dloc pubRoot pa) st.draft with
            | none =>
              rw [adoptS_destfail src dloc pubRoot st la nla pa Pa hpa hia hfa,
                adoptS_none_eq]
              cases hfbb : findBlock (splitParentKey dloc pubRoot pb) st.draft with
              | none =>
                rw [adoptS_destfail src dloc pubRoot st lb2 nlb2 pb Pb hpb hib hfbb,
                  adoptS_none_eq]
              | some npb =>
                cases hsb : (childUsages dloc npb).any
                    (fun child => nlb2 == child.version_agnostic) with
                | true =>
                  rw [adoptS_skip src dloc pubRoot st lb2 nlb2 pb Pb npb hpb hib hfbb hsb,
                    adoptS_destfail src dloc pubRoot st la nla pa Pa hpa hia hfa]
                | false =>
                  rw [adoptS_insert src dloc pubRoot st lb2 nlb2 pb Pb npb hpb hib hfbb hsb]
                  have hfa' : findBlock (splitParentKey dloc pubRoot pa)
                      (updateDraft st ⟨npb.key,
                        setVal "children"
                          (TValue.usageList
                            (pyInsert
                              (cursorWalkU dloc lb2 Pb.children 0 (childUsages dloc npb))
                              nlb2 (childUsages dloc npb))).persist npb.vals⟩).draft =
                      none := by
                    rw [findBlock_updateDraft_eq, hfa]
                    rfl
                  rw [adoptS_destfail src dloc pubRoot _ la nla pa Pa hpa hia hfa']
            | some npa =>
              cases hfbb : findBlock (splitParentKey dloc pubRoot pb) st.draft with
              | none =>
                rw [adoptS_destfail src dloc pubRoot st lb2 nlb2 pb Pb hpb hib hfbb,
                  adoptS_none_eq]
                cases hsa : (childUsages dloc npa).any
                    (fun child => nla == child.version_agnostic) with
                | true =>
                  rw [adoptS_skip src dloc pubRoot st la nla pa Pa npa hpa hia hfa hsa,
                    adoptS_destfail src dloc pubRoot st lb2 nlb2 pb Pb hpb hib hfbb]
                | false =>
                  rw [adoptS_insert src dloc pubRoot st la nla pa Pa npa hpa hia hfa hsa]
                  have hfb' : findBlock (splitParentKey dloc pubRoot pb)
                      (updateDraft st ⟨npa.key,
                        setVal "children"
                          (TValue.usageList
                            (pyInsert
                              (cursorWalkU dloc la Pa.children 0 (childUsages dloc npa))
                              nla (childUsages dloc npa))).persist npa.vals⟩).draft =
                      none := by
                    rw [findBlock_updateDraft_eq, hfbb]
                    rfl
                  rw [adoptS_destfail src dloc pubRoot _ lb2 nlb2 pb Pb hpb hib hfb']
              | some npb =>
                by_cases hkk : splitParentKey dloc pubRoot pa = splitParentKey dloc pubRoot pb
                · have hpp : pa = pb := hinj pa pb hpa hpb hkk
                  subst hpp
                  have hPP : Pa = Pb := by
                    rw [hia] at hib
                    exact (Option.some.injEq _ _).mp hib
                  subst hPP
                  have hnp : npa = npb := by
                    rw [hfa] at hfbb
                    exact (Option.some.injEq _ _).mp hfbb
                  subst hnp
                  exact adoptS_comm_same src dloc pubRoot st la lb2 nla nlb2 pa Pa npa
                    hpa hpb hia hfa hna hnb hab
                    (hPa pa Pa hpa hia).1 (hPb pa Pa hpb hia).1 (hPa pa Pa hpa hia).2
                · exact adoptS_comm_diff src dloc pubRoot st la lb2 nla nlb2 pa pb Pa Pb
                    npa npb hpa hpb hia hib hfa hfbb hkk

theorem foldl_perm_rel {α σ : Type} (R : σ → σ → Prop)
    (hrefl : ∀ s, R s s) (htrans : ∀ {x y z : σ}, R x y → R y z → R x z)
    (f : σ → α → σ)
    (hcong : ∀ (x : α) (s s' : σ), R s s' → R (f s x) (f s' x)) :
    ∀ {l1 l2 : List α}, l1.Perm l2 →
      (∀ x ∈ l1, ∀ y ∈ l1, ∀ s, R (f (f s x) y) (f (f s y) x)) →
      ∀ s, R (l1.foldl f s) (l2.foldl f s) := by
  intro l1 l2 hperm
  induction hperm with
  | nil =>
    intro hcomm s
    exact hrefl _
  | cons x h ih =>
    intro hcomm s
    simp only [List.foldl_cons]
    exact ih (fun a ha b hb s' =>
      hcomm a (List.mem_cons_of_mem x ha) b (List.mem_cons_of_mem x hb) s') (f s x)
  | swap x y l =>
    intro hcomm s
    simp only [List.foldl_cons]
    have h1 : R (f (f s y) x) (f (f s x) y) := by
      refine hcomm y ?_ x ?_ s
      · exact List.mem_cons_self y (x :: l)
      · exact List.mem_cons_of_mem y (List.mem_cons_self x l)
    have hlift : ∀ (t : List α) (s1 s2 : σ), R s1 s2 → R (t.foldl f s1) (t.foldl f s2) := by
      intro t
      induction t with
      | nil => intro s1 s2 h12; exact h12
      | cons a t iht =>
        intro s1 s2 h12
        simp only [List.foldl_cons]
        exact iht _ _ (hcong a _ _ h12)
    exact hlift l _ _ h1
  | trans h12 h23 ih1 ih2 =>
    intro hcomm s
    refine htrans (ih1 hcomm s) (ih2 ?_ s)
    intro a ha b hb s'
    exact hcomm a (h12.mem_iff.mpr ha) b (h12.mem_iff.mpr hb) s'

theorem foldl_perm_eq {α σ : Type} (f : σ → α → σ) {l1 l2 : List α} (hperm : l1.Perm l2)
    (hcomm : ∀ x ∈ l1, ∀ y ∈ l1, ∀ s, f (f s x) y = f (f s y) x) (s : σ) :
    l1.foldl f s = l2.foldl f s :=
  foldl_perm_rel Eq (fun _ => rfl) (fun h1 h2 => h1.trans h2) f
    (fun x s s' h => by rw [h]) hperm hcomm s

/-- The state component of one draft-reconciliation step. -/
def recS (schema : Schema) (dloc : CourseKey) (pubRoot : UsageKey)
    (r : Option (SplitStore × List (Location × UsageKey))) (m : XBlock) :
    Option (SplitStore × List (Location × UsageKey)) :=
  (reconcileDraftItem schema dloc pubRoot ([], r) m).2

theorem reconcileDraftItem_snd (schema : Schema) (dloc : CourseKey) (pubRoot : UsageKey)
    (tr : List StoreOp) (r : Option (SplitStore × List (Location × UsageKey)))
    (m : XBlock) :
    (reconcileDraftItem schema dloc pubRoot (tr, r) m).2 = recS schema dloc pubRoot r m := by
  cases r with
  | none => rfl
  | some sp =>
    rcases sp with ⟨st, pending⟩
    unfold recS
    cases hfb : findBlock (dloc.make_usage_key m.category (some m.location.block_id)).key
        st.draft with
    | some sm =>
      cases hfv : get_fields_translate_references schema m dloc pubRoot.key.block_id with
      | none =>
        rw [reconcileDraftItem_update_fail schema dloc pubRoot tr st pending m sm hfb hfv,
          reconcileDraftItem_update_fail schema dloc pubRoot [] st pending m sm hfb hfv]
      | some fvs =>
        rw [reconcileDraftItem_update schema dloc pubRoot tr st pending m sm fvs hfb hfv,
          reconcileDraftItem_update schema dloc pubRoot [] st pending m sm fvs hfb hfv]
    | none =>
      cases hcp : get_json_fields_translate_references schema m dloc pubRoot.key.block_id with
      | none =>
        rw [reconcileDraftItem_create_fail schema dloc pubRoot tr st pending m hfb hcp,
          reconcileDraftItem_create_fail schema dloc pubRoot [] st pending m hfb hcp]
      | some fields =>
        rw [reconcileDraftItem_create schema dloc pubRoot tr st pending m fields hfb hcp,
          reconcileDraftItem_create schema dloc pubRoot [] st pending m fields hfb hcp]

theorem recFold_snd (schema : Schema) (dloc : CourseKey) (pubRoot : UsageKey) :
    ∀ (items : List XBlock) (tr : List StoreOp)
      (r : Option (SplitStore × List (Location × UsageKey))),
      (items.foldl (reconcileDraftItem schema dloc pubRoot) (tr, r)).2 =
        items.foldl (recS schema dloc pubRoot) r
  | [], tr, r => rfl
  | m :: ms, tr, r => by
    cases h : reconcileDraftItem schema dloc pubRoot (tr, r) m with
    | mk tr' r' =>
      have h2 : r' = recS schema dloc pubRoot r m := by
        rw [← reconcileDraftItem_snd schema dloc pubRoot tr r m, h]
      simp only [List.foldl_cons, h]
      rw [recFold_snd schema dloc pubRoot ms tr' r', h2]

/-- Store equivalence: equal published branch and extensionally equal draft
lookup (the split store's observable behaviour on its two access paths). -/
def stR (s1 s2 : SplitStore) : Prop :=
  s1.published = s2.published ∧ ∀ k, findBlock k s1.draft = findBlock k s2.draft

/-- The loop-state relation for draft reconciliation: related stores plus a
pending table holding the same adoptions (in possibly different order). -/
def pR : Option (SplitStore × List (Location × UsageKey)) →
    Option (SplitStore × List (Location × UsageKey)) → Prop
  | none, none => True
  | some (st1, p1), some (st2, p2) => stR st1 st2 ∧ p1.Perm p2
  | _, _ => False

theorem stR_refl (s : SplitStore) : stR s s := ⟨rfl, fun _ => rfl⟩

theorem stR_trans {a b c : SplitStore} (h1 : stR a b) (h2 : stR b c) : stR a c :=
  ⟨h1.1.trans h2.1, fun k => (h1.2 k).trans (h2.2 k)⟩

theorem pR_refl (r : Option (SplitStore × List (Location × UsageKey))) : pR r r := by
  cases r with
  | none => trivial
  | some sp =>
    rcases sp with ⟨st, p⟩
    exact ⟨stR_refl st, List.Perm.refl p⟩

theorem pR_trans {a b c : Option (SplitStore × List (Location × UsageKey))}
    (h1 : pR a b) (h2 : pR b c) : pR a c := by
  cases a with
  | none =>
    cases b with
    | none =>
      cases c with
      | none => trivial
      | some z => exact absurd h2 (by rcases z with ⟨z1, z2⟩; simp [pR])
    | some y => exact absurd h1 (by rcases y with ⟨y1, y2⟩; simp [pR])
  | some x =>
    cases b with
    | none => exact absurd h1 (by rcases x with ⟨x1, x2⟩; simp [pR])
    | some y =>
      cases c with
      | none => exact absurd h2 (by rcases y with ⟨y1, y2⟩; simp [pR])
      | some z =>
        rcases x with ⟨x1, x2⟩
        rcases y with ⟨y1, y2⟩
        rcases z with ⟨z1, z2⟩
        exact ⟨stR_trans h1.1 h2.1, h1.2.trans h2.2⟩

theorem findBlock_append (k : BlockKey) : ∀ d1 d2 : List SplitBlock,
    findBlock k (d1 ++ d2) =
      match findBlock k d1 with
      | some b => some b
      | none => findBlock k d2
  | [], d2 => rfl
  | x :: d1, d2 => by
    by_cases hx : x.key = k
    · have h1 : findBlock k (x :: (d1 ++ d2)) = some x :=
        List.find?_cons_of_pos _ (by simpa using hx)
      have h2 : findBlock k (x :: d1) = some x :=
        List.find?_cons_of_pos _ (by simpa using hx)
      rw [List.cons_append, h1, h2]
    · have h1 : findBlock k (x :: (d1 ++ d2)) = findBlock k (d1 ++ d2) :=
        List.find?_cons_of_neg _ (by simpa using hx)
      have h2 : findBlock k (x :: d1) = findBlock k d1 :=
        List.find?_cons_of_neg _ (by simpa using hx)
      rw [List.cons_append, h1, h2, findBlock_append k d1 d2]

theorem recS_update (schema : Schema) (dloc : CourseKey) (pubRoot : UsageKey)
    (st : SplitStore) (pending : List (Location × UsageKey))
    (m : XBlock) (sm : SplitBlock) (fvs : List (FieldDesc × TValue))
    (hfb : findBlock (dloc.make_usage_key m.category (some m.location.block_id)).key st.draft =
      some sm)
    (hfv : get_fields_translate_references schema m dloc pubRoot.key.block_id = some fvs) :
    recS schema dloc pubRoot (some (st, pending)) m =
      some (updateDraft st (writeFields (deleteUnset schema m sm) fvs), pending) := by
  unfold recS
  rw [reconcileDraftItem_update schema dloc pubRoot [] st pending m sm fvs hfb hfv]

theorem recS_update_fail (schema : Schema) (dloc : CourseKey) (pubRoot : UsageKey)
    (st : SplitStore) (pending : List (Location × UsageKey)) (m : XBlock) (sm : SplitBlock)
    (hfb : findBlock (dloc.make_usage_key m.category (some m.location.block_id)).key st.draft =
      some sm)
    (hfv : get_fields_translate_references schema m dloc pubRoot.key.block_id = none) :
    recS schema dloc pubRoot (some (st, pending)) m = none := by
  unfold recS
  rw [reconcileDraftItem_update_fail schema dloc pubRoot [] st pending m sm hfb hfv]

theorem recS_create (schema : Schema) (dloc : CourseKey) (pubRoot : UsageKey)
    (st : SplitStore) (pending : List (Location × UsageKey))
    (m : XBlock) (fields : List (String × TValue))
    (hfb : findBlock (dloc.make_usage_key m.category (some m.location.block_id)).key st.draft =
      none)
    (hcp : get_json_fields_translate_references schema m dloc pubRoot.key.block_id =
      some fields) :
    recS schema dloc pubRoot (some (st, pending)) m =
      some ({ st with draft := st.draft ++
          [⟨(dloc.make_usage_key m.category (some m.location.block_id)).key,
            persistFields fields⟩] },
        pending ++ [(m.location, dloc.make_usage_key m.category (some m.location.block_id))]) := by
  unfold recS
  rw [reconcileDraftItem_create schema dloc pubRoot [] st pending m fields hfb hcp]

theorem recS_create_fail (schema : Schema) (dloc : CourseKey) (pubRoot : UsageKey)
    (st : SplitStore) (pending : List (Location × UsageKey)) (m : XBlock)
    (hfb : findBlock (dloc.make_usage_key m.category (some m.location.block_id)).key st.draft =
      none)
    (hcp : get_json_fields_translate_references schema m dloc pubRoot.key.block_id = none) :
    recS schema dloc pubRoot (some (st, pending)) m = none := by
  unfold recS
  rw [reconcileDraftItem_create_fail schema dloc pubRoot [] st pending m hfb hcp]

theorem stR_updateDraft {st1 st2 : SplitStore} (h : stR st1 st2) (b : SplitBlock) :
    stR (updateDraft st1 b) (updateDraft st2 b) := by
  refine ⟨h.1, fun k => ?_⟩
  rw [findBlock_updateDraft_eq, findBlock_updateDraft_eq, h.2 k]

theorem stR_appendBlock {st1 st2 : SplitStore} (h : stR st1 st2) (nb : SplitBlock) :
    stR { st1 with draft := st1.draft ++ [nb] } { st2 with draft := st2.draft ++ [nb] } := by
  refine ⟨h.1, fun k => ?_⟩
  show findBlock k (st1.draft ++ [nb]) = findBlock k (st2.draft ++ [nb])
  rw [findBlock_append, findBlock_append, h.2 k]

theorem recS_cong (schema : Schema) (dloc : CourseKey) (pubRoot : UsageKey) (m : XBlock) :
    ∀ r r' : Option (SplitStore × List (Location × UsageKey)), pR r r' →
      pR (recS schema dloc pubRoot r m) (recS schema dloc pubRoot r' m)
  | none, none, _ => trivial
  | none, some y, h => absurd h (by rcases y with ⟨y1, y2⟩; simp [pR])
  | some x, none, h => absurd h (by rcases x with ⟨x1, x2⟩; simp [pR])
  | some (st1, p1), some (st2, p2), h => by
    rcases h with ⟨hst, hperm⟩
    cases hfb : findBlock (dloc.make_usage_key m.category (some m.location.block_id)).key
        st1.draft with
    | some sm =>
      have hfb2 : findBlock (dloc.make_usage_key m.category (some m.location.block_id)).key
          st2.draft = some sm := by rw [← hst.2, hfb]
      cases hfv : get_fields_translate_references schema m dloc pubRoot.key.block_id with
      | none =>
        rw [recS_update_fail schema dloc pubRoot st1 p1 m sm hfb hfv,
          recS_update_fail schema dloc pubRoot st2 p2 m sm hfb2 hfv]
        trivial
      | some fvs =>
        rw [recS_update schema dloc pubRoot st1 p1 m sm fvs hfb hfv,
          recS_update schema dloc pubRoot st2 p2 m sm fvs hfb2 hfv]
        exact ⟨stR_updateDraft hst _, hperm⟩
    | none =>
      have hfb2 : findBlock (dloc.make_usage_key m.category (some m.location.block_id)).key
          st2.draft = none := by rw [← hst.2, hfb]
      cases hcp : get_json_fields_translate_references schema m dloc pubRoot.key.block_id with
      | none =>
        rw [recS_create_fail schema dloc pubRoot st1 p1 m hfb hcp,
          recS_create_fail schema dloc pubRoot st2 p2 m hfb2 hcp]
        trivial
      | some fields =>
        rw [recS_create schema dloc pubRoot st1 p1 m fields hfb hcp,
          recS_create schema dloc pubRoot st2 p2 m fields hfb2 hcp]
        exact ⟨stR_appendBlock hst _, hperm.append_right _⟩

theorem recS_none (schema : Schema) (dloc : CourseKey) (pubRoot : UsageKey) (m : XBlock) :
    recS schema dloc pubRoot none m = none := rfl

theorem findBlock_updateDraft_ne (st : SplitStore) (u : SplitBlock) (k : BlockKey)
    (b : SplitBlock) (hfb : findBlock k st.draft = some b) (hne : ¬ b.key = u.key) :
    findBlock k (updateDraft st u).draft = some b := by
  rw [findBlock_updateDraft_eq, hfb]
  have hb : (b.key == u.key) = false := by simpa using hne
  simp [hb]
  intro he
  exact absurd he hne

theorem findBlock_updateDraft_none (st : SplitStore) (u : SplitBlock) (k : BlockKey)
    (hfb : findBlock k st.draft = none) :
    findBlock k (updateDraft st u).draft = none := by
  rw [findBlock_updateDraft_eq, hfb]
  rfl

theorem findBlock_singleton_ne (k : BlockKey) (nb : SplitBlock) (hk : ¬ nb.key = k) :
    findBlock k [nb] = none := by
  have hb : (nb.key == k) = false := by simpa using hk
  simp [findBlock, List.find?, hb]

theorem findBlock_append_one_ne (k : BlockKey) (d : List SplitBlock) (nb : SplitBlock)
    (hk : ¬ nb.key = k) : findBlock k (d ++ [nb]) = findBlock k d := by
  rw [findBlock_append]
  cases h : findBlock k d with
  | some b => rfl
  | none => exact findBlock_singleton_ne k nb hk

theorem updateDraft_append (st : SplitStore) (nb u : SplitBlock) (hne : ¬ nb.key = u.key) :
    updateDraft { st with draft := st.draft ++ [nb] } u =
      { updateDraft st u with draft := (updateDraft st u).draft ++ [nb] } := by
  have hb : (nb.key == u.key) = false := by simpa using hne
  simp [updateDraft, List.map_append, hb]
  intro he
  exact absurd he hne

theorem findBlock_append_two_swap (k : BlockKey) (d : List SplitBlock) (b1 b2 : SplitBlock)
    (hne : ¬ b1.key = b2.key) :
    findBlock k (d ++ [b1, b2]) = findBlock k (d ++ [b2, b1]) := by
  rw [findBlock_append, findBlock_append]
  cases h : findBlock k d with
  | some b => rfl
  | none =>
    by_cases hk1 : b1.key = k
    · have hk2 : ¬ b2.key = k := fun he => hne (hk1.trans he.symm)
      have e1 : findBlock k [b1, b2] = some b1 :=
        List.find?_cons_of_pos _ (by simpa using hk1)
      have e2 : findBlock k [b2, b1] = findBlock k [b1] :=
        List.find?_cons_of_neg _ (by simpa using hk2)
      have e3 : findBlock k [b1] = some b1 :=
        List.find?_cons_of_pos _ (by simpa using hk1)
      rw [e1, e2, e3]
    · have e1 : findBlock k [b1, b2] = findBlock k [b2] :=
        List.find?_cons_of_neg _ (by simpa using hk1)
      by_cases hk2 : b2.key = k
      · have e2 : findBlock k [b2] = some b2 :=
          List.find?_cons_of_pos _ (by simpa using hk2)
        have e3 : findBlock k [b2, b1] = some b2 :=
          List.find?_cons_of_pos _ (by simpa using hk2)
        rw [e1, e2, e3]
      · have e2 : findBlock k [b2] = none := findBlock_singleton_ne k b2 hk2
        have e3 : findBlock k [b2, b1] = findBlock k [b1] :=
          List.find?_cons_of_neg _ (by simpa using hk2)
        have e4 : findBlock k [b1] = none := findBlock_singleton_ne k b1 hk1
        rw [e1, e2, e3, e4]

theorem recS_comm (schema : Schema) (dloc : CourseKey) (pubRoot : UsageKey)
    (m1 m2 : XBlock) (hab : m1.location ≠ m2.location) :
    ∀ r : Option (SplitStore × List (Location × UsageKey)),
      pR (recS schema dloc pubRoot (recS schema dloc pubRoot r m1) m2)
        (recS schema dloc pubRoot (recS schema dloc pubRoot r m2) m1)
  | none => trivial
  | some (st, p) => by
    have hk12 : ¬ ((dloc.make_usage_key m1.category (some m1.location.block_id)).key =
        (dloc.make_usage_key m2.category (some m2.location.block_id)).key) := by
      intro he
      exact hab (Location.toKey_inj he)
    cases h1 : findBlock (dloc.make_usage_key m1.category (some m1.location.block_id)).key
        st.draft with
    | some sm1 =>
      have hsm1k := findBlock_key _ _ _ h1
      cases h2 : findBlock (dloc.make_usage_key m2.category (some m2.location.block_id)).key
          st.draft with
      | some sm2 =>
        have hsm2k := findBlock_key _ _ _ h2
        have hne12 : ¬ sm1.key = sm2.key := by
          rw [hsm1k, hsm2k]
          exact hk12
        cases c1 : get_fields_translate_references schema m1 dloc pubRoot.key.block_id with
        | none =>
          rw [recS_update_fail schema dloc pubRoot st p m1 sm1 h1 c1, recS_none]
          cases c2 : get_fields_translate_references schema m2 dloc pubRoot.key.block_id with
          | none =>
            rw [recS_update_fail schema dloc pubRoot st p m2 sm2 h2 c2, recS_none]
            trivial
          | some fvs2 =>
            rw [recS_update schema dloc pubRoot st p m2 sm2 fvs2 h2 c2]
            have h1' : findBlock
                (dloc.make_usage_key m1.category (some m1.location.block_id)).key
                (updateDraft st (writeFields (deleteUnset schema m2 sm2) fvs2)).draft =
                some sm1 := findBlock_updateDraft_ne st _ _ sm1 h1 hne12
            rw [recS_update_fail schema dloc pubRoot _ p m1 sm1 h1' c1]
            trivial
        | some fvs1 =>
          rw [recS_update schema dloc pubRoot st p m1 sm1 fvs1 h1 c1]
          cases c2 : get_fields_translate_references schema m2 dloc pubRoot.key.block_id with
          | none =>
            have h2' : findBlock
                (dloc.make_usage_key m2.category (some m2.location.block_id)).key
                (updateDraft st (writeFields (deleteUnset schema m1 sm1) fvs1)).draft =
                some sm2 :=
              findBlock_updateDraft_ne st _ _ sm2 h2 (fun he => hne12 he.symm)
            rw [recS_update_fail schema dloc pubRoot _ p m2 sm2 h2' c2,
              recS_update_fail schema dloc pubRoot st p m2 sm2 h2 c2, recS_none]
            trivial
          | some fvs2 =>
            have h2' : findBlock
                (dloc.make_usage_key m2.category (some m2.location.block_id)).key
                (updateDraft st (writeFields (deleteUnset schema m1 sm1) fvs1)).draft =
                some sm2 :=
              findBlock_updateDraft_ne st _ _ sm2 h2 (fun he => hne12 he.symm)
            have h1' : findBlock
                (dloc.make_usage_key m1.category (some m1.location.block_id)).key
                (updateDraft st (writeFields (deleteUnset schema m2 sm2) fvs2)).draft =
                some sm1 := findBlock_updateDraft_ne st _ _ sm1 h1 hne12
            rw [recS_update schema dloc pubRoot _ p m2 sm2 fvs2 h2' c2,
              recS_update schema dloc pubRoot st p m2 sm2 fvs2 h2 c2,
              recS_update schema dloc pubRoot _ p m1 sm1 fvs1 h1' c1,
              updateDraft_comm st (writeFields (deleteUnset schema m1 sm1) fvs1)
                (writeFields (deleteUnset schema m2 sm2) fvs2) hne12]
            exact pR_refl _
      | none =>
        cases c1 : get_fields_translate_references schema m1 dloc pubRoot.key.block_id with
        | none =>
          rw [recS_update_fail schema dloc pubRoot st p m1 sm1 h1 c1, recS_none]
          cases c2 : get_json_fields_translate_references schema m2 dloc
              pubRoot.key.block_id with
          | none =>
            rw [recS_create_fail schema dloc pubRoot st p m2 h2 c2, recS_none]
            trivial
          | some fields2 =>
            rw [recS_create schema dloc pubRoot st p m2 fields2 h2 c2]
            have h1' : findBlock
                (dloc.make_usage_key m1.category (some m1.location.block_id)).key
                ({ st with draft := st.draft ++
                  [⟨(dloc.make_usage_key m2.category (some m2.location.block_id)).key,
                    persistFields fields2⟩] } : SplitStore).draft = some sm1 := by
              show findBlock _ (st.draft ++ _) = some sm1
              rw [findBlock_append_one_ne _ _ _ (fun he => hk12 he.symm), h1]
            rw [recS_update_fail schema dloc pubRoot _ _ m1 sm1 h1' c1]
            trivial
        | some fvs1 =>
          rw [recS_update schema dloc pubRoot st p m1 sm1 fvs1 h1 c1]
          cases c2 : get_json_fields_translate_references schema m2 dloc
              pubRoot.key.block_id with
          | none =>
            have h2' : findBlock
                (dloc.make_usage_key m2.category (some m2.location.block_id)).key
                (updateDraft st (writeFields (deleteUnset schema m1 sm1) fvs1)).draft =
                none := findBlock_updateDraft_none st _ _ h2
            rw [recS_create_fail schema dloc pubRoot _ p m2 h2' c2,
              recS_create_fail schema dloc pubRoot st p m2 h2 c2, recS_none]
            trivial
          | some fields2 =>
            have h2' : findBlock
                (dloc.make_usage_key m2.category (some m2.location.block_id)).key
                (updateDraft st (writeFields (deleteUnset schema m1 sm1) fvs1)).draft =
                none := findBlock_updateDraft_none st _ _ h2
            have h1' : findBlock
                (dloc.make_usage_key m1.category (some m1.location.block_id)).key
                ({ st with draft := st.draft ++
                  [⟨(dloc.make_usage_key m2.category (some m2.location.block_id)).key,
                    persistFields fields2⟩] } : SplitStore).draft = some sm1 := by
              show findBlock _ (st.draft ++ _) = some sm1
              rw [findBlock_append_one_ne _ _ _ (fun he => hk12 he.symm), h1]
            rw [recS_create schema dloc pubRoot _ p m2 fields2 h2' c2,
              recS_create schema dloc pubRoot st p m2 fields2 h2 c2,
              recS_update schema dloc pubRoot _ _ m1 sm1 fvs1 h1' c1,
              updateDraft_append st
                ⟨(dloc.make_usage_key m2.category (some m2.location.block_id)).key,
                  persistFields fields2⟩
                (writeFields (deleteUnset schema m1 sm1) fvs1)
                (fun he => hk12 (he.trans hsm1k).symm)]
            exact pR_refl _
    | none =>
      cases h2 : findBlock (dloc.make_usage_key m2.category (some m2.location.block_id)).key
          st.draft with
      | some sm2 =>
        have hsm2k := findBlock_key _ _ _ h2
        cases c1 : get_json_fields_translate_references schema m1 dloc
            pubRoot.key.block_id with
        | none =>
          rw [recS_create_fail schema dloc pubRoot st p m1 h1 c1, recS_none]
          cases c2 : get_fields_translate_references schema m2 dloc pubRoot.key.block_id with
          | none =>
            rw [recS_update_fail schema dloc pubRoot st p m2 sm2 h2 c2, recS_none]
            trivial
          | some fvs2 =>
            rw [recS_update schema dloc pubRoot st p m2 sm2 fvs2 h2 c2]
            have h1' : findBlock
                (dloc.make_usage_key m1.category (some m1.location.block_id)).key
                (updateDraft st (writeFields (deleteUnset schema m2 sm2) fvs2)).draft =
                none := findBlock_updateDraft_none st _ _ h1
            rw [recS_create_fail schema dloc pubRoot _ p m1 h1' c1]
            trivial
        | some fields1 =>
          rw [recS_create schema dloc pubRoot st p m1 fields1 h1 c1]
          cases c2 : get_fields_translate_references schema m2 dloc pubRoot.key.block_id with
          | none =>
            have h2' : findBlock
                (dloc.make_usage_key m2.category (some m2.location.block_id)).key
                ({ st with draft := st.draft ++
                  [⟨(dloc.make_usage_key m1.category (some m1.location.block_id)).key,
                    persistFields fields1⟩] } : SplitStore).draft = some sm2 := by
              show findBlock _ (st.draft ++ _) = some sm2
              rw [findBlock_append_one_ne _ _ _ hk12, h2]
            rw [recS_update_fail schema dloc pubRoot _ _ m2 sm2 h2' c2,
              recS_update_fail schema dloc pubRoot st p m2 sm2 h2 c2, recS_none]
            trivial
          | some fvs2 =>
            have h2' : findBlock
                (dloc.make_usage_key m2.category (some m2.location.block_id)).key
                ({ st with draft := st.draft ++
                  [⟨(dloc.make_usage_key m1.category (some m1.location.block_id)).key,
                    persistFields fields1⟩] } : SplitStore).draft = some sm2 := by
              show findBlock _ (st.draft ++ _) = some sm2
              rw [findBlock_append_one_ne _ _ _ hk12, h2]
            have h1' : findBlock
                (dloc.make_usage_key m1.category (some m1.location.block_id)).key
                (updateDraft st (writeFields (deleteUnset schema m2 sm2) fvs2)).draft =
                none := findBlock_updateDraft_none st _ _ h1
            rw [recS_update schema dloc pubRoot _ _ m2 sm2 fvs2 h2' c2,
              recS_update schema dloc pubRoot st p m2 sm2 fvs2 h2 c2,
              recS_create schema dloc pubRoot _ p m1 fields1 h1' c1,
              updateDraft_append st
                ⟨(dloc.make_usage_key m1.category (some m1.location.block_id)).key,
                  persistFields fields1⟩
                (writeFields (deleteUnset schema m2 sm2) fvs2)
                (fun he => hk12 (he.trans hsm2k))]
            exact pR_refl _
      | none =>
        cases c1 : get_json_fields_translate_references schema m1 dloc
            pubRoot.key.block_id with
        | none =>
          rw [recS_create_fail schema dloc pubRoot st p m1 h1 c1, recS_none]
          cases c2 : get_json_fields_translate_references schema m2 dloc
              pubRoot.key.block_id with
          | none =>
            rw [recS_create_fail schema dloc pubRoot st p m2 h2 c2, recS_none]
            trivial
          | some fields2 =>
            rw [recS_create schema dloc pubRoot st p m2 fields2 h2 c2]
            have h1' : findBlock
                (dloc.make_usage_key m1.category (some m1.location.block_id)).key
                ({ st with draft := st.draft ++
                  [⟨(dloc.make_usage_key m2.category (some m2.location.block_id)).key,
                    persistFields fields2⟩] } : SplitStore).draft = none := by
              show findBlock _ (st.draft ++ _) = none
              rw [findBlock_append_one_ne _ _ _ (fun he => hk12 he.symm), h1]
            rw [recS_create_fail schema dloc pubRoot _ _ m1 h1' c1]
            trivial
        | some fields1 =>
          rw [recS_create schema dloc pubRoot st p m1 fields1 h1 c1]
          cases c2 : get_json_fields_translate_references schema m2 dloc
              pubRoot.key.block_id with
          | none =>
            have h2' : findBlock
                (dloc.make_usage_key m2.category (some m2.location.block_id)).key
                ({ st with draft := st.draft ++
                  [⟨(dloc.make_usage_key m1.category (some m1.location.block_id)).key,
                    persistFields fields1⟩] } : SplitStore).draft = none := by
              show findBlock _ (st.draft ++ _) = none
              rw [findBlock_append_one_ne _ _ _ hk12, h2]
            rw [recS_create_fail schema dloc pubRoot _ _ m2 h2' c2,
              recS_create_fail schema dloc pubRoot st p m2 h2 c2, recS_none]
            trivial
          | some fields2 =>
            have h2' : findBlock
                (dloc.make_usage_key m2.category (some m2.location.block_id)).key
                ({ st with draft := st.draft ++
                  [⟨(dloc.make_usage_key m1.category (some m1.location.block_id)).key,
                    persistFields fields1⟩] } : SplitStore).draft = none := by
              show findBlock _ (st.draft ++ _) = none
              rw [findBlock_append_one_ne _ _ _ hk12, h2]
            have h1' : findBlock
                (dloc.make_usage_key m1.category (some m1.location.block_id)).key
                ({ st with draft := st.draft ++
                  [⟨(dloc.make_usage_key m2.category (some m2.location.block_id)).key,
                    persistFields fields2⟩] } : SplitStore).draft = none := by
              show findBlock _ (st.draft ++ _) = none
              rw [findBlock_append_one_ne _ _ _ (fun he => hk12 he.symm), h1]
            rw [recS_create schema dloc pubRoot _ _ m2 fields2 h2' c2,
              recS_create schema dloc pubRoot st p m2 fields2 h2 c2,
              recS_create schema dloc pubRoot _ _ m1 fields1 h1' c1]
            constructor
            · refine ⟨rfl, fun k => ?_⟩
              show findBlock k ((st.draft ++ _) ++ _) = findBlock k ((st.draft ++ _) ++ _)
              rw [List.append_assoc, List.append_assoc]
              exact findBlock_append_two_swap k st.draft _ _ hk12
            · show ((p ++ _) ++ _).Perm ((p ++ _) ++ _)
              rw [List.append_assoc, List.append_assoc]
              exact List.Perm.append_left p (List.Perm.swap _ _ [])

/-- Store-level relation on optional states. -/
def oR : Option SplitStore → Option SplitStore → Prop
  | none, none => True
  | some s1, some s2 => stR s1 s2
  | _, _ => False

theorem oR_refl (r : Option SplitStore) : oR r r := by
  cases r with
  | none => trivial
  | some s => exact stR_refl s

theorem oR_trans {a b c : Option SplitStore} (h1 : oR a b) (h2 : oR b c) : oR a c := by
  cases a <;> cases b <;> cases c <;> first
    | trivial
    | exact stR_trans h1 h2

theorem adoptS_cong (src : SourceStore) (dloc : CourseKey) (pubRoot : UsageKey)
    (e : Location × UsageKey) :
    ∀ r r' : Option SplitStore, oR r r' →
      oR (adoptS src dloc pubRoot r e) (adoptS src dloc pubRoot r' e)
  | none, none, _ => trivial
  | none, some y, h => absurd h (by simp [oR])
  | some x, none, h => absurd h (by simp [oR])
  | some st1, some st2, h => by
    rcases e with ⟨l, nl⟩
    cases hp : src.parentOf l with
    | none =>
      rw [adoptS_warn src dloc pubRoot st1 l nl hp, adoptS_warn src dloc pubRoot st2 l nl hp]
      exact h
    | some p =>
      cases hi : src.itemOf p with
      | none =>
        rw [adoptS_itemfail src dloc pubRoot st1 l nl p hp hi,
          adoptS_itemfail src dloc pubRoot st2 l nl p hp hi]
        trivial
      | some P =>
        cases hfb : findBlock (splitParentKey dloc pubRoot p) st1.draft with
        | none =>
          have hfb2 : findBlock (splitParentKey dloc pubRoot p) st2.draft = none := by
            rw [← h.2, hfb]
          rw [adoptS_destfail src dloc pubRoot st1 l nl p P hp hi hfb,
            adoptS_destfail src dloc pubRoot st2 l nl p P hp hi hfb2]
          trivial
        | some np =>
          have hfb2 : findBlock (splitParentKey dloc pubRoot p) st2.draft = some np := by
            rw [← h.2, hfb]
          cases hmem : (childUsages dloc np).any
              (fun child => nl == child.version_agnostic) with
          | true =>
            rw [adoptS_skip src dloc pubRoot st1 l nl p P np hp hi hfb hmem,
              adoptS_skip src dloc pubRoot st2 l nl p P np hp hi hfb2 hmem]
            exact h
          | false =>
            rw [adoptS_insert src dloc pubRoot st1 l nl p P np hp hi hfb hmem,
              adoptS_insert src dloc pubRoot st2 l nl p P np hp hi hfb2 hmem]
            exact stR_updateDraft h _

theorem foldl_rel_lift {α σ : Type} (R : σ → σ → Prop) (f : σ → α → σ)
    (hcong : ∀ (x : α) (s s' : σ), R s s' → R (f s x) (f s' x)) :
    ∀ (t : List α) (s s' : σ), R s s' → R (t.foldl f s) (t.foldl f s')
  | [], s, s', h => h
  | x :: t, s, s', h => foldl_rel_lift R f hcong t (f s x) (f s' x) (hcong x s s' h)

theorem recSFold_none (schema : Schema) (dloc : CourseKey) (pubRoot : UsageKey) :
    ∀ items : List XBlock, items.foldl (recS schema dloc pubRoot) none = none
  | [] => rfl
  | m :: ms => by
    simp only [List.foldl_cons, recS_none]
    exact recSFold_none schema dloc pubRoot ms

theorem nodup_map_inj_on {α β : Type} (f : α → β) : ∀ {l : List α}, (l.map f).Nodup →
    ∀ a ∈ l, ∀ b ∈ l, f a = f b → a = b := by
  intro l
  induction l with
  | nil => intro _ a ha; exact absurd ha (List.not_mem_nil a)
  | cons x xs ih =>
    intro hnd a ha b hb hfab
    simp only [List.map_cons, List.nodup_cons] at hnd
    rcases List.mem_cons.mp ha with rfl | ha'
    · rcases List.mem_cons.mp hb with rfl | hb'
      · rfl
      · exact absurd (hfab ▸ List.mem_map_of_mem f hb') hnd.1
    · rcases List.mem_cons.mp hb with rfl | hb'
      · exact absurd (hfab ▸ List.mem_map_of_mem f ha') (by
          intro hmem
          exact hnd.1 hmem)
      · exact ih hnd.2 a ha' b hb' hfab

theorem recFold_pending (schema : Schema) (dloc : CourseKey) (pubRoot : UsageKey) :
    ∀ (items : List XBlock) (st0 : SplitStore) (p0 : List (Location × UsageKey))
      (st1 : SplitStore) (p1 : List (Location × UsageKey)),
      items.foldl (recS schema dloc pubRoot) (some (st0, p0)) = some (st1, p1) →
      ∃ q, p1 = p0 ++ q ∧ (q.map Prod.fst).Sublist (items.map XBlock.location) ∧
        ∀ e ∈ q, ∃ m, m ∈ items ∧ e.1 = m.location ∧
          e.2 = dloc.make_usage_key m.category (some m.location.block_id)
  | [], st0, p0, st1, p1, h => by
    simp only [List.foldl_nil, Option.some.injEq, Prod.mk.injEq] at h
    refine ⟨[], by rw [← h.2]; simp, by simp, ?_⟩
    intro e he
    exact absurd he (List.not_mem_nil e)
  | m :: ms, st0, p0, st1, p1, h => by
    simp only [List.foldl_cons] at h
    cases hfb : findBlock (dloc.make_usage_key m.category (some m.location.block_id)).key
        st0.draft with
    | some sm =>
      cases hfv : get_fields_translate_references schema m dloc pubRoot.key.block_id with
      | none =>
        rw [recS_update_fail schema dloc pubRoot st0 p0 m sm hfb hfv,
          recSFold_none schema dloc pubRoot ms] at h
        exact absurd h (by simp)
      | some fvs =>
        rw [recS_update schema dloc pubRoot st0 p0 m sm fvs hfb hfv] at h
        rcases recFold_pending schema dloc pubRoot ms _ p0 st1 p1 h with ⟨q, hq1, hq2, hq3⟩
        refine ⟨q, hq1, ?_, ?_⟩
        · simp only [List.map_cons]
          exact hq2.cons m.location
        · intro e he
          rcases hq3 e he with ⟨m', hm', he1, he2⟩
          exact ⟨m', List.mem_cons_of_mem m hm', he1, he2⟩
    | none =>
      cases hcp : get_json_fields_translate_references schema m dloc pubRoot.key.block_id with
      | none =>
        rw [recS_create_fail schema dloc pubRoot st0 p0 m hfb hcp,
          recSFold_none schema dloc pubRoot ms] at h
        exact absurd h (by simp)
      | some fields =>
        rw [recS_create schema dloc pubRoot st0 p0 m fields hfb hcp] at h
        rcases recFold_pending schema dloc pubRoot ms _ _ st1 p1 h with ⟨q, hq1, hq2, hq3⟩
        refine ⟨(m.location, dloc.make_usage_key m.category (some m.location.block_id)) :: q,
          ?_, ?_, ?_⟩
        · rw [hq1, List.append_assoc]
          rfl
        · simp only [List.map_cons]
          exact hq2.cons₂ m.location
        · intro e he
          rcases List.mem_cons.mp he with rfl | he'
          · exact ⟨m, List.mem_cons_self m ms, rfl, rfl⟩
          · rcases hq3 e he' with ⟨m', hm', he1, he2⟩
            exact ⟨m', List.mem_cons_of_mem m hm', he1, he2⟩

/-- C6 (amended): permuting the source store's draft-only `get_items`
sequence (which also permutes the pending-adoption table) leaves
`_add_draft_modules_to_course` order-independent, PROVIDED every draft-only
block appears in its resolved source parent's children list (with those
children lists duplicate-free), the draft items' locations are
duplicate-free, and distinct resolved source parents never collapse onto
the same destination parent key.  Under these side conditions the two runs
either both abort, or produce destination stores with identical published
branches and extensionally identical draft lookup (in particular the same
children list for every destination parent).  Without the side conditions
the claim is false: see the counterexample. -/
theorem claim6_draft_iteration_order_amended (schema : Schema) (src : SourceStore)
    (items2 : List XBlock) (hperm : src.draft_items.Perm items2)
    (pubRoot : UsageKey) (st : SplitStore) (tr1 tr2 : List StoreOp)
    (hN : (src.draft_items.map XBlock.location).Nodup)
    (hP : ∀ m ∈ src.draft_items, ∀ p P, src.parentOf m.location = some p →
      src.itemOf p = some P → m.location ∈ P.children ∧ P.children.Nodup)
    (hinj : ∀ m ∈ src.draft_items, ∀ m' ∈ src.draft_items, ∀ p p',
      src.parentOf m.location = some p → src.parentOf m'.location = some p' →
      splitParentKey (pubRoot.course_key.for_branch BranchName.draft) pubRoot p =
        splitParentKey (pubRoot.course_key.for_branch BranchName.draft) pubRoot p' →
      p = p') :
    oR (add_draft_modules_to_course schema src pubRoot st tr1).2
      (add_draft_modules_to_course schema { src with draft_items := items2 }
        pubRoot st tr2).2 := by
  cases hf1 : src.draft_items.foldl
      (reconcileDraftItem schema (pubRoot.course_key.for_branch BranchName.draft) pubRoot)
      (tr1 ++ [StoreOp.read Target.src "get_items"],
       some (st, ([] : List (Location × UsageKey)))) with
  | mk trA rA =>
    cases hf2 : items2.foldl
        (reconcileDraftItem schema (pubRoot.course_key.for_branch BranchName.draft) pubRoot)
        (tr2 ++ [StoreOp.read Target.src "get_items"],
         some (st, ([] : List (Location × UsageKey)))) with
    | mk trB rB =>
      have hrA : rA = src.draft_items.foldl
          (recS schema (pubRoot.course_key.for_branch BranchName.draft) pubRoot)
          (some (st, [])) := by
        rw [← recFold_snd schema (pubRoot.course_key.for_branch BranchName.draft) pubRoot
          src.draft_items (tr1 ++ [StoreOp.read Target.src "get_items"]) (some (st, [])), hf1]
      have hrB : rB = items2.foldl
          (recS schema (pubRoot.course_key.for_branch BranchName.draft) pubRoot)
          (some (st, [])) := by
        rw [← recFold_snd schema (pubRoot.course_key.for_branch BranchName.draft) pubRoot
          items2 (tr2 ++ [StoreOp.read Target.src "get_items"]) (some (st, [])), hf2]
      have hcommR : ∀ x ∈ src.draft_items, ∀ y ∈ src.draft_items,
          ∀ s : Option (SplitStore × List (Location × UsageKey)),
          pR (recS schema (pubRoot.course_key.for_branch BranchName.draft) pubRoot
              (recS schema (pubRoot.course_key.for_branch BranchName.draft) pubRoot s x) y)
            (recS schema (pubRoot.course_key.for_branch BranchName.draft) pubRoot
              (recS schema (pubRoot.course_key.for_branch BranchName.draft) pubRoot s y) x) := by
        intro x hx y hy s
        by_cases hxy : x = y
        · subst hxy
          exact pR_refl _
        · exact recS_comm schema (pubRoot.course_key.for_branch BranchName.draft) pubRoot x y
            (fun he => hxy (nodup_map_inj_on XBlock.location hN x hx y hy he)) s
      have hrel : pR rA rB := by
        rw [hrA, hrB]
        exact foldl_perm_rel pR pR_refl (fun h1 h2 => pR_trans h1 h2)
          (recS schema (pubRoot.course_key.for_branch BranchName.draft) pubRoot)
          (fun x s s' h =>
            recS_cong schema (pubRoot.course_key.for_branch BranchName.draft) pubRoot
              x s s' h)
          hperm hcommR (some (st, []))
      cases rA with
      | none =>
        cases rB with
        | none =>
          have hg1 : (add_draft_modules_to_course schema src pubRoot st tr1).2 = none := by
            simp only [add_draft_modules_to_course, hf1]
          have hg2 : (add_draft_modules_to_course schema
              { src with draft_items := items2 } pubRoot st tr2).2 = none := by
            simp only [add_draft_modules_to_course, hf2]
          rw [hg1, hg2]
          trivial
        | some pB =>
          rcases pB with ⟨st2, pend2⟩
          exact hrel.elim
      | some pA =>
        rcases pA with ⟨st1, pend1⟩
        cases rB with
        | none => exact hrel.elim
        | some pB =>
          rcases pB with ⟨st2, pend2⟩
          rcases hrel with ⟨hst, hpermP⟩
          rcases recFold_pending schema (pubRoot.course_key.for_branch BranchName.draft)
              pubRoot src.draft_items st [] st1 pend1 hrA.symm with ⟨q, hq1, hq2, hq3⟩
          have hpend1 : pend1 = q := by simpa using hq1
          have hsub : (pend1.map Prod.fst).Sublist (src.draft_items.map XBlock.location) := by
            rw [hpend1]
            exact hq2
          have hndP : (pend1.map Prod.fst).Nodup := hsub.nodup hN
          have hprov : ∀ e ∈ pend1, ∃ m, m ∈ src.draft_items ∧ e.1 = m.location ∧
              e.2 = (pubRoot.course_key.for_branch BranchName.draft).make_usage_key
                m.category (some m.location.block_id) := by
            intro e he
            rw [hpend1] at he
            exact hq3 e he
          have hcommA : ∀ x ∈ pend1, ∀ y ∈ pend1, ∀ s : Option SplitStore,
              oR (adoptS src (pubRoot.course_key.for_branch BranchName.draft) pubRoot
                  (adoptS src (pubRoot.course_key.for_branch BranchName.draft) pubRoot s x) y)
                (adoptS src (pubRoot.course_key.for_branch BranchName.draft) pubRoot
                  (adoptS src (pubRoot.course_key.for_branch BranchName.draft) pubRoot s y)
                  x) := by
            intro x hx y hy s
            by_cases hxy : x = y
            · subst hxy
              exact oR_refl _
            · have hxy1 : x.1 ≠ y.1 :=
                fun he => hxy (nodup_map_inj_on Prod.fst hndP x hx y hy he)
              rcases hprov x hx with ⟨mx, hmx, hx1, hx2⟩
              rcases hprov y hy with ⟨my, hmy, hy1, hy2⟩
              have hna : x.2 = translateU (pubRoot.course_key.for_branch BranchName.draft)
                  x.1 := by
                rw [hx2, hx1]
                rfl
              have hnb : y.2 = translateU (pubRoot.course_key.for_branch BranchName.draft)
                  y.1 := by
                rw [hy2, hy1]
                rfl
              have hPx : ∀ p P, src.parentOf x.1 = some p → src.itemOf p = some P →
                  x.1 ∈ P.children ∧ P.children.Nodup := by
                rw [hx1]
                exact hP mx hmx
              have hPy : ∀ p P, src.parentOf y.1 = some p → src.itemOf p = some P →
                  y.1 ∈ P.children ∧ P.children.Nodup := by
                rw [hy1]
                exact hP my hmy
              have hinj2 : ∀ p p', src.parentOf x.1 = some p → src.parentOf y.1 = some p' →
                  splitParentKey (pubRoot.course_key.for_branch BranchName.draft) pubRoot p =
                    splitParentKey (pubRoot.course_key.for_branch BranchName.draft) pubRoot
                      p' → p = p' := by
                rw [hx1, hy1]
                exact hinj mx hmx my hmy
              have hcm := adoptS_comm src (pubRoot.course_key.for_branch BranchName.draft)
                pubRoot x.1 y.1 x.2 y.2 hna hnb hxy1 hPx hPy hinj2 s
              simp only [Prod.mk.eta] at hcm
              rw [hcm]
              exact oR_refl _
          have hg1 : (add_draft_modules_to_course schema src pubRoot st tr1).2 =
              pend1.foldl (adoptS src (pubRoot.course_key.for_branch BranchName.draft)
                pubRoot) (some st1) := by
            simp only [add_draft_modules_to_course, hf1]
            exact adoptFold_snd src (pubRoot.course_key.for_branch BranchName.draft) pubRoot
              pend1 trA (some st1)
          have hg2 : (add_draft_modules_to_course schema
              { src with draft_items := items2 } pubRoot st tr2).2 =
              pend2.foldl (adoptS src (pubRoot.course_key.for_branch BranchName.draft)
                pubRoot) (some st2) := by
            simp only [add_draft_modules_to_course, hf2]
            exact adoptFold_snd { src with draft_items := items2 }
              (pubRoot.course_key.for_branch BranchName.draft) pubRoot pend2 trB (some st2)
          rw [hg1, hg2]
          refine oR_trans
            (foldl_rel_lift oR
              (adoptS src (pubRoot.course_key.for_branch BranchName.draft) pubRoot)
              (fun x s s' h =>
                adoptS_cong src (pubRoot.course_key.for_branch BranchName.draft) pubRoot
                  x s s' h)
              pend1 (some st1) (some st2) hst) ?_
          exact foldl_perm_rel oR oR_refl (fun h1 h2 => oR_trans h1 h2)
            (adoptS src (pubRoot.course_key.for_branch BranchName.draft) pubRoot)
            (fun x s s' h =>
              adoptS_cong src (pubRoot.course_key.for_branch BranchName.draft) pubRoot
                x s s' h)
            hpermP hcommA (some st2)

/-- C6 counterexample data: a source chapter whose children list mentions
only the already-published child `a`, while the two draft-only verticals
`x` and `y` (both children of that chapter per `get_parent_location`) are
absent from it — the legacy invariant "parents list the union of their
published and draft children" is violated for them. -/
def cexChapterItem : XBlock :=
  ⟨⟨"chapter", "p"⟩, [("children", Value.locList [⟨"vertical", "a"⟩])]⟩

def cexXBlock : XBlock := ⟨⟨"vertical", "x"⟩, []⟩

def cexYBlock : XBlock := ⟨⟨"vertical", "y"⟩, []⟩

def cexSrc : SourceStore :=
  ⟨"o", "c", "r", ⟨⟨"course", "src"⟩, []⟩, [], [cexXBlock, cexYBlock],
   fun _ => some ⟨"chapter", "p"⟩, fun _ => some cexChapterItem⟩

def cexPubRoot : UsageKey :=
  (⟨"o", "c", "r", BranchName.published⟩ : CourseKey).make_usage_key "course"
    (some splitRootId)

def cexSt : SplitStore :=
  ⟨[], [⟨⟨"chapter", some "p"⟩,
    [("children", SValue.keyList [⟨"vertical", some "a"⟩])]⟩]⟩

/-- C6 (counterexample to the frozen claim): two runs of
`_add_draft_modules_to_course` over the same source store differing only in
the order of the draft-only `get_items` sequence produce different final
destination states: the destination chapter ends with children
`[a, y, x]` in one order and `[a, x, y]` in the other.  Both pending
blocks are missing from the source parent's children list, so the
sibling-cursor walk matches nothing and both orders insert at the same
greedy cursor — first-processed last. -/
theorem claim6_order_dependence_counterexample :
    cexSrc.draft_items.Perm [cexYBlock, cexXBlock] ∧
    ((add_draft_modules_to_course sampleSchema cexSrc cexPubRoot cexSt []).2.bind
        fun s => (findBlock ⟨"chapter", some "p"⟩ s.draft).map SplitBlock.childKeys) =
      some [⟨"vertical", some "a"⟩, ⟨"vertical", some "y"⟩, ⟨"vertical", some "x"⟩] ∧
    ((add_draft_modules_to_course sampleSchema
          { cexSrc with draft_items := [cexYBlock, cexXBlock] } cexPubRoot cexSt []).2.bind
        fun s => (findBlock ⟨"chapter", some "p"⟩ s.draft).map SplitBlock.childKeys) =
      some [⟨"vertical", some "a"⟩, ⟨"vertical", some "x"⟩, ⟨"vertical", some "y"⟩] ∧
    (add_draft_modules_to_course sampleSchema cexSrc cexPubRoot cexSt []).2 ≠
      (add_draft_modules_to_course sampleSchema
        { cexSrc with draft_items := [cexYBlock, cexXBlock] } cexPubRoot cexSt []).2 :=
  ⟨List.Perm.swap cexYBlock cexXBlock [], by decide, by decide, by decide⟩

/-- C6 witness data: the same two draft-only verticals, but listed in the
source chapter's children (the legacy union invariant holds), so the
amended theorem's side conditions are met. -/
def witChapterItem : XBlock :=
  ⟨⟨"chapter", "p"⟩, [("children",
    Value.locList [⟨"vertical", "a"⟩, ⟨"vertical", "x"⟩, ⟨"vertical", "y"⟩])]⟩

def witSrc : SourceStore :=
  ⟨"o", "c", "r", ⟨⟨"course", "src"⟩, []⟩, [], [cexXBlock, cexYBlock],
   fun _ => some ⟨"chapter", "p"⟩, fun _ => some witChapterItem⟩

theorem claim6_draft_iteration_order_amended_witness :
    witSrc.draft_items.Perm [cexYBlock, cexXBlock] ∧
    (witSrc.draft_items.map XBlock.location).Nodup ∧
    oR (add_draft_modules_to_course sampleSchema witSrc cexPubRoot cexSt []).2
      (add_draft_modules_to_course sampleSchema
        { witSrc with draft_items := [cexYBlock, cexXBlock] } cexPubRoot cexSt []).2 :=
  ⟨List.Perm.swap cexYBlock cexXBlock [], by decide,
   claim6_draft_iteration_order_amended sampleSchema witSrc [cexYBlock, cexXBlock]
     (List.Perm.swap cexYBlock cexXBlock []) cexPubRoot cexSt [] [] (by decide)
     (by
       intro m hm p P hp hi
       injection hp with hp2
       subst hp2
       injection hi with hi2
       subst hi2
       fin_cases hm
       · exact ⟨by decide, by decide⟩
       · exact ⟨by decide, by decide⟩)
     (by
       intro m hm m' hm' p p' hp hp' hk
       injection hp with hp2
       injection hp' with hp3
       rw [← hp2, ← hp3])⟩
